import Mathlib

/-!
WzString: a UTF-8 buffer addressed by codepoint position.

Shallow embedding of `lib/framework/wzstring.cpp`.

* A byte is a `Fin 256`; the buffer `_utf8String` is a list of bytes.
* A pair of iterators `(it, end)` is the list of the octets from `it` to `end`, so `it == end`
  is `it = []`, and `it - begin` is the difference of the lengths of `(begin, end)` and
  `(it, end)`.
* `ASSERT` reports to the diagnostic sink and execution continues: a call yields an
  `Outcome`, whose `asserted` flag says whether an `ASSERT` of the call failed and whose
  `result` is the returned value (for a mutating method: the Text after the call) or the
  exception that leaves the call.
* The UTF-8 codec (`utf8::...`, the utfcpp library) is not part of the translated file; it
  is modelled in the namespace `utf8`.
* An argument of type `const WzString &` is a `WzStringRef`: the reference is bound to the
  Text the member function is called on, or to another object. `replace(before, after)` reads
  its arguments again after it has written to the buffer, so the two differ there.
* `std::string` compares octets as unsigned values (`std_string_compare`) and searches with
  `std_find`; a plain `char`, as the loop of `compare(const char*)` compares it, is signed or
  unsigned with the platform (`char_value`).
-/

deriving instance DecidableEq for Except

/-- One octet of a buffer (`char` read through `mask8`, `uint8_t`). -/
abbrev Byte := Fin 256

/-- The conversion `static_cast<uint8_t>(n)`. -/
def toByte (n : Nat) : Byte := ⟨n % 256, Nat.mod_lt n (by decide)⟩

/-- The conversion of an `int` to `size_t` (64 bit). -/
def size_t_of_int (i : Int) : Nat := (i % 18446744073709551616).toNat

/-- The conversion of a count to `int` (32 bit, two's complement). -/
def int_of_nat (n : Nat) : Int :=
  if n % 4294967296 < 2147483648 then ((n % 4294967296 : Nat) : Int)
  else ((n % 4294967296 : Nat) : Int) - 4294967296

namespace utf8

/-- Modelled from the spec: the exceptions of the codec library (utfcpp), which the
translated file catches or lets escape. -/
inductive utf_exception where
  | not_enough_room
  | invalid_utf8 (u8 : Byte)
  | invalid_code_point (cp : Nat)
  | invalid_utf16 (u16 : Nat)
  deriving DecidableEq, Repr

namespace internal

/-- Modelled from the spec: utfcpp `internal::utf_error`, the outcome of decoding one
sequence. -/
inductive utf_error where
  | UTF8_OK
  | NOT_ENOUGH_ROOM
  | INVALID_LEAD
  | INCOMPLETE_SEQUENCE
  | OVERLONG_SEQUENCE
  | INVALID_CODE_POINT
  deriving DecidableEq, Repr

/-- Modelled from the spec: utfcpp `internal::mask8`, `0xff & oc`. -/
def mask8 (oc : Byte) : Nat := 0xff &&& oc.val

/-- Modelled from the spec: utfcpp `internal::mask16`, `0xffff & oc`. -/
def mask16 (oc : Nat) : Nat := 0xffff &&& oc

/-- Modelled from the spec: utfcpp `internal::is_trail`, `(mask8(oc) >> 6) == 0x2`. -/
def is_trail (oc : Byte) : Bool := (mask8 oc >>> 6) == 0x2

/-- Modelled from the spec: utfcpp `internal::is_lead_surrogate`. -/
def is_lead_surrogate (cp : Nat) : Bool := decide (0xd800 ≤ cp) && decide (cp ≤ 0xdbff)

/-- Modelled from the spec: utfcpp `internal::is_trail_surrogate`. -/
def is_trail_surrogate (cp : Nat) : Bool := decide (0xdc00 ≤ cp) && decide (cp ≤ 0xdfff)

/-- Modelled from the spec: utfcpp `internal::is_surrogate`. -/
def is_surrogate (cp : Nat) : Bool := decide (0xd800 ≤ cp) && decide (cp ≤ 0xdfff)

/-- Modelled from the spec: utfcpp `internal::is_code_point_valid`,
`cp <= CODE_POINT_MAX && !is_surrogate(cp)`. -/
def is_code_point_valid (cp : Nat) : Bool := decide (cp ≤ 0x10ffff) && !is_surrogate cp

/-- Modelled from the spec: utfcpp `internal::sequence_length`, the length announced by a lead
octet, `0` for an octet that cannot lead. -/
def sequence_length (lead_it : Byte) : Nat :=
  let lead := mask8 lead_it
  if lead < 0x80 then 1
  else if (lead >>> 5) == 0x6 then 2
  else if (lead >>> 4) == 0xe then 3
  else if (lead >>> 3) == 0x1e then 4
  else 0

/-- Modelled from the spec: utfcpp `internal::is_overlong_sequence`. -/
def is_overlong_sequence (cp : Nat) (length : Nat) : Bool :=
  if cp < 0x80 then length != 1
  else if cp < 0x800 then length != 2
  else if cp < 0x10000 then length != 3
  else false

/-- The octet under an iterator, `*it` (the end iterator is never dereferenced). -/
def deref (it : List Byte) : Byte := it.headD 0

/-- Modelled from the spec: utfcpp `internal::increase_safely`: step to the next octet and
require a trail octet there. -/
def increase_safely (it : List Byte) : utf_error × List Byte :=
  let it1 := it.tail
  if it1 = [] then (utf_error.NOT_ENOUGH_ROOM, it1)
  else if !is_trail (deref it1) then (utf_error.INCOMPLETE_SEQUENCE, it1)
  else (utf_error.UTF8_OK, it1)

/-- Modelled from the spec: utfcpp `internal::get_sequence_1`. -/
def get_sequence_1 (it : List Byte) : utf_error × Nat × List Byte :=
  if it = [] then (utf_error.NOT_ENOUGH_ROOM, 0, it)
  else (utf_error.UTF8_OK, mask8 (deref it), it)

/-- Modelled from the spec: utfcpp `internal::get_sequence_2`. -/
def get_sequence_2 (it : List Byte) : utf_error × Nat × List Byte :=
  if it = [] then (utf_error.NOT_ENOUGH_ROOM, 0, it)
  else
    let code_point := mask8 (deref it)
    match increase_safely it with
    | (utf_error.UTF8_OK, it1) =>
      (utf_error.UTF8_OK, ((code_point <<< 6) &&& 0x7ff) + ((deref it1).val &&& 0x3f), it1)
    | (ret, it1) => (ret, code_point, it1)

/-- Modelled from the spec: utfcpp `internal::get_sequence_3`. -/
def get_sequence_3 (it : List Byte) : utf_error × Nat × List Byte :=
  if it = [] then (utf_error.NOT_ENOUGH_ROOM, 0, it)
  else
    let code_point := mask8 (deref it)
    match increase_safely it with
    | (utf_error.UTF8_OK, it1) =>
      let code_point := ((code_point <<< 12) &&& 0xffff) + ((mask8 (deref it1) <<< 6) &&& 0xfff)
      match increase_safely it1 with
      | (utf_error.UTF8_OK, it2) =>
        (utf_error.UTF8_OK, code_point + ((deref it2).val &&& 0x3f), it2)
      | (ret, it2) => (ret, code_point, it2)
    | (ret, it1) => (ret, code_point, it1)

/-- Modelled from the spec: utfcpp `internal::get_sequence_4`. -/
def get_sequence_4 (it : List Byte) : utf_error × Nat × List Byte :=
  if it = [] then (utf_error.NOT_ENOUGH_ROOM, 0, it)
  else
    let code_point := mask8 (deref it)
    match increase_safely it with
    | (utf_error.UTF8_OK, it1) =>
      let code_point :=
        ((code_point <<< 18) &&& 0x1fffff) + ((mask8 (deref it1) <<< 12) &&& 0x3ffff)
      match increase_safely it1 with
      | (utf_error.UTF8_OK, it2) =>
        let code_point := code_point + ((mask8 (deref it2) <<< 6) &&& 0xfff)
        match increase_safely it2 with
        | (utf_error.UTF8_OK, it3) =>
          (utf_error.UTF8_OK, code_point + ((deref it3).val &&& 0x3f), it3)
        | (ret, it3) => (ret, code_point, it3)
      | (ret, it2) => (ret, code_point, it2)
    | (ret, it1) => (ret, code_point, it1)

/-- Modelled from the spec: utfcpp `internal::validate_next` (decode-next): decodes the
sequence under `it`. On `UTF8_OK` the result carries the code point and the iterator past
the sequence; on an error the iterator is the original one and the code point is not set
(`0` here). -/
def validate_next (it : List Byte) : utf_error × Nat × List Byte :=
  if it = [] then (utf_error.NOT_ENOUGH_ROOM, 0, it)
  else
    let original_it := it
    let length := sequence_length (deref it)
    if length = 0 then (utf_error.INVALID_LEAD, 0, it)
    else
      let r :=
        if length = 1 then get_sequence_1 it
        else if length = 2 then get_sequence_2 it
        else if length = 3 then get_sequence_3 it
        else get_sequence_4 it
      match r with
      | (utf_error.UTF8_OK, cp, it1) =>
        if is_code_point_valid cp then
          if !is_overlong_sequence cp length then (utf_error.UTF8_OK, cp, it1.tail)
          else (utf_error.OVERLONG_SEQUENCE, 0, original_it)
        else (utf_error.INVALID_CODE_POINT, 0, original_it)
      | (err, _, _) => (err, 0, original_it)

end internal

open internal

/-- Modelled from the spec: utfcpp `utf8::append` (encode-append): appends the encoding of
`cp` to `result`, or throws `invalid_code_point`. -/
def append (cp : Nat) (result : List Byte) : Except utf_exception (List Byte) :=
  if !is_code_point_valid cp then Except.error (utf_exception.invalid_code_point cp)
  else if cp < 0x80 then Except.ok (result ++ [toByte cp])
  else if cp < 0x800 then
    Except.ok (result ++ [toByte ((cp >>> 6) ||| 0xc0), toByte ((cp &&& 0x3f) ||| 0x80)])
  else if cp < 0x10000 then
    Except.ok (result ++ [toByte ((cp >>> 12) ||| 0xe0), toByte (((cp >>> 6) &&& 0x3f) ||| 0x80),
      toByte ((cp &&& 0x3f) ||| 0x80)])
  else
    Except.ok (result ++ [toByte ((cp >>> 18) ||| 0xf0), toByte (((cp >>> 12) &&& 0x3f) ||| 0x80),
      toByte (((cp >>> 6) &&& 0x3f) ||| 0x80), toByte ((cp &&& 0x3f) ||| 0x80)])

/-- Modelled from the spec: utfcpp `utf8::next`: decodes one code point and steps past it,
or throws. -/
def next (it : List Byte) : Except utf_exception (Nat × List Byte) :=
  match validate_next it with
  | (utf_error.UTF8_OK, cp, it1) => Except.ok (cp, it1)
  | (utf_error.NOT_ENOUGH_ROOM, _, _) => Except.error utf_exception.not_enough_room
  | (utf_error.INVALID_LEAD, _, it1) => Except.error (utf_exception.invalid_utf8 (deref it1))
  | (utf_error.INCOMPLETE_SEQUENCE, _, it1) =>
    Except.error (utf_exception.invalid_utf8 (deref it1))
  | (utf_error.OVERLONG_SEQUENCE, _, it1) =>
    Except.error (utf_exception.invalid_utf8 (deref it1))
  | (utf_error.INVALID_CODE_POINT, cp, _) => Except.error (utf_exception.invalid_code_point cp)

/-- Modelled from the spec: utfcpp `utf8::advance` for a non-negative count: `n` times
`utf8::next`. -/
def advance : List Byte → Nat → Except utf_exception (List Byte)
  | it, 0 => Except.ok it
  | it, n + 1 =>
    match next it with
    | Except.ok (_, it1) => advance it1 n
    | Except.error e => Except.error e

/-- The loop of utfcpp `utf8::distance`: `for (dist = 0; first < last; ++dist) next(first, last)`.
Every turn consumes an octet, so `fuel` equal to the number of octets is never used up. -/
def distance_loop : Nat → List Byte → Nat → Except utf_exception Nat
  | 0, _, dist => Except.ok dist
  | fuel + 1, first, dist =>
    if first = [] then Except.ok dist
    else
      match next first with
      | Except.ok (_, first1) => distance_loop fuel first1 (dist + 1)
      | Except.error e => Except.error e

/-- Modelled from the spec: utfcpp `utf8::distance`: the number of code points between two
iterators. -/
def distance (first : List Byte) : Except utf_exception Nat :=
  distance_loop first.length first 0

/-- Modelled from the spec: utfcpp `utf8::utf32to8`: appends the encoding of every code
point. -/
def utf32to8 : List Nat → List Byte → Except utf_exception (List Byte)
  | [], result => Except.ok result
  | cp :: start, result =>
    match append cp result with
    | Except.ok result1 => utf32to8 start result1
    | Except.error e => Except.error e

/-- The loop of utfcpp `utf8::find_invalid`; `fuel` as for `distance_loop`. -/
def find_invalid_loop : Nat → List Byte → List Byte
  | 0, result => result
  | fuel + 1, result =>
    if result = [] then result
    else
      match validate_next result with
      | (utf_error.UTF8_OK, _, result1) => find_invalid_loop fuel result1
      | _ => result

/-- Modelled from the spec: utfcpp `utf8::find_invalid`: the iterator at the first invalid
sequence. -/
def find_invalid (start : List Byte) : List Byte := find_invalid_loop start.length start

/-- Modelled from the spec: utfcpp `utf8::is_valid` (validity checking). -/
def is_valid (start : List Byte) : Bool := decide (find_invalid start = [])

/-- Skips trail octets: `while (start != end && is_trail(*start)) ++start`. -/
def skip_trail : List Byte → List Byte
  | [] => []
  | b :: start => if is_trail b then skip_trail start else b :: start

/-- The loop of utfcpp `utf8::replace_invalid`, writing to `out`. A sequence cut off by the
end of the input (`NOT_ENOUGH_ROOM`) throws `not_enough_room` when `strict` is set (utfcpp 2)
and is replaced like any other invalid sequence otherwise (utfcpp 3). -/
def replace_invalid_loop (strict : Bool) (replacement : Nat) :
    Nat → List Byte → List Byte → Except utf_exception (List Byte)
  | 0, _, out => Except.ok out
  | fuel + 1, start, out =>
    if start = [] then Except.ok out
    else
      let sequence_start := start
      match validate_next start with
      | (utf_error.UTF8_OK, _, start1) =>
        replace_invalid_loop strict replacement fuel start1
          (out ++ sequence_start.take (sequence_start.length - start1.length))
      | (utf_error.NOT_ENOUGH_ROOM, _, _) =>
        if strict then Except.error utf_exception.not_enough_room
        else append replacement out
      | (utf_error.INVALID_LEAD, _, start1) =>
        match append replacement out with
        | Except.ok out1 => replace_invalid_loop strict replacement fuel start1.tail out1
        | Except.error e => Except.error e
      | (_, _, start1) =>
        match append replacement out with
        | Except.ok out1 =>
          replace_invalid_loop strict replacement fuel (skip_trail start1.tail) out1
        | Except.error e => Except.error e

/-- Modelled from the spec: utfcpp `utf8::replace_invalid` (the repair-on-error policy):
copies the valid sequences and writes `replacement` for each invalid run. -/
def replace_invalid (strict : Bool) (start : List Byte) (out : List Byte) (replacement : Nat) :
    Except utf_exception (List Byte) :=
  replace_invalid_loop strict replacement start.length start out

/-- Modelled from the spec: utfcpp `utf8::utf16to8` (bulk UTF-16 to UTF-8 conversion);
`SURROGATE_OFFSET` is `0x10000u - (0xd800 << 10) - 0xdc00` in 32-bit arithmetic. -/
def utf16to8 : List Nat → List Byte → Except utf_exception (List Byte)
  | [], result => Except.ok result
  | u :: start, result =>
    let cp := mask16 u
    if is_lead_surrogate cp then
      match start with
      | t :: start1 =>
        let trail_surrogate := mask16 t
        if is_trail_surrogate trail_surrogate then
          (append (((cp <<< 10) + trail_surrogate + 0xfca02400) % 4294967296) result).bind
            (fun result1 => utf16to8 start1 result1)
        else Except.error (utf_exception.invalid_utf16 trail_surrogate)
      | [] => Except.error (utf_exception.invalid_utf16 cp)
    else if is_trail_surrogate cp then Except.error (utf_exception.invalid_utf16 cp)
    else (append cp result).bind (fun result1 => utf16to8 start result1)

end utf8

open utf8 utf8.internal

/-- The Text: it owns the UTF-8 buffer `_utf8String`. -/
structure WzString where
  _utf8String : List Byte
  deriving DecidableEq, Repr

/-- An argument of type `const WzString &` of a member function: the reference is bound to the
Text the function is called on (`self`, the caller passes the Text itself), or to another
object, which the call does not change. -/
inductive WzStringRef where
  | self : WzStringRef
  | object (value : WzString) : WzStringRef
  deriving DecidableEq, Repr

/-- The buffer read through the reference at a moment when the buffer of the Text the function
is called on is `this_utf8String`. -/
def WzStringRef._utf8String (r : WzStringRef) (this_utf8String : List Byte) : List Byte :=
  match r with
  | WzStringRef.self => this_utf8String
  | WzStringRef.object value => value._utf8String

/-- What a call does besides changing the Text: `asserted` says whether an `ASSERT` of the call
failed (the report to the diagnostic sink), `result` is the value the call returns, or the
exception that leaves it. -/
structure Outcome (α : Type) where
  asserted : Bool
  result : Except utf_exception α
  deriving DecidableEq

/-- The function `strlen`: the number of octets before the first NUL. -/
def strlen (str : List Byte) : Nat := (str.takeWhile (fun b => b != 0)).length

/-- The search of `std::string::find(str, pos)` in the octets from index `p` on. -/
def find_aux (str : List Byte) : List Byte → Nat → Option Nat
  | [], p => if str.isPrefixOf [] then some p else none
  | b :: rest, p => if str.isPrefixOf (b :: rest) then some p else find_aux str rest (p + 1)

/-- The function `std::string::find(str, pos)`: the lowest index `p >= pos` at which `str`
occurs in `s`; `none` is `npos`. -/
def std_find (s : List Byte) (str : List Byte) (pos : Nat) : Option Nat :=
  if pos > s.length then none else find_aux str (s.drop pos) pos

/-- Modelled from the spec: `std::to_string` of an unsigned integer, base-10 decimal text. -/
def to_string_nat (n : Nat) : List Byte :=
  if n = 0 then [0x30] else (Nat.digits 10 n).reverse.map (fun d => toByte (0x30 + d))

/-- Modelled from the spec: `std::to_string` of a signed integer, base-10 decimal text,
sign-aware. -/
def to_string_int (n : Int) : List Byte :=
  if n < 0 then 0x2d :: to_string_nat n.natAbs else to_string_nat n.natAbs

namespace WzString

/-- `WzString::_utf8_advance`: `utf8::advance` with `not_enough_room` caught; the result is the
new `it` and the returned flag. Other exceptions of the codec are not caught. -/
def _utf8_advance (it : List Byte) (n : Nat) : Except utf_exception (List Byte × Bool) :=
  match utf8.advance it n with
  | Except.ok it1 => Except.ok (it1, true)
  | Except.error utf_exception.not_enough_room => Except.ok ([], false)
  | Except.error e => Except.error e

/-- `WzString::fromCodepoint`; a codepoint is its UTF-32 value. The constructor from a
`std::string`, declared in the header, takes the octets as they are. -/
def fromCodepoint (codepoint : Nat) : Except utf_exception WzString :=
  match utf8.utf32to8 [codepoint] [] with
  | Except.ok utf8result => Except.ok ⟨utf8result⟩
  | Except.error e => Except.error e

/-- The loop of `WzString::WzString(int size, const WzUniCodepoint& ch)`: the buffer and the
exception that ended the loop, if any. -/
def WzString_size_ch_loop (ch : Nat) : Nat → List Byte → List Byte × Option utf_exception
  | 0, buf => (buf, none)
  | n + 1, buf =>
    match utf8.append ch buf with
    | Except.ok buf1 => WzString_size_ch_loop ch n buf1
    | Except.error e => (buf, some e)

/-- `WzString::WzString(int size, const WzUniCodepoint& ch)`; the loop counter is a `size_t`. -/
def WzString_size_ch (size : Int) (ch : Nat) : Outcome WzString :=
  match WzString_size_ch_loop ch (size_t_of_int size) [] with
  | (buf, none) => ⟨false, Except.ok ⟨buf⟩⟩
  | (buf, some _) => ⟨true, Except.ok ⟨buf⟩⟩

/-- `WzString::WzString(const char * str, int size)`; `str` is `none` for `nullptr` and else
the octets stored from `str` on. `strict` is the codec generation, see
`utf8.replace_invalid_loop`. -/
def WzString_str_size (strict : Bool) (str : Option (List Byte)) (size : Int) :
    Outcome WzString :=
  match str with
  | none => ⟨false, Except.ok ⟨[]⟩⟩
  | some mem =>
    let size := if size < 0 then int_of_nat (strlen mem) else size
    let input := mem.take size.toNat
    let asserted := !utf8.is_valid input
    match utf8.replace_invalid strict input [] 0x3f with
    | Except.ok buf => ⟨asserted, Except.ok ⟨buf⟩⟩
    | Except.error _ => ⟨true, Except.ok ⟨[]⟩⟩

/-- `WzString::fromUtf8(const char *str, int size)`. -/
def fromUtf8 (strict : Bool) (str : Option (List Byte)) (size : Int) : Outcome WzString :=
  WzString_str_size strict str size

/-- `WzString::fromUtf8(const std::string &str)`: `c_str()` is the octets and a NUL. -/
def fromUtf8_string (strict : Bool) (str : List Byte) : Outcome WzString :=
  WzString_str_size strict (some (str ++ [0])) (int_of_nat str.length)

/-- `WzString::fromUtf16`; a code unit is its value. -/
def fromUtf16 (utf16 : List Nat) : Outcome WzString :=
  match utf8.utf16to8 utf16 [] with
  | Except.ok utf8str => ⟨false, Except.ok ⟨utf8str⟩⟩
  | Except.error _ => ⟨true, Except.ok ⟨[]⟩⟩

/-- `WzString::toUtf8`. -/
def toUtf8 (s : WzString) : List Byte := s._utf8String

/-- `WzString::length`: `utf8::distance` over the buffer, returned as `int`. -/
def length (s : WzString) : Except utf_exception Int :=
  match utf8.distance s._utf8String with
  | Except.ok dist => Except.ok (int_of_nat dist)
  | Except.error e => Except.error e

/-- `WzString::at`, for a non-negative `position`: the `ASSERT` reports and execution goes on
to `utf8::next`. -/
def «at» (s : WzString) (position : Nat) : Outcome Nat :=
  match _utf8_advance s._utf8String position with
  | Except.error e => ⟨false, Except.error e⟩
  | Except.ok (it, _) =>
    let asserted := !decide (it ≠ [])
    match utf8.next it with
    | Except.ok (cp, _) => ⟨asserted, Except.ok cp⟩
    | Except.error e => ⟨asserted, Except.error e⟩

/-- `WzString::append(const WzString &str)`. -/
def append_str (s : WzString) (str : WzString) : WzString :=
  ⟨s._utf8String ++ str._utf8String⟩

/-- `WzString::append(const WzUniCodepoint &c)`. -/
def append_c (s : WzString) (c : Nat) : Except utf_exception WzString :=
  match utf8.append c s._utf8String with
  | Except.ok buf => Except.ok ⟨buf⟩
  | Except.error e => Except.error e

/-- `WzString::append(const char* str)`. -/
def append_cstr (strict : Bool) (s : WzString) (str : Option (List Byte)) : Outcome WzString :=
  match fromUtf8 strict str (-1) with
  | ⟨asserted, Except.ok t⟩ => ⟨asserted, Except.ok ⟨s._utf8String ++ t._utf8String⟩⟩
  | ⟨asserted, Except.error e⟩ => ⟨asserted, Except.error e⟩

/-- `WzString::insert(size_t position, const WzString &str)`. -/
def insert_str (s : WzString) (position : Nat) (str : WzString) : Outcome WzString :=
  match _utf8_advance s._utf8String position with
  | Except.error e => ⟨false, Except.error e⟩
  | Except.ok (it, _) =>
    let asserted :=
      if it = [] then
        let distance := s._utf8String.length - it.length
        if distance > position then !decide (it ≠ []) else false
      else false
    ⟨asserted, Except.ok
      ⟨s._utf8String.take (s._utf8String.length - it.length) ++ str._utf8String ++ it⟩⟩

/-- `WzString::insert(size_t i, WzUniCodepoint c)`. -/
def insert_c (s : WzString) (i : Nat) (c : Nat) : Outcome WzString :=
  match _utf8_advance s._utf8String i with
  | Except.error e => ⟨false, Except.error e⟩
  | Except.ok (it, _) =>
    let asserted :=
      if it = [] then
        let distance := s._utf8String.length - it.length
        if distance > i then !decide (it ≠ []) else false
      else false
    match fromCodepoint c with
    | Except.error e => ⟨asserted, Except.error e⟩
    | Except.ok cUtf8Codepoints =>
      ⟨asserted, Except.ok
        ⟨s._utf8String.take (s._utf8String.length - it.length) ++ cUtf8Codepoints._utf8String
          ++ it⟩⟩

/-- `WzString::remove(size_t i, int len)`. -/
def remove (s : WzString) (i : Nat) (len : Int) : Except utf_exception WzString :=
  if len ≤ 0 then Except.ok s
  else
    match _utf8_advance s._utf8String i with
    | Except.error e => Except.error e
    | Except.ok (it, _) =>
      if it = [] then Except.ok s
      else
        match _utf8_advance it len.toNat with
        | Except.error e => Except.error e
        | Except.ok (_, false) =>
          Except.ok ⟨s._utf8String.take (s._utf8String.length - it.length)⟩
        | Except.ok (it_last, true) =>
          Except.ok ⟨s._utf8String.take (s._utf8String.length - it.length) ++ it_last⟩

/-- The loop of `replace(position, n, after)` that builds `cUtf8Codepoints`. -/
def repeat_bytes (chunk : List Byte) : Nat → List Byte → List Byte
  | 0, acc => acc
  | n + 1, acc => repeat_bytes chunk n (acc ++ chunk)

/-- `WzString::replace(size_t position, int n, const WzUniCodepoint &after)`, for a
non-negative `n`. -/
def replace_pos (s : WzString) (position : Nat) (n : Nat) (after : Nat) :
    Except utf_exception WzString :=
  match _utf8_advance s._utf8String position with
  | Except.error e => Except.error e
  | Except.ok (_, false) => Except.ok s
  | Except.ok (it_replace_start, true) =>
    match _utf8_advance it_replace_start n with
    | Except.error e => Except.error e
    | Except.ok (it_replace_end, _) =>
      match utf8.distance
        (it_replace_start.take (it_replace_start.length - it_replace_end.length)) with
      | Except.error e => Except.error e
      | Except.ok numCodepoints =>
        match fromCodepoint after with
        | Except.error e => Except.error e
        | Except.ok cUtf8After =>
          let cUtf8Codepoints := repeat_bytes cUtf8After._utf8String numCodepoints []
          Except.ok ⟨s._utf8String.take (s._utf8String.length - it_replace_start.length)
            ++ cUtf8Codepoints ++ it_replace_end⟩

/-- The loop of `replace(before, after)`: `fuel` bounds the number of turns; the result is the
buffer and the number of substitutions made, or `none` when the loop has not ended within
`fuel` turns. `before` and `after` are references: on every turn `before._utf8String` is read
for the search and for its length, `after._utf8String` is read for the substitution, and
`after._utf8String.length()` is read once more after the substitution to move `pos`.
`std::string::replace` with the string itself as argument inserts the value the string had
before the call. -/
def replace_str_loop (before after : WzStringRef) :
    Nat → List Byte → Nat → Nat → Option (List Byte × Nat)
  | 0, _, _, _ => none
  | fuel + 1, buf, pos, k =>
    match std_find buf (before._utf8String buf) pos with
    | none => some (buf, k)
    | some p =>
      let replaced :=
        buf.take p ++ after._utf8String buf ++ buf.drop (p + (before._utf8String buf).length)
      replace_str_loop before after fuel replaced (p + (after._utf8String replaced).length)
        (k + 1)

/-- `WzString::replace(const WzString &before, const WzString &after)` with the number of
substitutions it makes; `none` when the loop does not end within `fuel` turns. -/
def replace_str_count (fuel : Nat) (s : WzString) (before after : WzStringRef) :
    Option (WzString × Nat) :=
  if before._utf8String s._utf8String = [] then some (s, 0)
  else
    match replace_str_loop before after fuel s._utf8String 0 0 with
    | some (buf, k) => some (⟨buf⟩, k)
    | none => none

/-- `WzString::replace(const WzString &before, const WzString &after)`; the loop is given one
turn more than the buffer has octets. -/
def replace_str (s : WzString) (before after : WzStringRef) : Option WzString :=
  (replace_str_count (s._utf8String.length + 1) s before after).map Prod.fst

/-- `WzString::truncate(int position)`. -/
def truncate (s : WzString) (position : Int) : Except utf_exception WzString :=
  let position := if position < 0 then 0 else position
  if position = 0 then Except.ok ⟨[]⟩
  else
    match _utf8_advance s._utf8String position.toNat with
    | Except.error e => Except.error e
    | Except.ok (it, _) =>
      if it ≠ [] then Except.ok ⟨s._utf8String.take (s._utf8String.length - it.length)⟩
      else Except.ok s

/-- `WzString::clear`. -/
def clear (_s : WzString) : WzString := ⟨[]⟩

/-- `WzString::number` for `int32_t`, `uint32_t`, `int64_t` and `uint64_t`, which differ in the
range of `n` only. -/
def number (n : Int) : WzString := ⟨to_string_int n⟩

/-- `WzString::number(double n)`: the buffer is `ss.str()`, the text the stream with the classic
locale has written for `n`. -/
def number_double (ss_str : List Byte) : WzString := ⟨ss_str⟩

/-- `WzString::leftPadToMinimumLength`; `length()` is compared as a `size_t`. -/
def leftPadToMinimumLength (s : WzString) (ch : Nat) (minimumStringLength : Nat) :
    Outcome WzString :=
  match length s with
  | Except.error e => ⟨false, Except.error e⟩
  | Except.ok len =>
    if size_t_of_int len ≥ minimumStringLength then ⟨false, Except.ok s⟩
    else
      let leftPaddingRequired :=
        (minimumStringLength + (18446744073709551616 - size_t_of_int len)) % 18446744073709551616
      match fromCodepoint ch with
      | Except.error e => ⟨false, Except.error e⟩
      | Except.ok chUtf8 =>
        let utf8Padding : WzString := ⟨repeat_bytes chUtf8._utf8String leftPaddingRequired []⟩
        insert_str s 0 utf8Padding

/-- `WzString::operator=(const WzUniCodepoint& ch)`. -/
def assign_c (_s : WzString) (ch : Nat) : Except utf_exception WzString :=
  append_c ⟨[]⟩ ch

end WzString

/-- `WzString::WzUniCodepointRef`: the codepoint read when the reference was made, the Text it
refers to and the position in it. -/
structure WzUniCodepointRef where
  _codepoint : Nat
  _parentString : WzString
  _position : Nat
  deriving DecidableEq, Repr

/-- `WzUniCodepointRef::operator=(const WzUniCodepoint& ch)`: the parent Text after the
assignment. -/
def WzUniCodepointRef.assign (ref : WzUniCodepointRef) (ch : Nat) :
    Except utf_exception WzString :=
  WzString.replace_pos ref._parentString ref._position 1 ch

/-! ## What the claims speak of -/

/-- A valid codepoint: at most `0x10FFFF` and not a surrogate. -/
def validCodepoint (c : Nat) : Prop := c ≤ 0x10FFFF ∧ ¬ (0xD800 ≤ c ∧ c ≤ 0xDFFF)

instance (c : Nat) : Decidable (validCodepoint c) := by
  unfold validCodepoint
  exact inferInstance

/-- The UTF-8 encoding of a codepoint (Unicode, table 3-6), in arithmetic. -/
def utf8Encode (c : Nat) : List Byte :=
  if c < 0x80 then [toByte c]
  else if c < 0x800 then [toByte (0xC0 + c / 64), toByte (0x80 + c % 64)]
  else if c < 0x10000 then
    [toByte (0xE0 + c / 4096), toByte (0x80 + c / 64 % 64), toByte (0x80 + c % 64)]
  else
    [toByte (0xF0 + c / 262144), toByte (0x80 + c / 4096 % 64), toByte (0x80 + c / 64 % 64),
      toByte (0x80 + c % 64)]

/-- The UTF-8 encoding of a sequence of codepoints. -/
def utf8EncodeAll (cs : List Nat) : List Byte := cs.flatMap utf8Encode

/-- The buffer `buf` holds exactly the codepoints `cs`, all valid. -/
def Encodes (buf : List Byte) (cs : List Nat) : Prop :=
  (∀ c ∈ cs, validCodepoint c) ∧ buf = utf8EncodeAll cs

/-- Well-formed UTF-8: the encoding of some sequence of valid codepoints. -/
def WellFormed (buf : List Byte) : Prop := ∃ cs, Encodes buf cs

/-- The replacement the spec describes, as a scan of the ORIGINAL octets `s` from the left:
`ScanReplace before after s r k` says that replacing each leftmost non-overlapping occurrence
of `before` in `s` by `after`, and copying every other octet, gives `r`, and that there are `k`
such occurrences. -/
inductive ScanReplace (before after : List Byte) : List Byte → List Byte → Nat → Prop where
  | done : ScanReplace before after [] [] 0
  | hit (rest r : List Byte) (k : Nat) :
      ScanReplace before after rest r k →
      ScanReplace before after (before ++ rest) (after ++ r) (k + 1)
  | skip (b : Byte) (rest r : List Byte) (k : Nat) :
      ¬ before <+: (b :: rest) →
      ScanReplace before after rest r k →
      ScanReplace before after (b :: rest) (b :: r) k

/-! ## Conversion to UTF-16, comparison, search and the indexed reference -/

namespace utf8

/-- The conversion `static_cast<uint16_t>(n)`. -/
def toU16 (n : Nat) : Nat := n % 65536

/-- Modelled from the spec: utfcpp `utf8::peek_next`: `utf8::next` on a copy of the iterator. -/
def peek_next (it : List Byte) : Except utf_exception Nat :=
  match next it with
  | Except.ok (cp, _) => Except.ok cp
  | Except.error e => Except.error e

/-- The loop of utfcpp `utf8::utf8to16`; `LEAD_OFFSET` is `0xd800 - (0x10000 >> 10)`, that is
`0xd7c0`, and `TRAIL_SURROGATE_MIN` is `0xdc00`. Every turn consumes an octet, so `fuel` equal
to the number of octets is never used up. -/
def utf8to16_loop : Nat → List Byte → List Nat → Except utf_exception (List Nat)
  | 0, _, result => Except.ok result
  | fuel + 1, start, result =>
    if start = [] then Except.ok result
    else
      match next start with
      | Except.ok (cp, start1) =>
        if cp > 0xffff then
          utf8to16_loop fuel start1
            (result ++ [toU16 ((cp >>> 10) + 0xd7c0), toU16 ((cp &&& 0x3ff) + 0xdc00)])
        else utf8to16_loop fuel start1 (result ++ [toU16 cp])
      | Except.error e => Except.error e

/-- Modelled from the spec: utfcpp `utf8::utf8to16` (bulk UTF-8 to UTF-16 conversion). -/
def utf8to16 (start : List Byte) (result : List Nat) : Except utf_exception (List Nat) :=
  utf8to16_loop start.length start result

end utf8

/-- Modelled from the spec: `std::string::compare`, by sign: the octets are compared as
unsigned values (`char_traits<char>`), a proper initial part is less. -/
def std_string_compare : List Byte → List Byte → Int
  | [], [] => 0
  | [], _ :: _ => -1
  | _ :: _, [] => 1
  | x :: xs, y :: ys =>
    if x.val < y.val then -1
    else if y.val < x.val then 1
    else std_string_compare xs ys

/-- Modelled from the spec: `operator<` of `std::string`, `lhs.compare(rhs) < 0`. -/
def std_string_lt (a b : List Byte) : Bool := decide (std_string_compare a b < 0)

/-- Modelled from the spec: `operator==` of `std::string`: the same octets. -/
def std_string_eq (a b : List Byte) : Bool := decide (a = b)

/-- Modelled from the spec: `std::string::compare(pos, len, str)`: the part of `s` from `pos`,
at most `len` octets long, is compared with `str`; `pos` is never past the end here. -/
def std_string_compare_sub (s : List Byte) (pos len : Nat) (str : List Byte) : Int :=
  std_string_compare ((s.drop pos).take len) str

/-- The value of a `char` in a comparison: a plain `char` is signed on some platforms (x86)
and unsigned on others (ARM Linux); `char_signed` says which. -/
def char_value (char_signed : Bool) (b : Byte) : Int :=
  if char_signed && decide (128 ≤ b.val) then (b.val : Int) - 256 else (b.val : Int)

namespace WzString

/-- `WzString::toUtf16`. -/
def toUtf16 (s : WzString) : Except utf_exception (List Nat) :=
  utf8.utf8to16 s._utf8String []

/-- `WzString::operator==`. -/
def op_eq (s other : WzString) : Bool := std_string_eq s._utf8String other._utf8String

/-- `WzString::operator!=`. -/
def op_ne (s other : WzString) : Bool := !op_eq s other

/-- `WzString::operator <`. -/
def op_lt (s str : WzString) : Bool := std_string_lt s._utf8String str._utf8String

/-- `WzString::compare(const WzString &other)`. -/
def compare (s other : WzString) : Int :=
  if std_string_lt s._utf8String other._utf8String then -1
  else if std_string_eq s._utf8String other._utf8String then 0
  else 1

/-- The loop of `WzString::compare(const char *other)` and the test after it: `first1` runs
over the buffer, `first2` over the octets stored from `other` on (a NUL where they end). -/
def compare_cstr_loop (char_signed : Bool) : List Byte → List Byte → Int
  | [], first2 => if (deref first2).val = 0 then 0 else -1
  | c1 :: first1, first2 =>
    let c2 := deref first2
    if c2.val = 0 || decide (char_value char_signed c2 < char_value char_signed c1) then 1
    else if char_value char_signed c1 < char_value char_signed c2 then -1
    else compare_cstr_loop char_signed first1 first2.tail

/-- `WzString::compare(const char *other)`. -/
def compare_cstr (char_signed : Bool) (s : WzString) (other : List Byte) : Int :=
  compare_cstr_loop char_signed s._utf8String other

/-- `WzString::startsWith(const WzString &other)`. -/
def startsWith (s other : WzString) : Bool :=
  std_string_compare_sub s._utf8String 0 other._utf8String.length other._utf8String == 0

/-- `WzString::startsWith(const char* other)`; `other` is the octets stored from the pointer
on. -/
def startsWith_cstr (s : WzString) (other : List Byte) : Bool :=
  std_string_compare_sub s._utf8String 0 (strlen other) (other.take (strlen other)) == 0

/-- `WzString::endsWith`. -/
def endsWith (s other : WzString) : Bool :=
  if s._utf8String.length ≥ other._utf8String.length then
    std_string_compare_sub s._utf8String (s._utf8String.length - other._utf8String.length)
      other._utf8String.length other._utf8String == 0
  else false

/-- `WzString::contains(const WzString &other)`. -/
def contains_str (s other : WzString) : Bool :=
  (std_find s._utf8String other._utf8String 0).isSome

/-- `WzString::contains(const WzUniCodepoint &codepoint)`. -/
def contains_c (s : WzString) (codepoint : Nat) : Except utf_exception Bool :=
  match fromCodepoint codepoint with
  | Except.ok t => Except.ok (contains_str s t)
  | Except.error e => Except.error e

/-- `WzString::operator[]`, for a non-negative `position`: the `ASSERT` reports and execution
goes on to `utf8::peek_next`; the reference holds the codepoint read, the Text and the
position. -/
def op_index (s : WzString) (position : Nat) : Outcome WzUniCodepointRef :=
  match _utf8_advance s._utf8String position with
  | Except.error e => ⟨false, Except.error e⟩
  | Except.ok (it, _) =>
    let asserted := !decide (it ≠ [])
    match utf8.peek_next it with
    | Except.ok cp => ⟨asserted, Except.ok ⟨cp, s, position⟩⟩
    | Except.error e => ⟨asserted, Except.error e⟩

end WzString

/-- `WzUniCodepoint::fromASCII`: an octet with the high bit set fires the `ASSERT` and gives the
codepoint zero. -/
def WzUniCodepoint.fromASCII (charLiteral : Byte) : Outcome Nat :=
  if (charLiteral.val >>> 7) ≠ 0 then ⟨true, Except.ok 0⟩
  else
    match utf8.next [charLiteral] with
    | Except.ok (codepoint, _) => ⟨false, Except.ok codepoint⟩
    | Except.error e => ⟨false, Except.error e⟩

/-- The lexicographic comparison of two sequences of codepoints by numeric value, by sign. -/
def codepointsCompare : List Nat → List Nat → Int
  | [], [] => 0
  | [], _ :: _ => -1
  | _ :: _, [] => 1
  | x :: xs, y :: ys =>
    if x < y then -1
    else if y < x then 1
    else codepointsCompare xs ys

/-- The UTF-16 encoding of a codepoint, in arithmetic: the codepoint itself below `0x10000`, a
surrogate pair from there on. -/
def utf16Encode (c : Nat) : List Nat :=
  if c < 0x10000 then [c]
  else [0xD800 + (c - 0x10000) / 1024, 0xDC00 + (c - 0x10000) % 1024]

/-- The UTF-16 encoding of a sequence of codepoints. -/
def utf16EncodeAll (cs : List Nat) : List Nat := cs.flatMap utf16Encode

/-! ## The codec: octets and arithmetic -/

set_option maxRecDepth 100000 in
theorem mask8_eq (b : Byte) : mask8 b = b.val := by
  revert b; decide

set_option maxRecDepth 100000 in
theorem is_trail_eq (b : Byte) : is_trail b = decide (128 ≤ b.val ∧ b.val < 192) := by
  revert b; decide

set_option maxRecDepth 100000 in
theorem sequence_length_eq (b : Byte) : sequence_length b =
    if b.val < 128 then 1 else if b.val < 192 then 0 else if b.val < 224 then 2
    else if b.val < 240 then 3 else if b.val < 248 then 4 else 0 := by
  revert b; decide

theorem toByte_val (n : Nat) : (toByte n).val = n % 256 := rfl

theorem and_3f (x : Nat) : x &&& 0x3f = x % 64 := Nat.and_pow_two_sub_one_eq_mod x 6
theorem and_7ff (x : Nat) : x &&& 0x7ff = x % 2048 := Nat.and_pow_two_sub_one_eq_mod x 11
theorem and_fff (x : Nat) : x &&& 0xfff = x % 4096 := Nat.and_pow_two_sub_one_eq_mod x 12
theorem and_ffff (x : Nat) : x &&& 0xffff = x % 65536 := Nat.and_pow_two_sub_one_eq_mod x 16
theorem and_3ffff (x : Nat) : x &&& 0x3ffff = x % 262144 := Nat.and_pow_two_sub_one_eq_mod x 18
theorem and_1fffff (x : Nat) : x &&& 0x1fffff = x % 2097152 := Nat.and_pow_two_sub_one_eq_mod x 21
theorem or_80 : ∀ a : Nat, a < 64 → a ||| 0x80 = a + 0x80 := by decide
theorem or_c0 : ∀ a : Nat, a < 32 → a ||| 0xc0 = a + 0xc0 := by decide
theorem or_e0 : ∀ a : Nat, a < 16 → a ||| 0xe0 = a + 0xe0 := by decide
theorem or_f0 : ∀ a : Nat, a < 8 → a ||| 0xf0 = a + 0xf0 := by decide

theorem is_code_point_valid_iff (c : Nat) : is_code_point_valid c = true ↔ validCodepoint c := by
  simp [is_code_point_valid, is_surrogate, validCodepoint]
  omega

theorem append_eq (c : Nat) (h : validCodepoint c) (result : List Byte) :
    utf8.append c result = Except.ok (result ++ utf8Encode c) := by
  have hv := (is_code_point_valid_iff c).2 h
  obtain ⟨h1, h2⟩ := h
  unfold utf8.append utf8Encode
  simp only [hv, Bool.not_true, Bool.false_eq_true, if_false]
  simp only [Nat.shiftRight_eq_div_pow, and_3f]
  split_ifs with a b c'
  · rfl
  · rw [or_c0 _ (by omega), or_80 _ (by omega)]; simp [Nat.add_comm]
  · rw [or_e0 _ (by omega), or_80 _ (by omega), or_80 _ (by omega)]; simp [Nat.add_comm]
  · rw [or_f0 _ (by omega), or_80 _ (by omega), or_80 _ (by omega), or_80 _ (by omega)]
    simp [Nat.add_comm]

theorem increase_safely_trail (b0 b1 : Byte) (rest : List Byte)
    (h : 128 ≤ b1.val ∧ b1.val < 192) :
    increase_safely (b0 :: b1 :: rest) = (utf_error.UTF8_OK, b1 :: rest) := by
  have ht : is_trail b1 = true := by rw [is_trail_eq]; simp; omega
  simp [increase_safely, deref, ht]

theorem get_sequence_2_trail (b0 b1 : Byte) (rest : List Byte)
    (h0 : 192 ≤ b0.val ∧ b0.val < 224) (h1 : 128 ≤ b1.val ∧ b1.val < 192) :
    get_sequence_2 (b0 :: b1 :: rest)
      = (utf_error.UTF8_OK, (b0.val - 192) * 64 + (b1.val - 128), b1 :: rest) := by
  have hc : ((b0.val <<< 6) &&& 0x7ff) + (b1.val &&& 0x3f)
      = (b0.val - 192) * 64 + (b1.val - 128) := by
    rw [Nat.shiftLeft_eq, and_7ff, and_3f]; omega
  unfold get_sequence_2
  rw [increase_safely_trail b0 b1 rest h1]
  simp only [List.cons_ne_nil, if_false, deref, List.headD_cons, mask8_eq, hc]

theorem get_sequence_3_trail (b0 b1 b2 : Byte) (rest : List Byte)
    (h0 : 224 ≤ b0.val ∧ b0.val < 240) (h1 : 128 ≤ b1.val ∧ b1.val < 192)
    (h2 : 128 ≤ b2.val ∧ b2.val < 192) :
    get_sequence_3 (b0 :: b1 :: b2 :: rest)
      = (utf_error.UTF8_OK, (b0.val - 224) * 4096 + (b1.val - 128) * 64 + (b2.val - 128),
          b2 :: rest) := by
  have hc : ((b0.val <<< 12) &&& 0xffff) + ((b1.val <<< 6) &&& 0xfff) + (b2.val &&& 0x3f)
      = (b0.val - 224) * 4096 + (b1.val - 128) * 64 + (b2.val - 128) := by
    rw [Nat.shiftLeft_eq, Nat.shiftLeft_eq, and_ffff, and_fff, and_3f]; omega
  unfold get_sequence_3
  rw [increase_safely_trail b0 b1 _ h1]
  simp only [List.cons_ne_nil, if_false]
  rw [increase_safely_trail b1 b2 _ h2]
  simp only [deref, List.headD_cons, mask8_eq, hc]

theorem get_sequence_4_trail (b0 b1 b2 b3 : Byte) (rest : List Byte)
    (h0 : 240 ≤ b0.val ∧ b0.val < 248) (h1 : 128 ≤ b1.val ∧ b1.val < 192)
    (h2 : 128 ≤ b2.val ∧ b2.val < 192) (h3 : 128 ≤ b3.val ∧ b3.val < 192) :
    get_sequence_4 (b0 :: b1 :: b2 :: b3 :: rest)
      = (utf_error.UTF8_OK,
          (b0.val - 240) * 262144 + (b1.val - 128) * 4096 + (b2.val - 128) * 64 + (b3.val - 128),
          b3 :: rest) := by
  have hc : ((b0.val <<< 18) &&& 0x1fffff) + ((b1.val <<< 12) &&& 0x3ffff)
      + ((b2.val <<< 6) &&& 0xfff) + (b3.val &&& 0x3f)
      = (b0.val - 240) * 262144 + (b1.val - 128) * 4096 + (b2.val - 128) * 64 + (b3.val - 128) := by
    rw [Nat.shiftLeft_eq, Nat.shiftLeft_eq, Nat.shiftLeft_eq, and_1fffff, and_3ffff, and_fff,
      and_3f]
    omega
  unfold get_sequence_4
  rw [increase_safely_trail b0 b1 _ h1]
  simp only [List.cons_ne_nil, if_false]
  rw [increase_safely_trail b1 b2 _ h2]
  simp only []
  rw [increase_safely_trail b2 b3 _ h3]
  simp only [deref, List.headD_cons, mask8_eq, hc]

theorem validate_next_1 (b0 : Byte) (rest : List Byte) (h0 : b0.val < 128) :
    validate_next (b0 :: rest) = (utf_error.UTF8_OK, b0.val, rest) := by
  have hs : sequence_length b0 = 1 := by rw [sequence_length_eq]; simp [h0]
  have hv : is_code_point_valid b0.val = true := by
    rw [is_code_point_valid_iff]; unfold validCodepoint; omega
  simp [validate_next, deref, hs, get_sequence_1, mask8_eq, hv, is_overlong_sequence, h0]

theorem validate_next_2 (b0 b1 : Byte) (rest : List Byte)
    (h0 : 192 ≤ b0.val ∧ b0.val < 224) (h1 : 128 ≤ b1.val ∧ b1.val < 192) :
    validate_next (b0 :: b1 :: rest) =
      if 128 ≤ (b0.val - 192) * 64 + (b1.val - 128)
      then (utf_error.UTF8_OK, (b0.val - 192) * 64 + (b1.val - 128), rest)
      else (utf_error.OVERLONG_SEQUENCE, 0, b0 :: b1 :: rest) := by
  have hs : sequence_length b0 = 2 := by
    rw [sequence_length_eq]; split_ifs <;> omega
  have hlt : (b0.val - 192) * 64 + (b1.val - 128) < 2048 := by omega
  unfold validate_next
  simp only [deref, hs, List.headD_cons, get_sequence_2_trail b0 b1 rest h0 h1]
  generalize (b0.val - 192) * 64 + (b1.val - 128) = cp at *
  have hv : is_code_point_valid cp = true := by
    rw [is_code_point_valid_iff]; unfold validCodepoint; omega
  by_cases hh : cp < 128
  · have h2 : ¬ 128 ≤ cp := by omega
    simp [hv, is_overlong_sequence, hh, h2]
  · have h2 : 128 ≤ cp := by omega
    simp [hv, is_overlong_sequence, hh, h2, hlt]

theorem validate_next_3 (b0 b1 b2 : Byte) (rest : List Byte)
    (h0 : 224 ≤ b0.val ∧ b0.val < 240) (h1 : 128 ≤ b1.val ∧ b1.val < 192)
    (h2 : 128 ≤ b2.val ∧ b2.val < 192) :
    validate_next (b0 :: b1 :: b2 :: rest) =
      if validCodepoint ((b0.val - 224) * 4096 + (b1.val - 128) * 64 + (b2.val - 128)) then
        if 2048 ≤ (b0.val - 224) * 4096 + (b1.val - 128) * 64 + (b2.val - 128)
        then (utf_error.UTF8_OK, (b0.val - 224) * 4096 + (b1.val - 128) * 64 + (b2.val - 128), rest)
        else (utf_error.OVERLONG_SEQUENCE, 0, b0 :: b1 :: b2 :: rest)
      else (utf_error.INVALID_CODE_POINT, 0, b0 :: b1 :: b2 :: rest) := by
  have hs : sequence_length b0 = 3 := by
    rw [sequence_length_eq]; split_ifs <;> omega
  have hlt : (b0.val - 224) * 4096 + (b1.val - 128) * 64 + (b2.val - 128) < 65536 := by omega
  unfold validate_next
  simp only [deref, hs, List.headD_cons, get_sequence_3_trail b0 b1 b2 rest h0 h1 h2]
  generalize (b0.val - 224) * 4096 + (b1.val - 128) * 64 + (b2.val - 128) = cp at *
  by_cases hv : validCodepoint cp
  · have hv2 := (is_code_point_valid_iff cp).2 hv
    by_cases hh : cp < 2048
    · have h2 : ¬ 2048 ≤ cp := by omega
      by_cases h3 : cp < 128
      · simp [hv, hv2, is_overlong_sequence, hh, h2, h3]
      · simp [hv, hv2, is_overlong_sequence, hh, h2, h3]
    · have h2 : 2048 ≤ cp := by omega
      have h3 : ¬ cp < 128 := by omega
      simp [hv, hv2, is_overlong_sequence, hh, h2, h3, hlt]
  · have hv2 : is_code_point_valid cp = false := by
      rw [← Bool.not_eq_true, is_code_point_valid_iff]; exact hv
    simp [hv, hv2]

theorem validate_next_4 (b0 b1 b2 b3 : Byte) (rest : List Byte)
    (h0 : 240 ≤ b0.val ∧ b0.val < 248) (h1 : 128 ≤ b1.val ∧ b1.val < 192)
    (h2 : 128 ≤ b2.val ∧ b2.val < 192) (h3 : 128 ≤ b3.val ∧ b3.val < 192) :
    validate_next (b0 :: b1 :: b2 :: b3 :: rest) =
      if validCodepoint
          ((b0.val - 240) * 262144 + (b1.val - 128) * 4096 + (b2.val - 128) * 64 + (b3.val - 128))
      then
        if 65536 ≤
          (b0.val - 240) * 262144 + (b1.val - 128) * 4096 + (b2.val - 128) * 64 + (b3.val - 128)
        then (utf_error.UTF8_OK,
          (b0.val - 240) * 262144 + (b1.val - 128) * 4096 + (b2.val - 128) * 64 + (b3.val - 128),
          rest)
        else (utf_error.OVERLONG_SEQUENCE, 0, b0 :: b1 :: b2 :: b3 :: rest)
      else (utf_error.INVALID_CODE_POINT, 0, b0 :: b1 :: b2 :: b3 :: rest) := by
  have hs : sequence_length b0 = 4 := by
    rw [sequence_length_eq]; split_ifs <;> omega
  unfold validate_next
  simp only [deref, hs, List.headD_cons, get_sequence_4_trail b0 b1 b2 b3 rest h0 h1 h2 h3]
  generalize (b0.val - 240) * 262144 + (b1.val - 128) * 4096 + (b2.val - 128) * 64
    + (b3.val - 128) = cp at *
  by_cases hvc : validCodepoint cp
  · have hv2 := (is_code_point_valid_iff cp).2 hvc
    by_cases hh : 65536 ≤ cp
    · have h5 : ¬ cp < 128 := by omega
      have h6 : ¬ cp < 2048 := by omega
      have h7 : ¬ cp < 65536 := by omega
      simp [hvc, hv2, is_overlong_sequence, hh, h5, h6, h7]
    · have h7 : cp < 65536 := by omega
      by_cases h5 : cp < 128
      · simp [hvc, hv2, is_overlong_sequence, hh, h5]
      · by_cases h6 : cp < 2048
        · simp [hvc, hv2, is_overlong_sequence, hh, h5, h6]
        · simp [hvc, hv2, is_overlong_sequence, hh, h5, h6, h7]
  · have hv2 : is_code_point_valid cp = false := by
      rw [← Bool.not_eq_true, is_code_point_valid_iff]; exact hvc
    simp [hvc, hv2]

/-! Shapes that do not decode. -/

theorem validate_next_lead0 (b0 : Byte) (t : List Byte) (h : sequence_length b0 = 0) :
    (validate_next (b0 :: t)).1 ≠ utf_error.UTF8_OK := by
  simp [validate_next, deref, h]

theorem increase_safely_nil (b0 : Byte) :
    increase_safely [b0] = (utf_error.NOT_ENOUGH_ROOM, []) := by
  simp [increase_safely]

theorem increase_safely_not_trail (b0 b1 : Byte) (rest : List Byte)
    (h : ¬ (128 ≤ b1.val ∧ b1.val < 192)) :
    increase_safely (b0 :: b1 :: rest) = (utf_error.INCOMPLETE_SEQUENCE, b1 :: rest) := by
  have ht : is_trail b1 = false := by rw [is_trail_eq]; simpa using h
  simp [increase_safely, deref, ht]

theorem increase_safely_cases (b0 : Byte) (t : List Byte) :
    (∃ b1 rest, t = b1 :: rest ∧ (128 ≤ b1.val ∧ b1.val < 192)
      ∧ increase_safely (b0 :: t) = (utf_error.UTF8_OK, t))
    ∨ (∃ e it1, e ≠ utf_error.UTF8_OK ∧ increase_safely (b0 :: t) = (e, it1)) := by
  rcases t with _ | ⟨b1, rest⟩
  · right; exact ⟨_, _, by decide, increase_safely_nil b0⟩
  · by_cases h : 128 ≤ b1.val ∧ b1.val < 192
    · left; exact ⟨b1, rest, rfl, h, increase_safely_trail b0 b1 rest h⟩
    · right; exact ⟨_, _, by decide, increase_safely_not_trail b0 b1 rest h⟩

theorem get_sequence_2_shape (b0 : Byte) (t : List Byte) :
    (∃ b1 rest, t = b1 :: rest ∧ (128 ≤ b1.val ∧ b1.val < 192))
    ∨ (get_sequence_2 (b0 :: t)).1 ≠ utf_error.UTF8_OK := by
  rcases increase_safely_cases b0 t with ⟨b1, rest, rfl, h1, _⟩ | ⟨e, it1, hne, he⟩
  · left; exact ⟨b1, rest, rfl, h1⟩
  · right
    unfold get_sequence_2
    rw [he]
    cases e <;> simp at hne ⊢

theorem get_sequence_3_shape (b0 : Byte) (t : List Byte) :
    (∃ b1 b2 rest, t = b1 :: b2 :: rest ∧ (128 ≤ b1.val ∧ b1.val < 192)
      ∧ (128 ≤ b2.val ∧ b2.val < 192))
    ∨ (get_sequence_3 (b0 :: t)).1 ≠ utf_error.UTF8_OK := by
  rcases increase_safely_cases b0 t with ⟨b1, t1, rfl, h1, he1⟩ | ⟨e, it1, hne, he⟩
  · rcases increase_safely_cases b1 t1 with ⟨b2, rest, rfl, h2, _⟩ | ⟨e, it2, hne, he⟩
    · left; exact ⟨b1, b2, rest, rfl, h1, h2⟩
    · right
      unfold get_sequence_3
      rw [he1]
      simp only [List.cons_ne_nil, if_false]
      rw [he]
      cases e <;> simp at hne ⊢
  · right
    unfold get_sequence_3
    rw [he]
    cases e <;> simp at hne ⊢

theorem get_sequence_4_shape (b0 : Byte) (t : List Byte) :
    (∃ b1 b2 b3 rest, t = b1 :: b2 :: b3 :: rest ∧ (128 ≤ b1.val ∧ b1.val < 192)
      ∧ (128 ≤ b2.val ∧ b2.val < 192) ∧ (128 ≤ b3.val ∧ b3.val < 192))
    ∨ (get_sequence_4 (b0 :: t)).1 ≠ utf_error.UTF8_OK := by
  rcases increase_safely_cases b0 t with ⟨b1, t1, rfl, h1, he1⟩ | ⟨e, it1, hne, he⟩
  · rcases increase_safely_cases b1 t1 with ⟨b2, t2, rfl, h2, he2⟩ | ⟨e, it2, hne, he⟩
    · rcases increase_safely_cases b2 t2 with ⟨b3, rest, rfl, h3, _⟩ | ⟨e, it3, hne, he⟩
      · left; exact ⟨b1, b2, b3, rest, rfl, h1, h2, h3⟩
      · right
        unfold get_sequence_4
        rw [he1]
        simp only [List.cons_ne_nil, if_false]
        rw [he2]
        simp only []
        rw [he]
        cases e <;> simp at hne ⊢
    · right
      unfold get_sequence_4
      rw [he1]
      simp only [List.cons_ne_nil, if_false]
      rw [he]
      cases e <;> simp at hne ⊢
  · right
    unfold get_sequence_4
    rw [he]
    cases e <;> simp at hne ⊢

theorem validate_next_get_err (b0 : Byte) (t : List Byte) (r : utf_error × Nat × List Byte)
    (hr : r.1 ≠ utf_error.UTF8_OK) :
    (match r with
      | (utf_error.UTF8_OK, cp, it1) =>
        if is_code_point_valid cp then
          if !is_overlong_sequence cp (sequence_length (deref (b0 :: t)))
          then (utf_error.UTF8_OK, cp, it1.tail)
          else (utf_error.OVERLONG_SEQUENCE, 0, b0 :: t)
        else (utf_error.INVALID_CODE_POINT, 0, b0 :: t)
      | (err, _, _) => (err, 0, b0 :: t)).1 ≠ utf_error.UTF8_OK := by
  obtain ⟨e, cp, it1⟩ := r
  cases e <;> simp at hr ⊢

theorem validate_next_ok_shape (b0 : Byte) (t : List Byte)
    (h : (validate_next (b0 :: t)).1 = utf_error.UTF8_OK) :
    b0.val < 128
    ∨ (192 ≤ b0.val ∧ b0.val < 224 ∧ ∃ b1 rest, t = b1 :: rest ∧ (128 ≤ b1.val ∧ b1.val < 192))
    ∨ (224 ≤ b0.val ∧ b0.val < 240 ∧ ∃ b1 b2 rest, t = b1 :: b2 :: rest
        ∧ (128 ≤ b1.val ∧ b1.val < 192) ∧ (128 ≤ b2.val ∧ b2.val < 192))
    ∨ (240 ≤ b0.val ∧ b0.val < 248 ∧ ∃ b1 b2 b3 rest, t = b1 :: b2 :: b3 :: rest
        ∧ (128 ≤ b1.val ∧ b1.val < 192) ∧ (128 ≤ b2.val ∧ b2.val < 192)
        ∧ (128 ≤ b3.val ∧ b3.val < 192)) := by
  by_cases c1 : b0.val < 128
  · exact Or.inl c1
  right
  by_cases c0 : b0.val < 192 ∨ 248 ≤ b0.val
  · exfalso
    have hs : sequence_length b0 = 0 := by rw [sequence_length_eq]; split_ifs <;> omega
    exact validate_next_lead0 b0 t hs h
  by_cases c2 : b0.val < 224
  · left
    refine ⟨by omega, c2, ?_⟩
    rcases get_sequence_2_shape b0 t with hsh | hne
    · exact hsh
    · exfalso
      have hs : sequence_length b0 = 2 := by rw [sequence_length_eq]; split_ifs <;> omega
      have := validate_next_get_err b0 t _ hne
      apply this
      rw [← h]
      simp [validate_next, deref, hs]
  right
  by_cases c3 : b0.val < 240
  · left
    refine ⟨by omega, c3, ?_⟩
    rcases get_sequence_3_shape b0 t with hsh | hne
    · exact hsh
    · exfalso
      have hs : sequence_length b0 = 3 := by rw [sequence_length_eq]; split_ifs <;> omega
      have := validate_next_get_err b0 t _ hne
      apply this
      rw [← h]
      simp [validate_next, deref, hs]
  right
  refine ⟨by omega, by omega, ?_⟩
  rcases get_sequence_4_shape b0 t with hsh | hne
  · exact hsh
  · exfalso
    have hs : sequence_length b0 = 4 := by rw [sequence_length_eq]; split_ifs <;> omega
    have := validate_next_get_err b0 t _ hne
    apply this
    rw [← h]
    simp [validate_next, deref, hs]

theorem toByte_eq (b : Byte) (n : Nat) (h : n = b.val) : toByte n = b := by
  apply Fin.ext
  rw [toByte_val, h]
  exact Nat.mod_eq_of_lt b.isLt

theorem utf8Encode_1 (b0 : Byte) (h0 : b0.val < 128) : utf8Encode b0.val = [b0] := by
  unfold utf8Encode
  rw [if_pos h0, toByte_eq b0 _ rfl]

theorem utf8Encode_2 (b0 b1 : Byte) (h0 : 192 ≤ b0.val ∧ b0.val < 224)
    (h1 : 128 ≤ b1.val ∧ b1.val < 192) (hc : 128 ≤ (b0.val - 192) * 64 + (b1.val - 128)) :
    utf8Encode ((b0.val - 192) * 64 + (b1.val - 128)) = [b0, b1] := by
  unfold utf8Encode
  rw [if_neg (by omega), if_pos (by omega), toByte_eq b0 _ (by omega), toByte_eq b1 _ (by omega)]

theorem utf8Encode_3 (b0 b1 b2 : Byte) (h0 : 224 ≤ b0.val ∧ b0.val < 240)
    (h1 : 128 ≤ b1.val ∧ b1.val < 192) (h2 : 128 ≤ b2.val ∧ b2.val < 192)
    (hc : 2048 ≤ (b0.val - 224) * 4096 + (b1.val - 128) * 64 + (b2.val - 128)) :
    utf8Encode ((b0.val - 224) * 4096 + (b1.val - 128) * 64 + (b2.val - 128)) = [b0, b1, b2] := by
  unfold utf8Encode
  rw [if_neg (by omega), if_neg (by omega), if_pos (by omega), toByte_eq b0 _ (by omega),
    toByte_eq b1 _ (by omega), toByte_eq b2 _ (by omega)]

theorem utf8Encode_4 (b0 b1 b2 b3 : Byte) (h0 : 240 ≤ b0.val ∧ b0.val < 248)
    (h1 : 128 ≤ b1.val ∧ b1.val < 192) (h2 : 128 ≤ b2.val ∧ b2.val < 192)
    (h3 : 128 ≤ b3.val ∧ b3.val < 192)
    (hc : 65536 ≤
      (b0.val - 240) * 262144 + (b1.val - 128) * 4096 + (b2.val - 128) * 64 + (b3.val - 128)) :
    utf8Encode
      ((b0.val - 240) * 262144 + (b1.val - 128) * 4096 + (b2.val - 128) * 64 + (b3.val - 128))
      = [b0, b1, b2, b3] := by
  unfold utf8Encode
  rw [if_neg (by omega), if_neg (by omega), if_neg (by omega), toByte_eq b0 _ (by omega),
    toByte_eq b1 _ (by omega), toByte_eq b2 _ (by omega), toByte_eq b3 _ (by omega)]

/-- Decoding inverts encoding: what `validate_next` accepts is the encoding of a valid
codepoint, followed by the octets it leaves. -/
theorem validate_next_ok (it : List Byte) (c : Nat) (rest : List Byte)
    (h : validate_next it = (utf_error.UTF8_OK, c, rest)) :
    validCodepoint c ∧ it = utf8Encode c ++ rest := by
  rcases it with _ | ⟨b0, t⟩
  · simp [validate_next] at h
  have hok : (validate_next (b0 :: t)).1 = utf_error.UTF8_OK := by rw [h]
  rcases validate_next_ok_shape b0 t hok with h0 | ⟨h0l, h0u, b1, r, rfl, h1⟩
    | ⟨h0l, h0u, b1, b2, r, rfl, h1, h2⟩ | ⟨h0l, h0u, b1, b2, b3, r, rfl, h1, h2, h3⟩
  · rw [validate_next_1 b0 t h0] at h
    simp only [Prod.mk.injEq, true_and] at h
    obtain ⟨rfl, rfl⟩ := h
    refine ⟨by unfold validCodepoint; omega, ?_⟩
    rw [utf8Encode_1 b0 h0]; rfl
  · rw [validate_next_2 b0 b1 r ⟨h0l, h0u⟩ h1] at h
    split_ifs at h with hc
    · simp only [Prod.mk.injEq, true_and] at h
      obtain ⟨rfl, rfl⟩ := h
      refine ⟨by unfold validCodepoint; omega, ?_⟩
      rw [utf8Encode_2 b0 b1 ⟨h0l, h0u⟩ h1 hc]; rfl
    · simp at h
  · rw [validate_next_3 b0 b1 b2 r ⟨h0l, h0u⟩ h1 h2] at h
    split_ifs at h with hv hc
    · simp only [Prod.mk.injEq, true_and] at h
      obtain ⟨rfl, rfl⟩ := h
      refine ⟨hv, ?_⟩
      rw [utf8Encode_3 b0 b1 b2 ⟨h0l, h0u⟩ h1 h2 hc]; rfl
    · simp at h
    · simp at h
  · rw [validate_next_4 b0 b1 b2 b3 r ⟨h0l, h0u⟩ h1 h2 h3] at h
    split_ifs at h with hv hc
    · simp only [Prod.mk.injEq, true_and] at h
      obtain ⟨rfl, rfl⟩ := h
      refine ⟨hv, ?_⟩
      rw [utf8Encode_4 b0 b1 b2 b3 ⟨h0l, h0u⟩ h1 h2 h3 hc]; rfl
    · simp at h
    · simp at h

/-- The shape of an encoding: a lead octet that is not a trail octet, then trail octets. -/
theorem utf8Encode_shape (c : Nat) (hv : validCodepoint c) :
    ∃ b0 t, utf8Encode c = b0 :: t ∧ ¬ (128 ≤ b0.val ∧ b0.val < 192)
      ∧ (∀ b ∈ t, 128 ≤ b.val ∧ b.val < 192) ∧ t.length ≤ 3
      ∧ (t = [] ↔ c < 128) := by
  obtain ⟨hv1, hv2⟩ := hv
  unfold utf8Encode
  split_ifs with c1 c2 c3
  · refine ⟨_, _, rfl, ?_, by simp, by simp, by simp [c1]⟩
    rw [toByte_val]; omega
  · refine ⟨_, _, rfl, ?_, ?_, by simp, by simp [c1]⟩
    · rw [toByte_val]; omega
    · simp only [List.mem_singleton, forall_eq, toByte_val]; omega
  · refine ⟨_, _, rfl, ?_, ?_, by simp, by simp [c1]⟩
    · rw [toByte_val]; omega
    · simp only [List.mem_cons, List.mem_singleton, forall_eq_or_imp, forall_eq, toByte_val,
        List.not_mem_nil, false_imp_iff, implies_true, and_true]
      omega
  · refine ⟨_, _, rfl, ?_, ?_, by simp, by simp [c1]⟩
    · rw [toByte_val]; omega
    · simp only [List.mem_cons, List.mem_singleton, forall_eq_or_imp, forall_eq, toByte_val,
        List.not_mem_nil, false_imp_iff, implies_true, and_true]
      omega

/-- Decoding an encoding gives the codepoint back and leaves the rest. -/
theorem validate_next_encode (c : Nat) (hv : validCodepoint c) (rest : List Byte) :
    validate_next (utf8Encode c ++ rest) = (utf_error.UTF8_OK, c, rest) := by
  obtain ⟨hv1, hv2⟩ := hv
  unfold utf8Encode
  split_ifs with c1 c2 c3
  · have := validate_next_1 (toByte c) rest (by rw [toByte_val]; omega)
    rw [toByte_val, Nat.mod_eq_of_lt (by omega)] at this
    exact this
  · have e0 : (toByte (0xC0 + c / 64)).val = 0xC0 + c / 64 := by rw [toByte_val]; omega
    have e1 : (toByte (0x80 + c % 64)).val = 0x80 + c % 64 := by rw [toByte_val]; omega
    have := validate_next_2 (toByte (0xC0 + c / 64)) (toByte (0x80 + c % 64)) rest
      (by omega) (by omega)
    rw [e0, e1] at this
    rw [if_pos (by omega)] at this
    have hc : (0xC0 + c / 64 - 192) * 64 + (0x80 + c % 64 - 128) = c := by omega
    rw [hc] at this
    exact this
  · have e0 : (toByte (0xE0 + c / 4096)).val = 0xE0 + c / 4096 := by rw [toByte_val]; omega
    have e1 : (toByte (0x80 + c / 64 % 64)).val = 0x80 + c / 64 % 64 := by rw [toByte_val]; omega
    have e2 : (toByte (0x80 + c % 64)).val = 0x80 + c % 64 := by rw [toByte_val]; omega
    have := validate_next_3 (toByte (0xE0 + c / 4096)) (toByte (0x80 + c / 64 % 64))
      (toByte (0x80 + c % 64)) rest (by omega) (by omega) (by omega)
    rw [e0, e1, e2] at this
    have hc : (0xE0 + c / 4096 - 224) * 4096 + (0x80 + c / 64 % 64 - 128) * 64
        + (0x80 + c % 64 - 128) = c := by omega
    rw [hc] at this
    rw [if_pos (by unfold validCodepoint; omega), if_pos (by omega)] at this
    exact this
  · have e0 : (toByte (0xF0 + c / 262144)).val = 0xF0 + c / 262144 := by rw [toByte_val]; omega
    have e1 : (toByte (0x80 + c / 4096 % 64)).val = 0x80 + c / 4096 % 64 := by
      rw [toByte_val]; omega
    have e2 : (toByte (0x80 + c / 64 % 64)).val = 0x80 + c / 64 % 64 := by rw [toByte_val]; omega
    have e3 : (toByte (0x80 + c % 64)).val = 0x80 + c % 64 := by rw [toByte_val]; omega
    have := validate_next_4 (toByte (0xF0 + c / 262144)) (toByte (0x80 + c / 4096 % 64))
      (toByte (0x80 + c / 64 % 64)) (toByte (0x80 + c % 64)) rest
      (by omega) (by omega) (by omega) (by omega)
    rw [e0, e1, e2, e3] at this
    have hc : (0xF0 + c / 262144 - 240) * 262144 + (0x80 + c / 4096 % 64 - 128) * 4096
        + (0x80 + c / 64 % 64 - 128) * 64 + (0x80 + c % 64 - 128) = c := by omega
    rw [hc] at this
    rw [if_pos (by unfold validCodepoint; omega), if_pos (by omega)] at this
    exact this

/-! ## Sequences of codepoints -/

theorem utf8EncodeAll_nil : utf8EncodeAll [] = [] := rfl

theorem utf8EncodeAll_cons (c : Nat) (cs : List Nat) :
    utf8EncodeAll (c :: cs) = utf8Encode c ++ utf8EncodeAll cs := by
  simp [utf8EncodeAll]

theorem utf8EncodeAll_append (xs ys : List Nat) :
    utf8EncodeAll (xs ++ ys) = utf8EncodeAll xs ++ utf8EncodeAll ys := by
  simp [utf8EncodeAll]

theorem utf8Encode_ne_nil (c : Nat) : utf8Encode c ≠ [] := by
  unfold utf8Encode
  split_ifs <;> simp

theorem utf8Encode_length_pos (c : Nat) : 0 < (utf8Encode c).length :=
  List.length_pos.2 (utf8Encode_ne_nil c)

theorem utf8EncodeAll_eq_nil (cs : List Nat) : utf8EncodeAll cs = [] ↔ cs = [] := by
  cases cs with
  | nil => simp [utf8EncodeAll_nil]
  | cons c cs => simp [utf8EncodeAll_cons, utf8Encode_ne_nil]

theorem utf8EncodeAll_take_drop (cs : List Nat) (n : Nat) :
    utf8EncodeAll (cs.take n) ++ utf8EncodeAll (cs.drop n) = utf8EncodeAll cs := by
  rw [← utf8EncodeAll_append, List.take_append_drop]

/-- The octets before the iterator that stands at codepoint `n`. -/
theorem take_sub_length_drop (cs : List Nat) (n : Nat) :
    (utf8EncodeAll cs).take ((utf8EncodeAll cs).length - (utf8EncodeAll (cs.drop n)).length)
      = utf8EncodeAll (cs.take n) := by
  conv_lhs => rw [← utf8EncodeAll_take_drop cs n]
  rw [List.length_append, Nat.add_sub_cancel, List.take_left']
  rfl

theorem next_encode (c : Nat) (hv : validCodepoint c) (rest : List Byte) :
    utf8.next (utf8Encode c ++ rest) = Except.ok (c, rest) := by
  unfold utf8.next
  rw [validate_next_encode c hv rest]

theorem next_nil : utf8.next [] = Except.error utf_exception.not_enough_room := by
  decide

theorem advance_encode (cs : List Nat) (hv : ∀ c ∈ cs, validCodepoint c) (rest : List Byte)
    (n : Nat) (hn : n ≤ cs.length) :
    utf8.advance (utf8EncodeAll cs ++ rest) n = Except.ok (utf8EncodeAll (cs.drop n) ++ rest) := by
  induction n generalizing cs with
  | zero => simp [utf8.advance]
  | succ n ih =>
    cases cs with
    | nil => simp at hn
    | cons c cs =>
      have hc := hv c (List.mem_cons_self c cs)
      have hcs : ∀ x ∈ cs, validCodepoint x := fun x hx => hv x (List.mem_cons_of_mem c hx)
      rw [utf8EncodeAll_cons, List.append_assoc]
      unfold utf8.advance
      rw [next_encode c hc]
      simp only [List.drop_succ_cons]
      exact ih cs hcs (by simpa using hn)

theorem advance_encode_short (cs : List Nat) (hv : ∀ c ∈ cs, validCodepoint c) (n : Nat)
    (hn : cs.length < n) :
    utf8.advance (utf8EncodeAll cs) n = Except.error utf_exception.not_enough_room := by
  induction n generalizing cs with
  | zero => simp at hn
  | succ n ih =>
    cases cs with
    | nil =>
      unfold utf8.advance
      rw [utf8EncodeAll_nil, next_nil]
    | cons c cs =>
      have hc := hv c (List.mem_cons_self c cs)
      have hcs : ∀ x ∈ cs, validCodepoint x := fun x hx => hv x (List.mem_cons_of_mem c hx)
      rw [utf8EncodeAll_cons]
      unfold utf8.advance
      rw [next_encode c hc]
      exact ih cs hcs (by simpa using hn)

/-- Bounded advance over a well-formed buffer: the iterator stands at codepoint `n`, or at the
end when the buffer has fewer than `n` codepoints; the flag says which. -/
theorem _utf8_advance_encode (cs : List Nat) (hv : ∀ c ∈ cs, validCodepoint c) (n : Nat) :
    WzString._utf8_advance (utf8EncodeAll cs) n
      = Except.ok (utf8EncodeAll (cs.drop n), decide (n ≤ cs.length)) := by
  unfold WzString._utf8_advance
  by_cases hn : n ≤ cs.length
  · have := advance_encode cs hv [] n hn
    simp only [List.append_nil] at this
    rw [this]
    simp [hn]
  · rw [advance_encode_short cs hv n (by omega)]
    have : cs.drop n = [] := List.drop_eq_nil_of_le (by omega)
    simp [hn, this, utf8EncodeAll_nil]

theorem distance_loop_encode (cs : List Nat) (hv : ∀ c ∈ cs, validCodepoint c) (fuel dist : Nat)
    (hf : (utf8EncodeAll cs).length ≤ fuel) :
    utf8.distance_loop fuel (utf8EncodeAll cs) dist = Except.ok (dist + cs.length) := by
  induction cs generalizing fuel dist with
  | nil =>
    cases fuel with
    | zero => simp [utf8.distance_loop]
    | succ fuel => simp [utf8.distance_loop, utf8EncodeAll_nil]
  | cons c cs ih =>
    have hc := hv c (List.mem_cons_self c cs)
    have hcs : ∀ x ∈ cs, validCodepoint x := fun x hx => hv x (List.mem_cons_of_mem c hx)
    have hpos := utf8Encode_length_pos c
    rw [utf8EncodeAll_cons, List.length_append] at hf
    cases fuel with
    | zero => omega
    | succ fuel =>
      unfold utf8.distance_loop
      rw [utf8EncodeAll_cons, next_encode c hc]
      have hne : utf8Encode c ++ utf8EncodeAll cs ≠ [] := by
        simp [utf8Encode_ne_nil]
      simp only [hne, if_false]
      rw [ih hcs fuel (dist + 1) (by omega)]
      simp only [List.length_cons]
      congr 1
      omega

/-- The scan of `utf8::distance` counts the codepoints of a well-formed buffer. -/
theorem distance_encode (cs : List Nat) (hv : ∀ c ∈ cs, validCodepoint c) :
    utf8.distance (utf8EncodeAll cs) = Except.ok cs.length := by
  unfold utf8.distance
  rw [distance_loop_encode cs hv _ 0 (Nat.le_refl _)]
  simp

/-! ## The operations on a well-formed buffer -/

theorem int_of_nat_small (n : Nat) (h : n < 2147483648) : int_of_nat n = (n : Int) := by
  unfold int_of_nat
  have : n % 4294967296 = n := Nat.mod_eq_of_lt (by omega)
  rw [this, if_pos h]

theorem size_t_of_int_small (n : Nat) (h : n < 18446744073709551616) :
    size_t_of_int (n : Int) = n := by
  unfold size_t_of_int
  omega

theorem valid_take (cs : List Nat) (hv : ∀ c ∈ cs, validCodepoint c) (n : Nat) :
    ∀ c ∈ cs.take n, validCodepoint c := fun c hc => hv c (List.mem_of_mem_take hc)

theorem valid_drop (cs : List Nat) (hv : ∀ c ∈ cs, validCodepoint c) (n : Nat) :
    ∀ c ∈ cs.drop n, validCodepoint c := fun c hc => hv c (List.mem_of_mem_drop hc)

theorem utf8Encode_length_le (cs : List Nat) : cs.length ≤ (utf8EncodeAll cs).length := by
  induction cs with
  | nil => simp
  | cons c cs ih =>
    have := utf8Encode_length_pos c
    rw [utf8EncodeAll_cons, List.length_append, List.length_cons]
    omega

theorem utf8Encode_length_one (c : Nat) : (utf8Encode c).length = 1 ↔ c < 0x80 := by
  unfold utf8Encode
  split_ifs with h1 h2 h3 <;> simp <;> omega

theorem utf8Encode_length_eq (cs : List Nat) :
    cs.length = (utf8EncodeAll cs).length ↔ ∀ c ∈ cs, c < 0x80 := by
  induction cs with
  | nil => simp [utf8EncodeAll_nil]
  | cons c cs ih =>
    have hpos := utf8Encode_length_pos c
    have hle := utf8Encode_length_le cs
    have h1 := utf8Encode_length_one c
    rw [utf8EncodeAll_cons, List.length_append, List.length_cons]
    simp only [List.mem_cons, forall_eq_or_imp]
    constructor
    · intro h
      exact ⟨h1.1 (by omega), ih.1 (by omega)⟩
    · rintro ⟨hc, hcs⟩
      have := h1.2 hc
      have := ih.2 hcs
      omega

theorem length_encode (cs : List Nat) (hv : ∀ c ∈ cs, validCodepoint c)
    (hlen : cs.length < 2147483648) :
    WzString.length ⟨utf8EncodeAll cs⟩ = Except.ok (cs.length : Int) := by
  unfold WzString.length
  rw [distance_encode cs hv]
  show Except.ok (int_of_nat cs.length) = _
  rw [int_of_nat_small cs.length hlen]

theorem at_encode_lt (cs : List Nat) (hv : ∀ c ∈ cs, validCodepoint c) (n : Nat)
    (h : n < cs.length) :
    WzString.at ⟨utf8EncodeAll cs⟩ n = ⟨false, Except.ok (cs.get ⟨n, h⟩)⟩ := by
  unfold WzString.at
  simp only [_utf8_advance_encode cs hv n]
  have hd : cs.drop n = cs.get ⟨n, h⟩ :: cs.drop (n + 1) := by
    rw [List.get_eq_getElem]; exact List.drop_eq_getElem_cons h
  rw [hd, utf8EncodeAll_cons]
  rw [next_encode _ (hv _ (List.get_mem cs n h))]
  have hne : utf8Encode (cs.get ⟨n, h⟩) ++ utf8EncodeAll (cs.drop (n + 1)) ≠ [] :=
    List.append_ne_nil_of_left_ne_nil (utf8Encode_ne_nil _) _
  simp only [hne, ne_eq, not_false_eq_true, decide_True, Bool.not_true]

theorem at_encode_ge (cs : List Nat) (hv : ∀ c ∈ cs, validCodepoint c) (n : Nat)
    (h : cs.length ≤ n) :
    WzString.at ⟨utf8EncodeAll cs⟩ n = ⟨true, Except.error utf_exception.not_enough_room⟩ := by
  unfold WzString.at
  simp only [_utf8_advance_encode cs hv n]
  have hd : cs.drop n = [] := List.drop_eq_nil_of_le h
  rw [hd, utf8EncodeAll_nil, next_nil]
  simp

theorem insert_str_encode (cs : List Nat) (hv : ∀ c ∈ cs, validCodepoint c) (x : WzString)
    (pos : Nat) :
    (WzString.insert_str ⟨utf8EncodeAll cs⟩ pos x).result
      = Except.ok ⟨utf8EncodeAll (cs.take pos) ++ x._utf8String ++ utf8EncodeAll (cs.drop pos)⟩ := by
  unfold WzString.insert_str
  simp only [_utf8_advance_encode cs hv pos, take_sub_length_drop]

theorem insert_str_asserted (cs : List Nat) (hv : ∀ c ∈ cs, validCodepoint c) (x : WzString)
    (pos : Nat) :
    (WzString.insert_str ⟨utf8EncodeAll cs⟩ pos x).asserted = true
      ↔ cs.length ≤ pos ∧ pos < (utf8EncodeAll cs).length := by
  unfold WzString.insert_str
  simp only [_utf8_advance_encode cs hv pos]
  by_cases h : cs.length ≤ pos
  · have hd : cs.drop pos = [] := List.drop_eq_nil_of_le h
    simp [hd, utf8EncodeAll_nil, h]
  · have hd : utf8EncodeAll (cs.drop pos) ≠ [] := by
      rw [Ne, utf8EncodeAll_eq_nil]
      simp; omega
    simp [hd, h]

theorem fromCodepoint_valid (c : Nat) (hc : validCodepoint c) :
    WzString.fromCodepoint c = Except.ok ⟨utf8Encode c⟩ := by
  unfold WzString.fromCodepoint utf8.utf32to8
  rw [append_eq c hc]
  simp [utf8.utf32to8]

theorem insert_c_encode (cs : List Nat) (hv : ∀ c ∈ cs, validCodepoint c) (c : Nat)
    (hc : validCodepoint c) (pos : Nat) :
    (WzString.insert_c ⟨utf8EncodeAll cs⟩ pos c).result
      = Except.ok ⟨utf8EncodeAll (cs.take pos) ++ utf8Encode c ++ utf8EncodeAll (cs.drop pos)⟩ := by
  unfold WzString.insert_c
  simp only [_utf8_advance_encode cs hv pos, take_sub_length_drop, fromCodepoint_valid c hc]

theorem remove_encode (cs : List Nat) (hv : ∀ c ∈ cs, validCodepoint c) (i : Nat) (n : Int)
    (hn : 0 < n) :
    WzString.remove ⟨utf8EncodeAll cs⟩ i n
      = Except.ok ⟨utf8EncodeAll (cs.take i ++ cs.drop (i + n.toNat))⟩ := by
  unfold WzString.remove
  rw [if_neg (by omega)]
  simp only [_utf8_advance_encode cs hv i]
  by_cases hi : cs.length ≤ i
  · have hd : cs.drop i = [] := List.drop_eq_nil_of_le hi
    have hd2 : cs.drop (i + n.toNat) = [] := List.drop_eq_nil_of_le (by omega)
    have ht : cs.take i = cs := List.take_of_length_le hi
    simp [hd, hd2, ht, utf8EncodeAll_nil]
  · have hne : utf8EncodeAll (cs.drop i) ≠ [] := by
      rw [Ne, utf8EncodeAll_eq_nil]
      simp; omega
    simp only [hne, if_false]
    rw [_utf8_advance_encode (cs.drop i) (valid_drop cs hv i) n.toNat, take_sub_length_drop]
    rw [List.drop_drop, utf8EncodeAll_append]
    by_cases hl : n.toNat ≤ (cs.drop i).length
    · rw [decide_eq_true hl, Nat.add_comm]
    · rw [decide_eq_false hl]
      have hd2 : cs.drop (i + n.toNat) = [] := by
        apply List.drop_eq_nil_of_le
        rw [List.length_drop] at hl
        omega
      simp only [hd2, utf8EncodeAll_nil, List.append_nil]

theorem repeat_bytes_encode (c : Nat) (n : Nat) (acc : List Byte) :
    WzString.repeat_bytes (utf8Encode c) n acc = acc ++ utf8EncodeAll (List.replicate n c) := by
  induction n generalizing acc with
  | zero => simp [WzString.repeat_bytes, utf8EncodeAll_nil]
  | succ n ih =>
    rw [WzString.repeat_bytes, ih, List.replicate_succ, utf8EncodeAll_cons, List.append_assoc]

theorem replace_pos_encode (cs : List Nat) (hv : ∀ c ∈ cs, validCodepoint c) (pos n c : Nat)
    (hc : validCodepoint c) (hpos : pos ≤ cs.length) :
    WzString.replace_pos ⟨utf8EncodeAll cs⟩ pos n c
      = Except.ok ⟨utf8EncodeAll (cs.take pos ++ List.replicate (min n (cs.length - pos)) c
          ++ cs.drop (pos + min n (cs.length - pos)))⟩ := by
  unfold WzString.replace_pos
  rw [_utf8_advance_encode cs hv pos, decide_eq_true hpos]
  simp only []
  rw [_utf8_advance_encode (cs.drop pos) (valid_drop cs hv pos) n]
  simp only []
  rw [take_sub_length_drop (cs.drop pos) n,
    distance_encode _ (valid_take _ (valid_drop cs hv pos) n)]
  simp only []
  rw [fromCodepoint_valid c hc]
  simp only []
  rw [repeat_bytes_encode, take_sub_length_drop cs pos, List.nil_append, List.length_take,
    List.length_drop, List.drop_drop, utf8EncodeAll_append, utf8EncodeAll_append]
  by_cases hn : n ≤ cs.length - pos
  · rw [Nat.min_eq_left hn]
  · have h1 : cs.drop (pos + n) = [] := List.drop_eq_nil_of_le (by omega)
    have h2 : cs.drop (pos + min n (cs.length - pos)) = [] :=
      List.drop_eq_nil_of_le (by omega)
    rw [h1, h2]

theorem replace_pos_outside (cs : List Nat) (hv : ∀ c ∈ cs, validCodepoint c) (pos n c : Nat)
    (hpos : cs.length < pos) :
    WzString.replace_pos ⟨utf8EncodeAll cs⟩ pos n c = Except.ok ⟨utf8EncodeAll cs⟩ := by
  unfold WzString.replace_pos
  rw [_utf8_advance_encode cs hv pos, decide_eq_false (by omega)]

/-! ## Well-formedness and the repair of malformed input -/

theorem wellFormed_nil : WellFormed [] := ⟨[], by simp, rfl⟩

theorem wellFormed_append (a b : List Byte) (ha : WellFormed a) (hb : WellFormed b) :
    WellFormed (a ++ b) := by
  obtain ⟨as, hav, rfl⟩ := ha
  obtain ⟨bs, hbv, rfl⟩ := hb
  refine ⟨as ++ bs, ?_, (utf8EncodeAll_append as bs).symm⟩
  intro c hc
  rcases List.mem_append.1 hc with h | h
  · exact hav c h
  · exact hbv c h

theorem wellFormed_encode (c : Nat) (hc : validCodepoint c) : WellFormed (utf8Encode c) :=
  ⟨[c], by simpa using hc, by simp [utf8EncodeAll]⟩

theorem wellFormed_encodeAll (cs : List Nat) (hv : ∀ c ∈ cs, validCodepoint c) :
    WellFormed (utf8EncodeAll cs) := ⟨cs, hv, rfl⟩

theorem append_ok (c : Nat) (result r : List Byte) (h : utf8.append c result = Except.ok r) :
    validCodepoint c ∧ r = result ++ utf8Encode c := by
  by_cases hc : validCodepoint c
  · rw [append_eq c hc] at h
    exact ⟨hc, (Except.ok.inj h).symm⟩
  · have hv2 : is_code_point_valid c = false := by
      rw [← Bool.not_eq_true, is_code_point_valid_iff]; exact hc
    simp [utf8.append, hv2] at h

theorem append_wellFormed (c : Nat) (result r : List Byte) (hw : WellFormed result)
    (h : utf8.append c result = Except.ok r) : WellFormed r := by
  obtain ⟨hc, rfl⟩ := append_ok c result r h
  exact wellFormed_append _ _ hw (wellFormed_encode c hc)

theorem take_sub_length_append (a rest : List Byte) :
    (a ++ rest).take ((a ++ rest).length - rest.length) = a := by
  rw [List.length_append, Nat.add_sub_cancel, List.take_left']
  rfl

theorem replace_invalid_loop_wellFormed (strict : Bool) (replacement : Nat) (fuel : Nat)
    (start out res : List Byte) (hw : WellFormed out)
    (h : utf8.replace_invalid_loop strict replacement fuel start out = Except.ok res) :
    WellFormed res := by
  induction fuel generalizing start out with
  | zero =>
    simp only [utf8.replace_invalid_loop] at h
    rw [← Except.ok.inj h]; exact hw
  | succ fuel ih =>
    unfold utf8.replace_invalid_loop at h
    by_cases hs : start = []
    · rw [if_pos hs] at h
      rw [← Except.ok.inj h]; exact hw
    · rw [if_neg hs] at h
      simp only [] at h
      rcases hvn : validate_next start with ⟨e, cp, start1⟩
      rw [hvn] at h
      cases e with
      | UTF8_OK =>
        simp only [] at h
        obtain ⟨hc, rfl⟩ := validate_next_ok start cp start1 hvn
        rw [take_sub_length_append] at h
        exact ih _ _ (wellFormed_append _ _ hw (wellFormed_encode cp hc)) h
      | NOT_ENOUGH_ROOM =>
        simp only [] at h
        cases strict with
        | true => simp at h
        | false =>
          simp only [Bool.false_eq_true, if_false] at h
          exact append_wellFormed _ _ _ hw h
      | INVALID_LEAD =>
        simp only [] at h
        rcases ha : utf8.append replacement out with e | out1
        · rw [ha] at h; simp at h
        · rw [ha] at h
          exact ih _ _ (append_wellFormed _ _ _ hw ha) h
      | INCOMPLETE_SEQUENCE =>
        simp only [] at h
        rcases ha : utf8.append replacement out with e | out1
        · rw [ha] at h; simp at h
        · rw [ha] at h
          exact ih _ _ (append_wellFormed _ _ _ hw ha) h
      | OVERLONG_SEQUENCE =>
        simp only [] at h
        rcases ha : utf8.append replacement out with e | out1
        · rw [ha] at h; simp at h
        · rw [ha] at h
          exact ih _ _ (append_wellFormed _ _ _ hw ha) h
      | INVALID_CODE_POINT =>
        simp only [] at h
        rcases ha : utf8.append replacement out with e | out1
        · rw [ha] at h; simp at h
        · rw [ha] at h
          exact ih _ _ (append_wellFormed _ _ _ hw ha) h

theorem replace_invalid_loop_encode (strict : Bool) (replacement : Nat) (cs : List Nat)
    (hv : ∀ c ∈ cs, validCodepoint c) (fuel : Nat) (out : List Byte)
    (hf : (utf8EncodeAll cs).length ≤ fuel) :
    utf8.replace_invalid_loop strict replacement fuel (utf8EncodeAll cs) out
      = Except.ok (out ++ utf8EncodeAll cs) := by
  induction cs generalizing fuel out with
  | nil =>
    cases fuel with
    | zero => simp [utf8.replace_invalid_loop, utf8EncodeAll_nil]
    | succ fuel => simp [utf8.replace_invalid_loop, utf8EncodeAll_nil]
  | cons c cs ih =>
    have hc := hv c (List.mem_cons_self c cs)
    have hcs : ∀ x ∈ cs, validCodepoint x := fun x hx => hv x (List.mem_cons_of_mem c hx)
    have hpos := utf8Encode_length_pos c
    rw [utf8EncodeAll_cons, List.length_append] at hf
    cases fuel with
    | zero => omega
    | succ fuel =>
      unfold utf8.replace_invalid_loop
      rw [utf8EncodeAll_cons, validate_next_encode c hc]
      have hne : utf8Encode c ++ utf8EncodeAll cs ≠ [] :=
        List.append_ne_nil_of_left_ne_nil (utf8Encode_ne_nil _) _
      simp only [hne, if_false]
      rw [take_sub_length_append, ih hcs fuel _ (by omega), List.append_assoc]

theorem find_invalid_loop_encode (cs : List Nat) (hv : ∀ c ∈ cs, validCodepoint c) (fuel : Nat)
    (hf : (utf8EncodeAll cs).length ≤ fuel) :
    utf8.find_invalid_loop fuel (utf8EncodeAll cs) = [] := by
  induction cs generalizing fuel with
  | nil =>
    cases fuel with
    | zero => simp [utf8.find_invalid_loop, utf8EncodeAll_nil]
    | succ fuel => simp [utf8.find_invalid_loop, utf8EncodeAll_nil]
  | cons c cs ih =>
    have hc := hv c (List.mem_cons_self c cs)
    have hcs : ∀ x ∈ cs, validCodepoint x := fun x hx => hv x (List.mem_cons_of_mem c hx)
    have hpos := utf8Encode_length_pos c
    rw [utf8EncodeAll_cons, List.length_append] at hf
    cases fuel with
    | zero => omega
    | succ fuel =>
      unfold utf8.find_invalid_loop
      rw [utf8EncodeAll_cons, validate_next_encode c hc]
      have hne : utf8Encode c ++ utf8EncodeAll cs ≠ [] :=
        List.append_ne_nil_of_left_ne_nil (utf8Encode_ne_nil _) _
      simp only [hne, if_false]
      exact ih hcs fuel (by omega)

theorem is_valid_encode (cs : List Nat) (hv : ∀ c ∈ cs, validCodepoint c) :
    utf8.is_valid (utf8EncodeAll cs) = true := by
  unfold utf8.is_valid utf8.find_invalid
  rw [find_invalid_loop_encode cs hv _ (Nat.le_refl _)]
  simp

theorem WzString_str_size_wellFormed (strict : Bool) (str : Option (List Byte)) (size : Int) :
    ∃ t, (WzString.WzString_str_size strict str size).result = Except.ok t
      ∧ WellFormed t._utf8String := by
  unfold WzString.WzString_str_size
  cases str with
  | none => exact ⟨_, rfl, wellFormed_nil⟩
  | some mem =>
    simp only []
    generalize hin : List.take (if size < 0 then int_of_nat (strlen mem) else size).toNat mem = input
    rcases hr : utf8.replace_invalid strict input [] 0x3f with e | buf
    · exact ⟨_, rfl, wellFormed_nil⟩
    · exact ⟨_, rfl, replace_invalid_loop_wellFormed _ _ _ _ _ _ wellFormed_nil hr⟩

theorem WzString_str_size_encode (strict : Bool) (cs : List Nat)
    (hv : ∀ c ∈ cs, validCodepoint c) (mem : List Byte) :
    WzString.WzString_str_size strict (some (utf8EncodeAll cs ++ mem))
      ((utf8EncodeAll cs).length : Int) = ⟨false, Except.ok ⟨utf8EncodeAll cs⟩⟩ := by
  unfold WzString.WzString_str_size
  simp only []
  rw [if_neg (by omega), Int.toNat_ofNat, List.take_left']
  · unfold utf8.replace_invalid
    rw [replace_invalid_loop_encode strict _ cs hv _ _ (Nat.le_refl _), is_valid_encode cs hv]
    simp
  · rfl

/-! ## The replacement loop and the scan of the original text -/

theorem ScanReplace_inv (before after s r : List Byte) (k : Nat)
    (h : ScanReplace before after s r k) :
    (s = [] ∧ r = [] ∧ k = 0)
    ∨ (∃ rest r1 k1, s = before ++ rest ∧ r = after ++ r1 ∧ k = k1 + 1
        ∧ ScanReplace before after rest r1 k1)
    ∨ (∃ b rest r1, s = b :: rest ∧ r = b :: r1 ∧ ¬ before <+: s
        ∧ ScanReplace before after rest r1 k) := by
  cases h with
  | done => exact Or.inl ⟨rfl, rfl, rfl⟩
  | hit rest r1 k1 h1 => exact Or.inr (Or.inl ⟨rest, r1, k1, rfl, rfl, rfl, h1⟩)
  | skip b rest r1 _ hn h1 => exact Or.inr (Or.inr ⟨b, rest, r1, rfl, rfl, hn, h1⟩)

theorem ScanReplace_unique (before after : List Byte) (hb : before ≠ []) (n : Nat) :
    ∀ (s r1 r2 : List Byte) (k1 k2 : Nat), s.length ≤ n →
      ScanReplace before after s r1 k1 → ScanReplace before after s r2 k2 →
      r1 = r2 ∧ k1 = k2 := by
  induction n with
  | zero =>
    intro s r1 r2 k1 k2 hn h1 h2
    have hs : s = [] := List.length_eq_zero.1 (by omega)
    subst hs
    rcases ScanReplace_inv _ _ _ _ _ h1 with ⟨_, rfl, rfl⟩ | ⟨rest, _, _, he, _⟩ | ⟨b, rest, _, he, _⟩
    · rcases ScanReplace_inv _ _ _ _ _ h2 with ⟨_, rfl, rfl⟩ | ⟨rest, _, _, he, _⟩
        | ⟨b, rest, _, he, _⟩
      · exact ⟨rfl, rfl⟩
      · exact absurd (List.append_eq_nil.1 he.symm).1 hb
      · simp at he
    · exact absurd (List.append_eq_nil.1 he.symm).1 hb
    · simp at he
  | succ n ih =>
    intro s r1 r2 k1 k2 hn h1 h2
    have hpos : 0 < before.length := List.length_pos.2 hb
    rcases ScanReplace_inv _ _ _ _ _ h1 with ⟨rfl, rfl, rfl⟩ | ⟨rest, q1, j1, rfl, rfl, rfl, g1⟩
      | ⟨b, rest, q1, rfl, rfl, hn1, g1⟩
    · rcases ScanReplace_inv _ _ _ _ _ h2 with ⟨_, rfl, rfl⟩ | ⟨rest, _, _, he, _⟩
        | ⟨b, rest, _, he, _⟩
      · exact ⟨rfl, rfl⟩
      · exact absurd (List.append_eq_nil.1 he.symm).1 hb
      · simp at he
    · rcases ScanReplace_inv _ _ _ _ _ h2 with ⟨he, _, _⟩ | ⟨rest2, q2, j2, he, rfl, rfl, g2⟩
        | ⟨b, rest2, q2, he, _, hn2, _⟩
      · exact absurd (List.append_eq_nil.1 he).1 hb
      · have : rest = rest2 := List.append_cancel_left he
        subst this
        rw [List.length_append] at hn
        obtain ⟨e1, e2⟩ := ih rest q1 q2 j1 j2 (by omega) g1 g2
        subst e1; subst e2
        exact ⟨rfl, rfl⟩
      · exact absurd (List.prefix_append before rest) hn2
    · rcases ScanReplace_inv _ _ _ _ _ h2 with ⟨he, _, _⟩ | ⟨rest2, q2, j2, he, _, _, _⟩
        | ⟨b2, rest2, q2, he, rfl, _, g2⟩
      · simp at he
      · exfalso
        apply hn1
        rw [he]
        exact List.prefix_append before rest2
      · obtain ⟨rfl, rfl⟩ := List.cons.inj he
        rw [List.length_cons] at hn
        obtain ⟨e1, e2⟩ := ih rest q1 q2 k1 k2 (by omega) g1 g2
        subst e1; subst e2
        exact ⟨rfl, rfl⟩

theorem ScanReplace_length (before after s r : List Byte) (k : Nat)
    (h : ScanReplace before after s r k) :
    r.length + k * before.length = s.length + k * after.length := by
  induction h with
  | done => simp
  | hit rest r1 k1 _ ih =>
    simp only [List.length_append]
    rw [Nat.add_mul, Nat.add_mul]
    omega
  | skip b rest r1 k1 _ _ ih =>
    simp only [List.length_cons]
    omega

theorem find_aux_spec (before after : List Byte) (hb : before ≠ []) (rem : List Byte) :
    ∀ p : Nat,
      (find_aux before rem p = none ∧ ScanReplace before after rem rem 0)
      ∨ (∃ u v, find_aux before rem p = some (p + u.length) ∧ rem = u ++ before ++ v
          ∧ ∀ r j, ScanReplace before after v r j →
              ScanReplace before after rem (u ++ after ++ r) (j + 1)) := by
  induction rem with
  | nil =>
    intro p
    left
    refine ⟨?_, ScanReplace.done⟩
    cases before with
    | nil => exact absurd rfl hb
    | cons b bs => simp [find_aux, List.isPrefixOf]
  | cons b rest ih =>
    intro p
    by_cases hp : before <+: (b :: rest)
    · right
      obtain ⟨v, hv⟩ := hp
      refine ⟨[], v, ?_, by simpa using hv.symm, ?_⟩
      · have : before.isPrefixOf (b :: rest) = true := by
          rw [List.isPrefixOf_iff_prefix]; exact ⟨v, hv⟩
        simp [find_aux, this]
      · intro r j hr
        rw [← hv]
        simpa using ScanReplace.hit v r j hr
    · have hf : before.isPrefixOf (b :: rest) = false := by
        rw [← Bool.not_eq_true, List.isPrefixOf_iff_prefix]; exact hp
      rcases ih (p + 1) with ⟨hnone, hscan⟩ | ⟨u, v, hsome, hrest, hscan⟩
      · left
        refine ⟨by simp [find_aux, hf, hnone], ScanReplace.skip b rest rest 0 hp hscan⟩
      · right
        refine ⟨b :: u, v, ?_, by simp [hrest], ?_⟩
        · simp only [find_aux, hf, Bool.false_eq_true, if_false, hsome, List.length_cons]
          congr 1
          omega
        · intro r j hr
          have := ScanReplace.skip b rest _ _ hp (hscan r j hr)
          simpa using this

theorem std_find_append (done rem str : List Byte) :
    std_find (done ++ rem) str done.length = find_aux str rem done.length := by
  unfold std_find
  rw [if_neg (by simp), List.drop_left']
  rfl

theorem replace_str_loop_spec (before after : WzString) (hb : before._utf8String ≠ [])
    (fuel : Nat) :
    ∀ (done rem : List Byte) (k : Nat), rem.length < fuel →
      ∃ r j, WzString.replace_str_loop (WzStringRef.object before) (WzStringRef.object after)
          fuel (done ++ rem) done.length k = some (done ++ r, k + j)
        ∧ ScanReplace before._utf8String after._utf8String rem r j := by
  induction fuel with
  | zero => intro done rem k h; omega
  | succ fuel ih =>
    intro done rem k hlen
    unfold WzString.replace_str_loop
    simp only [WzStringRef._utf8String]
    rw [std_find_append]
    rcases find_aux_spec before._utf8String after._utf8String hb rem done.length with ⟨hnone, hscan⟩
      | ⟨u, v, hsome, hrem, hscan⟩
    · rw [hnone]
      exact ⟨rem, 0, rfl, hscan⟩
    · rw [hsome]
      simp only []
      have hpos : 0 < before._utf8String.length := List.length_pos.2 hb
      have hvl : v.length < fuel := by
        rw [hrem] at hlen
        simp only [List.length_append] at hlen
        omega
      have e1 : (done ++ rem).take (done.length + u.length) = done ++ u := by
        rw [hrem, ← List.append_assoc, ← List.append_assoc, List.append_assoc (done ++ u),
          ← List.length_append, List.take_left']
        rfl
      have e2 : (done ++ rem).drop (done.length + u.length + before._utf8String.length) = v := by
        rw [hrem, ← List.append_assoc, ← List.append_assoc, ← List.length_append,
          ← List.length_append, List.drop_left']
        rfl
      have e3 : done.length + u.length + after._utf8String.length
          = (done ++ u ++ after._utf8String).length := by
        simp only [List.length_append]
      rw [e1, e2, e3]
      obtain ⟨r, j, hr, hs⟩ := ih (done ++ u ++ after._utf8String) v (k + 1) hvl
      rw [hr]
      refine ⟨u ++ after._utf8String ++ r, j + 1, ?_, hscan r j hs⟩
      simp only [List.append_assoc]
      congr 2
      omega

theorem encode_append_inj (c d : Nat) (hc : validCodepoint c) (hd : validCodepoint d)
    (x y : List Byte) (h : utf8Encode c ++ x = utf8Encode d ++ y) : c = d ∧ x = y := by
  have h1 := validate_next_encode c hc x
  have h2 := validate_next_encode d hd y
  rw [h, h2] at h1
  simp only [Prod.mk.injEq, true_and] at h1
  exact ⟨h1.1.symm, h1.2.symm⟩

theorem wellFormed_cancel_left (a v : List Byte) (hav : WellFormed (a ++ v))
    (ha : WellFormed a) : WellFormed v := by
  obtain ⟨as, has, rfl⟩ := ha
  induction as with
  | nil => simpa [utf8EncodeAll_nil] using hav
  | cons c cs ih =>
    have hc := has c (List.mem_cons_self c cs)
    have hcs : ∀ x ∈ cs, validCodepoint x := fun x hx => has x (List.mem_cons_of_mem c hx)
    obtain ⟨ds, hds, he⟩ := hav
    cases ds with
    | nil =>
      rw [utf8EncodeAll_nil, utf8EncodeAll_cons] at he
      have := (List.append_eq_nil.1 he).1
      have := (List.append_eq_nil.1 this).1
      exact absurd this (utf8Encode_ne_nil c)
    | cons d ds =>
      have hd := hds d (List.mem_cons_self d ds)
      have hds2 : ∀ x ∈ ds, validCodepoint x := fun x hx => hds x (List.mem_cons_of_mem d hx)
      rw [utf8EncodeAll_cons, utf8EncodeAll_cons, List.append_assoc] at he
      obtain ⟨_, he2⟩ := encode_append_inj c d hc hd _ _ he
      exact ih hcs ⟨ds, hds2, he2⟩

theorem ScanReplace_wellFormed (before after : List Byte) (hb : before ≠ [])
    (hbw : WellFormed before) (haw : WellFormed after) (s r : List Byte) (k : Nat)
    (h : ScanReplace before after s r k) :
    ∀ t w : List Byte, s = t ++ w → (∀ b ∈ t, 128 ≤ b.val ∧ b.val < 192) → WellFormed w →
      ∃ r1, r = t ++ r1 ∧ WellFormed r1 := by
  induction h with
  | done =>
    intro t w he ht hw
    obtain ⟨rfl, rfl⟩ := List.append_eq_nil.1 he.symm
    exact ⟨[], rfl, wellFormed_nil⟩
  | hit rest r1 k1 _ ih =>
    intro t w he ht hw
    obtain ⟨bs, hbs, rfl⟩ := hbw
    cases bs with
    | nil => exact absurd utf8EncodeAll_nil hb
    | cons c cs =>
      have hc := hbs c (List.mem_cons_self c cs)
      obtain ⟨b0, tr, hsh, hlead, _, _, _⟩ := utf8Encode_shape c hc
      cases t with
      | nil =>
        simp only [List.nil_append] at he
        subst he
        have hrest : WellFormed rest := wellFormed_cancel_left _ _ hw ⟨c :: cs, hbs, rfl⟩
        obtain ⟨r2, hr2, hw2⟩ := ih [] rest rfl (by simp) hrest
        simp only [List.nil_append] at hr2
        subst hr2
        exact ⟨after ++ r1, rfl, wellFormed_append _ _ haw hw2⟩
      | cons x t1 =>
        exfalso
        rw [utf8EncodeAll_cons, hsh] at he
        simp only [List.cons_append, List.cons.injEq] at he
        have := ht x (List.mem_cons_self x t1)
        rw [← he.1] at this
        exact hlead this
  | skip b rest r1 k1 hn _ ih =>
    intro t w he ht hw
    cases t with
    | nil =>
      simp only [List.nil_append] at he
      obtain ⟨ws, hws, rfl⟩ := hw
      cases ws with
      | nil => rw [utf8EncodeAll_nil] at he; simp at he
      | cons c cs =>
        have hc := hws c (List.mem_cons_self c cs)
        have hcs : ∀ x ∈ cs, validCodepoint x := fun x hx => hws x (List.mem_cons_of_mem c hx)
        obtain ⟨b0, tr, hsh, _, htr, _, _⟩ := utf8Encode_shape c hc
        rw [utf8EncodeAll_cons, hsh] at he
        simp only [List.cons_append, List.cons.injEq] at he
        obtain ⟨rfl, rfl⟩ := he
        obtain ⟨r2, hr2, hw2⟩ := ih tr (utf8EncodeAll cs) rfl htr ⟨cs, hcs, rfl⟩
        subst hr2
        refine ⟨b :: (tr ++ r2), rfl, ?_⟩
        have : b :: (tr ++ r2) = utf8Encode c ++ r2 := by rw [hsh]; rfl
        rw [this]
        exact wellFormed_append _ _ (wellFormed_encode c hc) hw2
    | cons x t1 =>
      simp only [List.cons_append, List.cons.injEq] at he
      obtain ⟨rfl, rfl⟩ := he
      obtain ⟨r2, hr2, hw2⟩ := ih t1 w rfl
        (fun y hy => ht y (List.mem_cons_of_mem _ hy)) hw
      subst hr2
      exact ⟨r2, rfl, hw2⟩

theorem replace_str_count_spec (s before after : WzString) (hb : before._utf8String ≠ []) :
    ∃ r k, WzString.replace_str_count (s._utf8String.length + 1) s (WzStringRef.object before)
        (WzStringRef.object after) = some (⟨r⟩, k)
      ∧ ScanReplace before._utf8String after._utf8String s._utf8String r k := by
  obtain ⟨r, j, hr, hs⟩ := replace_str_loop_spec before after hb
    (s._utf8String.length + 1) [] s._utf8String 0 (Nat.lt_succ_self _)
  simp only [List.nil_append, List.length_nil, Nat.zero_add] at hr
  refine ⟨r, j, ?_, hs⟩
  unfold WzString.replace_str_count
  simp only [WzStringRef._utf8String]
  rw [if_neg hb, hr]

theorem replace_str_wellFormed (s before after : WzString) (hs : WellFormed s._utf8String)
    (hbw : WellFormed before._utf8String) (haw : WellFormed after._utf8String) :
    ∃ t, WzString.replace_str s (WzStringRef.object before) (WzStringRef.object after) = some t
      ∧ WellFormed t._utf8String := by
  by_cases hb : before._utf8String = []
  · refine ⟨s, ?_, hs⟩
    simp [WzString.replace_str, WzString.replace_str_count, WzStringRef._utf8String, hb]
  · obtain ⟨r, k, hr, hsc⟩ := replace_str_count_spec s before after hb
    obtain ⟨r1, hr1, hw⟩ := ScanReplace_wellFormed _ _ hb hbw haw _ _ _ hsc [] s._utf8String rfl
      (by simp) hs
    simp only [List.nil_append] at hr1
    subst hr1
    refine ⟨⟨r⟩, ?_, hw⟩
    simp [WzString.replace_str, hr]

theorem utf16to8_wellFormed (n : Nat) :
    ∀ (l : List Nat) (result r : List Byte), l.length ≤ n → WellFormed result →
      utf8.utf16to8 l result = Except.ok r → WellFormed r := by
  induction n with
  | zero =>
    intro l result r hl hw h
    have : l = [] := List.length_eq_zero.1 (by omega)
    subst this
    rw [utf8.utf16to8] at h
    rw [← Except.ok.inj h]; exact hw
  | succ n ih =>
    intro l result r hl hw h
    cases l with
    | nil =>
      rw [utf8.utf16to8] at h
      rw [← Except.ok.inj h]; exact hw
    | cons u start =>
      rw [utf8.utf16to8.eq_def] at h
      simp only [] at h
      by_cases h1 : is_lead_surrogate (mask16 u) = true
      · rw [if_pos h1] at h
        cases start with
        | nil => simp at h
        | cons t start1 =>
          simp only [] at h
          by_cases h3 : is_trail_surrogate (mask16 t) = true
          · rw [if_pos h3] at h
            rcases ha : utf8.append (((mask16 u <<< 10) + mask16 t + 0xfca02400) % 4294967296)
              result with e | result1
            · rw [ha] at h; simp [Except.bind] at h
            · rw [ha] at h
              simp only [Except.bind] at h
              simp only [List.length_cons] at hl
              exact ih start1 result1 r (by omega) (append_wellFormed _ _ _ hw ha) h
          · rw [if_neg h3] at h; simp at h
      · rw [if_neg h1] at h
        by_cases h2 : is_trail_surrogate (mask16 u) = true
        · rw [if_pos h2] at h; simp at h
        · rw [if_neg h2] at h
          rcases ha : utf8.append (mask16 u) result with e | result1
          · rw [ha] at h; simp [Except.bind] at h
          · rw [ha] at h
            simp only [Except.bind] at h
            simp only [List.length_cons] at hl
            exact ih start result1 r (by omega) (append_wellFormed _ _ _ hw ha) h

theorem fromUtf16_wellFormed (utf16 : List Nat) :
    ∃ t, (WzString.fromUtf16 utf16).result = Except.ok t ∧ WellFormed t._utf8String := by
  unfold WzString.fromUtf16
  rcases h : utf8.utf16to8 utf16 [] with e | r
  · exact ⟨_, rfl, wellFormed_nil⟩
  · exact ⟨_, rfl, utf16to8_wellFormed _ _ _ _ (Nat.le_refl _) wellFormed_nil h⟩

theorem WzString_size_ch_loop_wellFormed (ch : Nat) (n : Nat) (buf : List Byte)
    (hw : WellFormed buf) : WellFormed (WzString.WzString_size_ch_loop ch n buf).1 := by
  induction n generalizing buf with
  | zero => exact hw
  | succ n ih =>
    unfold WzString.WzString_size_ch_loop
    rcases ha : utf8.append ch buf with e | buf1
    · exact hw
    · exact ih buf1 (append_wellFormed _ _ _ hw ha)

theorem WzString_size_ch_wellFormed (size : Int) (ch : Nat) :
    ∃ t, (WzString.WzString_size_ch size ch).result = Except.ok t
      ∧ WellFormed t._utf8String := by
  unfold WzString.WzString_size_ch
  have := WzString_size_ch_loop_wellFormed ch (size_t_of_int size) [] wellFormed_nil
  rcases h : WzString.WzString_size_ch_loop ch (size_t_of_int size) [] with ⟨buf, e⟩
  rw [h] at this
  cases e with
  | none => exact ⟨_, rfl, this⟩
  | some e => exact ⟨_, rfl, this⟩

theorem ascii_wellFormed (l : List Byte) (h : ∀ b ∈ l, b.val < 128) : WellFormed l := by
  induction l with
  | nil => exact wellFormed_nil
  | cons b l ih =>
    have hb := h b (List.mem_cons_self b l)
    have hl := ih (fun x hx => h x (List.mem_cons_of_mem b hx))
    have : b :: l = utf8Encode b.val ++ l := by rw [utf8Encode_1 b hb]; rfl
    rw [this]
    exact wellFormed_append _ _ (wellFormed_encode _ (by unfold validCodepoint; omega)) hl

theorem to_string_nat_ascii (n : Nat) : ∀ b ∈ to_string_nat n, b.val < 128 := by
  intro b hb
  unfold to_string_nat at hb
  split_ifs at hb with h0
  · simp only [List.mem_singleton] at hb
    subst hb; decide
  · simp only [List.mem_map, List.mem_reverse] at hb
    obtain ⟨d, hd, rfl⟩ := hb
    have := Nat.digits_lt_base (by decide : 1 < 10) hd
    rw [toByte_val]
    omega

theorem to_string_int_ascii (n : Int) : ∀ b ∈ to_string_int n, b.val < 128 := by
  intro b hb
  unfold to_string_int at hb
  split_ifs at hb with h0
  · rcases List.mem_cons.1 hb with rfl | hb
    · decide
    · exact to_string_nat_ascii _ b hb
  · exact to_string_nat_ascii _ b hb

theorem truncate_encode (cs : List Nat) (hv : ∀ c ∈ cs, validCodepoint c) (position : Int) :
    WzString.truncate ⟨utf8EncodeAll cs⟩ position
      = Except.ok ⟨utf8EncodeAll (cs.take position.toNat)⟩ := by
  unfold WzString.truncate
  by_cases hp : position ≤ 0
  · have h0 : (if position < 0 then 0 else position) = 0 := by
      split_ifs <;> omega
    have ht : position.toNat = 0 := by omega
    simp only [h0, if_true, ht, List.take_zero, utf8EncodeAll_nil]
  · have h0 : (if position < 0 then 0 else position) = position := by
      rw [if_neg (by omega)]
    simp only [h0]
    rw [if_neg (by omega), _utf8_advance_encode cs hv position.toNat]
    simp only []
    by_cases hl : cs.length ≤ position.toNat
    · have hd : cs.drop position.toNat = [] := List.drop_eq_nil_of_le hl
      rw [hd, utf8EncodeAll_nil, List.take_of_length_le hl]
      simp
    · have hne : utf8EncodeAll (cs.drop position.toNat) ≠ [] := by
        rw [Ne, utf8EncodeAll_eq_nil]
        simp; omega
      rw [if_pos hne, take_sub_length_drop]

theorem append_cstr_wellFormed (strict : Bool) (s : WzString) (str : Option (List Byte))
    (hs : WellFormed s._utf8String) :
    ∃ t, (WzString.append_cstr strict s str).result = Except.ok t
      ∧ WellFormed t._utf8String := by
  obtain ⟨t, ht, hw⟩ := WzString_str_size_wellFormed strict str (-1)
  unfold WzString.append_cstr WzString.fromUtf8
  rcases hr : WzString.WzString_str_size strict str (-1) with ⟨a, res⟩
  rw [hr] at ht
  simp only at ht
  subst ht
  exact ⟨_, rfl, wellFormed_append _ _ hs hw⟩

theorem insert_str_wellFormed (s x : WzString) (pos : Nat) (hs : WellFormed s._utf8String)
    (hx : WellFormed x._utf8String) :
    ∃ t, (WzString.insert_str s pos x).result = Except.ok t ∧ WellFormed t._utf8String := by
  obtain ⟨buf⟩ := s
  obtain ⟨cs, hv, rfl⟩ := hs
  refine ⟨_, insert_str_encode cs hv x pos, ?_⟩
  exact wellFormed_append _ _
    (wellFormed_append _ _ (wellFormed_encodeAll _ (valid_take cs hv pos)) hx)
    (wellFormed_encodeAll _ (valid_drop cs hv pos))

theorem repeat_bytes_wellFormed (c : Nat) (hc : validCodepoint c) (n : Nat) :
    WellFormed (WzString.repeat_bytes (utf8Encode c) n []) := by
  rw [repeat_bytes_encode, List.nil_append]
  refine wellFormed_encodeAll _ ?_
  intro x hx
  rw [List.eq_of_mem_replicate hx]
  exact hc

theorem leftPad_wellFormed (s : WzString) (ch : Nat) (minimumStringLength : Nat)
    (hs : WellFormed s._utf8String) (hc : validCodepoint ch) :
    ∃ t, (WzString.leftPadToMinimumLength s ch minimumStringLength).result = Except.ok t
      ∧ WellFormed t._utf8String := by
  have hlen : ∃ len, WzString.length s = Except.ok len := by
    obtain ⟨buf⟩ := s
    obtain ⟨cs, hv, rfl⟩ := hs
    unfold WzString.length
    rw [distance_encode cs hv]
    exact ⟨_, rfl⟩
  obtain ⟨len, hlen⟩ := hlen
  unfold WzString.leftPadToMinimumLength
  rw [hlen]
  simp only []
  split_ifs with h
  · exact ⟨s, rfl, hs⟩
  · rw [fromCodepoint_valid ch hc]
    simp only []
    exact insert_str_wellFormed s _ 0 hs (repeat_bytes_wellFormed ch hc _)

/-! Fuel: the loops of the codec are given as many turns as the input has octets. Every turn
consumes an octet, so one more turn changes nothing: no loop ends for lack of fuel. -/

theorem validate_next_err (it : List Byte) (h : (validate_next it).1 ≠ utf_error.UTF8_OK) :
    (validate_next it).2.2 = it := by
  unfold validate_next at h ⊢
  by_cases h0 : it = []
  · simp only [h0, if_true]
  · simp only [h0, if_false] at h ⊢
    by_cases h1 : sequence_length (deref it) = 0
    · simp only [h1, if_true]
    · simp only [h1, if_false] at h ⊢
      generalize (if sequence_length (deref it) = 1 then get_sequence_1 it
        else if sequence_length (deref it) = 2 then get_sequence_2 it
        else if sequence_length (deref it) = 3 then get_sequence_3 it
        else get_sequence_4 it) = r at h ⊢
      obtain ⟨e, cp, it1⟩ := r
      cases e with
      | UTF8_OK =>
        simp only [] at h ⊢
        split_ifs at h ⊢ <;> first | rfl | exact absurd rfl h
      | NOT_ENOUGH_ROOM => rfl
      | INVALID_LEAD => rfl
      | INCOMPLETE_SEQUENCE => rfl
      | OVERLONG_SEQUENCE => rfl
      | INVALID_CODE_POINT => rfl

theorem validate_next_ok_length (it : List Byte) (c : Nat) (rest : List Byte)
    (h : validate_next it = (utf_error.UTF8_OK, c, rest)) : rest.length < it.length := by
  obtain ⟨_, rfl⟩ := validate_next_ok it c rest h
  have := utf8Encode_length_pos c
  rw [List.length_append]
  omega

theorem skip_trail_length (l : List Byte) : (utf8.skip_trail l).length ≤ l.length := by
  induction l with
  | nil => simp [utf8.skip_trail]
  | cons b l ih =>
    unfold utf8.skip_trail
    split_ifs
    · simp only [List.length_cons]; omega
    · exact Nat.le_refl _

theorem tail_length_lt (l : List Byte) (h : l ≠ []) : l.tail.length < l.length := by
  cases l with
  | nil => exact absurd rfl h
  | cons b l => simp

theorem replace_invalid_loop_fuel (strict : Bool) (replacement : Nat) (fuel : Nat) :
    ∀ (start out : List Byte), start.length ≤ fuel →
      utf8.replace_invalid_loop strict replacement (fuel + 1) start out
        = utf8.replace_invalid_loop strict replacement fuel start out := by
  induction fuel with
  | zero =>
    intro start out h
    have : start = [] := List.length_eq_zero.1 (by omega)
    subst this
    simp [utf8.replace_invalid_loop]
  | succ fuel ih =>
    intro start out hlen
    unfold utf8.replace_invalid_loop
    by_cases hs : start = []
    · simp only [hs, if_true]
    · simp only [hs, if_false]
      have htail := tail_length_lt start hs
      rcases hvn : validate_next start with ⟨e, cp, start1⟩
      have herr : e ≠ utf_error.UTF8_OK → start1 = start := by
        intro he
        have := validate_next_err start (by rw [hvn]; exact he)
        rw [hvn] at this
        exact this
      cases e with
      | UTF8_OK =>
        simp only []
        have := validate_next_ok_length start cp start1 hvn
        exact ih _ _ (by omega)
      | NOT_ENOUGH_ROOM => rfl
      | INVALID_LEAD =>
        simp only []
        have := herr (by decide)
        subst this
        rcases utf8.append replacement out with e | out1
        · rfl
        · exact ih _ _ (by omega)
      | INCOMPLETE_SEQUENCE =>
        simp only []
        have := herr (by decide)
        subst this
        have := skip_trail_length start1.tail
        rcases utf8.append replacement out with e | out1
        · rfl
        · exact ih _ _ (by omega)
      | OVERLONG_SEQUENCE =>
        simp only []
        have := herr (by decide)
        subst this
        have := skip_trail_length start1.tail
        rcases utf8.append replacement out with e | out1
        · rfl
        · exact ih _ _ (by omega)
      | INVALID_CODE_POINT =>
        simp only []
        have := herr (by decide)
        subst this
        have := skip_trail_length start1.tail
        rcases utf8.append replacement out with e | out1
        · rfl
        · exact ih _ _ (by omega)

/-- The repair loop does not end for lack of fuel: more turns than the input has octets give
the same result. -/
theorem replace_invalid_fuel (strict : Bool) (replacement : Nat) (start out : List Byte)
    (extra : Nat) :
    utf8.replace_invalid_loop strict replacement (start.length + extra) start out
      = utf8.replace_invalid strict start out replacement := by
  unfold utf8.replace_invalid
  induction extra with
  | zero => rfl
  | succ extra ih =>
    rw [← ih, ← Nat.add_assoc]
    exact replace_invalid_loop_fuel strict replacement _ start out (by omega)

theorem distance_loop_fuel (fuel : Nat) :
    ∀ (first : List Byte) (dist : Nat), first.length ≤ fuel →
      utf8.distance_loop (fuel + 1) first dist = utf8.distance_loop fuel first dist := by
  induction fuel with
  | zero =>
    intro first dist h
    have : first = [] := List.length_eq_zero.1 (by omega)
    subst this
    simp [utf8.distance_loop]
  | succ fuel ih =>
    intro first dist hlen
    unfold utf8.distance_loop
    by_cases hs : first = []
    · simp only [hs, if_true]
    · simp only [hs, if_false]
      rcases hn : utf8.next first with e | ⟨cp, first1⟩
      · rfl
      · simp only []
        have hvn : validate_next first = (utf_error.UTF8_OK, cp, first1) := by
          unfold utf8.next at hn
          rcases hv : validate_next first with ⟨e, c, r⟩
          rw [hv] at hn
          cases e <;> simp at hn
          rw [hn.1, hn.2]
        have := validate_next_ok_length first cp first1 hvn
        exact ih _ _ (by omega)

/-- The scan of `utf8::distance` does not end for lack of fuel. -/
theorem distance_fuel (first : List Byte) (extra : Nat) :
    utf8.distance_loop (first.length + extra) first 0 = utf8.distance first := by
  unfold utf8.distance
  induction extra with
  | zero => rfl
  | succ extra ih =>
    rw [← ih, ← Nat.add_assoc]
    exact distance_loop_fuel _ first 0 (by omega)

theorem find_invalid_loop_fuel (fuel : Nat) :
    ∀ (result : List Byte), result.length ≤ fuel →
      utf8.find_invalid_loop (fuel + 1) result = utf8.find_invalid_loop fuel result := by
  induction fuel with
  | zero =>
    intro result h
    have : result = [] := List.length_eq_zero.1 (by omega)
    subst this
    simp [utf8.find_invalid_loop]
  | succ fuel ih =>
    intro result hlen
    unfold utf8.find_invalid_loop
    by_cases hs : result = []
    · simp only [hs, if_true]
    · simp only [hs, if_false]
      rcases hvn : validate_next result with ⟨e, cp, result1⟩
      cases e with
      | UTF8_OK =>
        simp only []
        have := validate_next_ok_length result cp result1 hvn
        exact ih _ (by omega)
      | NOT_ENOUGH_ROOM => rfl
      | INVALID_LEAD => rfl
      | INCOMPLETE_SEQUENCE => rfl
      | OVERLONG_SEQUENCE => rfl
      | INVALID_CODE_POINT => rfl

/-- The scan of `utf8::find_invalid` does not end for lack of fuel. -/
theorem find_invalid_fuel (start : List Byte) (extra : Nat) :
    utf8.find_invalid_loop (start.length + extra) start = utf8.find_invalid start := by
  unfold utf8.find_invalid
  induction extra with
  | zero => rfl
  | succ extra ih =>
    rw [← ih, ← Nat.add_assoc]
    exact find_invalid_loop_fuel _ start (by omega)

/-! ## The claims -/

/-- C2: UTF-8 round trip. For every well-formed UTF-8 octet sequence `b` given with its explicit
length, `WzString::fromUtf8(b).toUtf8()` is `b`, octet for octet, and no `ASSERT` fires; this
holds whatever follows `b` in memory, for both generations of the codec, and also for the
`std::string` overload when the length fits an `int`. -/
theorem C2_utf8_round_trip (b : List Byte) (hb : WellFormed b) (strict : Bool) :
    (∀ mem : List Byte, ∃ t,
        WzString.fromUtf8 strict (some (b ++ mem)) (b.length : Int) = ⟨false, Except.ok t⟩
        ∧ WzString.toUtf8 t = b)
    ∧ (b.length < 2147483648 → ∃ t,
        WzString.fromUtf8_string strict b = ⟨false, Except.ok t⟩ ∧ WzString.toUtf8 t = b) := by
  obtain ⟨cs, hv, rfl⟩ := hb
  constructor
  · intro mem
    exact ⟨⟨utf8EncodeAll cs⟩, WzString_str_size_encode strict cs hv mem, rfl⟩
  · intro hlen
    refine ⟨⟨utf8EncodeAll cs⟩, ?_, rfl⟩
    unfold WzString.fromUtf8_string
    rw [int_of_nat_small _ hlen]
    exact WzString_str_size_encode strict cs hv [0]

/-- Witness of C2: the five octets of "éabc", followed in memory by a NUL. -/
theorem C2_utf8_round_trip_witness :
    ∃ t,
      WzString.fromUtf8 true (some ([0xC3, 0xA9, 0x61, 0x62, 0x63] ++ [0]))
        (([0xC3, 0xA9, 0x61, 0x62, 0x63] : List Byte).length : Int) = ⟨false, Except.ok t⟩
      ∧ WzString.toUtf8 t = [0xC3, 0xA9, 0x61, 0x62, 0x63] :=
  (C2_utf8_round_trip [0xC3, 0xA9, 0x61, 0x62, 0x63]
    ⟨[0xE9, 0x61, 0x62, 0x63], by decide, by decide⟩ true).1 [0]

/-- C3: `length()` counts codepoints, not octets. For every sequence `cs` of valid codepoints
(whose number fits the `int` that `length()` returns), the Text whose buffer is the UTF-8
encoding of `cs` has `length()` equal to the number of elements of `cs`; that number is at most
the number of octets, with equality exactly when all codepoints are ASCII; and the five octets
of "éabc" (one 2-octet codepoint, three 1-octet codepoints) have `length() == 4`. -/
theorem C3_length_counts_codepoints (cs : List Nat) (hv : ∀ c ∈ cs, validCodepoint c)
    (hlen : cs.length < 2147483648) :
    WzString.length ⟨utf8EncodeAll cs⟩ = Except.ok (cs.length : Int)
    ∧ cs.length ≤ (utf8EncodeAll cs).length
    ∧ (cs.length = (utf8EncodeAll cs).length ↔ ∀ c ∈ cs, c < 0x80)
    ∧ utf8EncodeAll [0xE9, 0x61, 0x62, 0x63] = [0xC3, 0xA9, 0x61, 0x62, 0x63]
    ∧ WzString.length ⟨[0xC3, 0xA9, 0x61, 0x62, 0x63]⟩ = Except.ok 4 :=
  ⟨length_encode cs hv hlen, utf8Encode_length_le cs, utf8Encode_length_eq cs, by decide,
    by decide⟩

/-- Witness of C3: the codepoints U+20AC, U+0041, U+1F600. -/
theorem C3_length_counts_codepoints_witness :
    WzString.length ⟨utf8EncodeAll [0x20AC, 0x41, 0x1F600]⟩
      = Except.ok (([0x20AC, 0x41, 0x1F600] : List Nat).length : Int) :=
  (C3_length_counts_codepoints [0x20AC, 0x41, 0x1F600] (by decide) (by decide)).1

/-- C4: indexed read. For every well-formed Text `s` holding the codepoints `cs` and every `n`
with `n < length(s)`, `at(n)` returns exactly `cs[n]` and no `ASSERT` fires; and the "position
not found" `ASSERT` of `at(n)` fires if and only if `n >= length(s)`. -/
theorem C4_at_indexed_read (s : WzString) (cs : List Nat) (hs : Encodes s._utf8String cs)
    (n : Nat) :
    (∀ h : n < cs.length, WzString.at s n = ⟨false, Except.ok (cs.get ⟨n, h⟩)⟩)
    ∧ ((WzString.at s n).asserted = true ↔ cs.length ≤ n) := by
  obtain ⟨buf⟩ := s
  obtain ⟨hv, hbuf⟩ := hs
  simp only at hbuf
  subst hbuf
  refine ⟨fun h => at_encode_lt cs hv n h, ?_⟩
  by_cases h : n < cs.length
  · rw [at_encode_lt cs hv n h]
    simp only [Bool.false_eq_true, false_iff]
    omega
  · rw [at_encode_ge cs hv n (by omega)]
    simp only [true_iff]
    omega

/-- Witness of C4: reading position 1 of "éa". -/
theorem C4_at_indexed_read_witness :
    WzString.at ⟨[0xC3, 0xA9, 0x61]⟩ 1
      = ⟨false, Except.ok (([0xE9, 0x61] : List Nat).get ⟨1, by decide⟩)⟩ :=
  (C4_at_indexed_read ⟨[0xC3, 0xA9, 0x61]⟩ [0xE9, 0x61] ⟨by decide, by decide⟩ 1).1 (by decide)

/-- C5: insert at a codepoint position. For every well-formed Text `s` with codepoints `cs`,
every well-formed Text `x` with codepoints `xs` and every `pos <= length(s)`, `insert(pos, x)`
leaves the codepoints (first `pos` of `cs`) ++ `xs` ++ (the rest of `cs`), which are
`length(s) + length(x)` many; the overload for one valid codepoint does the same; and
inserting "X" at position 1 of "ab" gives "aXb". -/
theorem C5_insert_at_position (s x : WzString) (cs xs : List Nat)
    (hs : Encodes s._utf8String cs) (hx : Encodes x._utf8String xs) (pos : Nat)
    (hpos : pos ≤ cs.length) :
    (∃ t, (WzString.insert_str s pos x).result = Except.ok t
        ∧ Encodes t._utf8String (cs.take pos ++ xs ++ cs.drop pos))
    ∧ (cs.take pos ++ xs ++ cs.drop pos).length = cs.length + xs.length
    ∧ (∀ c, validCodepoint c → ∃ t, (WzString.insert_c s pos c).result = Except.ok t
        ∧ Encodes t._utf8String (cs.take pos ++ [c] ++ cs.drop pos))
    ∧ (WzString.insert_str ⟨[0x61, 0x62]⟩ 1 ⟨[0x58]⟩).result = Except.ok ⟨[0x61, 0x58, 0x62]⟩ := by
  obtain ⟨buf⟩ := s
  obtain ⟨xbuf⟩ := x
  obtain ⟨hv, hbuf⟩ := hs
  obtain ⟨hxv, hxbuf⟩ := hx
  simp only at hbuf hxbuf
  subst hbuf
  subst hxbuf
  refine ⟨⟨_, insert_str_encode cs hv _ pos, ?_, ?_⟩, ?_, ?_, by decide⟩
  · intro y hy
    rcases List.mem_append.1 hy with h | h
    · rcases List.mem_append.1 h with h | h
      · exact valid_take cs hv pos y h
      · exact hxv y h
    · exact valid_drop cs hv _ y h
  · simp only [utf8EncodeAll_append]
  · simp only [List.length_append, List.length_take, List.length_drop]
    omega
  · intro c hc
    refine ⟨_, insert_c_encode cs hv c hc pos, ?_, ?_⟩
    · intro y hy
      rcases List.mem_append.1 hy with h | h
      · rcases List.mem_append.1 h with h | h
        · exact valid_take cs hv pos y h
        · rw [List.mem_singleton.1 h]; exact hc
      · exact valid_drop cs hv _ y h
    · simp only [utf8EncodeAll_append, utf8EncodeAll_cons, utf8EncodeAll_nil, List.append_nil]

/-- Witness of C5: inserting "é" at position 1 of "a€". -/
theorem C5_insert_at_position_witness :
    ∃ t, (WzString.insert_str ⟨[0x61, 0xE2, 0x82, 0xAC]⟩ 1 ⟨[0xC3, 0xA9]⟩).result = Except.ok t
      ∧ Encodes t._utf8String
          (([0x61, 0x20AC] : List Nat).take 1 ++ [0xE9] ++ ([0x61, 0x20AC] : List Nat).drop 1) :=
  (C5_insert_at_position ⟨[0x61, 0xE2, 0x82, 0xAC]⟩ ⟨[0xC3, 0xA9]⟩ [0x61, 0x20AC] [0xE9]
    ⟨by decide, by decide⟩ ⟨by decide, by decide⟩ 1 (by decide)).1

/-- C6: insert at the end is append. For every well-formed Text `s` (empty or not, with or
without multi-octet codepoints, its `length()` fitting the `int` it is returned in) and every
Text `x`, `s.insert(s.length(), x)` gives the same buffer as `s.append(x)`. -/
theorem C6_insert_at_end_is_append (s : WzString) (cs : List Nat)
    (hs : Encodes s._utf8String cs) (hlen : cs.length < 2147483648) (x : WzString) :
    ∃ n, WzString.length s = Except.ok n
      ∧ (WzString.insert_str s (size_t_of_int n) x).result
          = Except.ok (WzString.append_str s x) := by
  obtain ⟨buf⟩ := s
  obtain ⟨hv, hbuf⟩ := hs
  simp only at hbuf
  subst hbuf
  refine ⟨_, length_encode cs hv hlen, ?_⟩
  rw [size_t_of_int_small _ (by omega), insert_str_encode cs hv x cs.length]
  simp only [List.take_length, List.drop_length, utf8EncodeAll_nil, List.append_nil,
    WzString.append_str]

/-- Witness of C6: appending "X" to "éa" by inserting at its length. -/
theorem C6_insert_at_end_is_append_witness :
    ∃ n, WzString.length ⟨[0xC3, 0xA9, 0x61]⟩ = Except.ok n
      ∧ (WzString.insert_str ⟨[0xC3, 0xA9, 0x61]⟩ (size_t_of_int n) ⟨[0x58]⟩).result
          = Except.ok (WzString.append_str ⟨[0xC3, 0xA9, 0x61]⟩ ⟨[0x58]⟩) :=
  C6_insert_at_end_is_append ⟨[0xC3, 0xA9, 0x61]⟩ [0xE9, 0x61] ⟨by decide, by decide⟩
    (by decide) ⟨[0x58]⟩

/-- C7 (what the code does): inserting at `pos == length(s)` into "é", which holds a 2-octet
codepoint, fires the `ASSERT` although the position is not past the end, while inserting at
position 3 of the two-codepoint "ab" fires none although the position is past the end; both
overloads behave alike, and in all four calls the octets are appended. -/
theorem C7_insert_assert_compares_octets :
    WzString.insert_str ⟨[0xC3, 0xA9]⟩ 1 ⟨[0x58]⟩ = ⟨true, Except.ok ⟨[0xC3, 0xA9, 0x58]⟩⟩
    ∧ WzString.insert_c ⟨[0xC3, 0xA9]⟩ 1 0x58 = ⟨true, Except.ok ⟨[0xC3, 0xA9, 0x58]⟩⟩
    ∧ WzString.insert_str ⟨[0x61, 0x62]⟩ 3 ⟨[0x58]⟩ = ⟨false, Except.ok ⟨[0x61, 0x62, 0x58]⟩⟩
    ∧ WzString.insert_c ⟨[0x61, 0x62]⟩ 3 0x58 = ⟨false, Except.ok ⟨[0x61, 0x62, 0x58]⟩⟩ := by
  decide

/-- C8: `remove(i, n)` erases a clamped codepoint range. For every well-formed Text `s` with
codepoints `cs`, every `i` and every `n > 0`, after `remove(i, n)` the codepoints are (first `i`
of `cs`) ++ (`cs` from index `i + n` on); so the call changes nothing when `i >= length(s)`,
it cuts `s` to its first `i` codepoints when `i + n >= length(s)`, and for `i <= length(s)` the
new length is `length(s) - min(n, length(s) - i)`. For `n <= 0` the Text is unchanged. -/
theorem C8_remove_clamped_range (s : WzString) (cs : List Nat) (hs : Encodes s._utf8String cs)
    (i : Nat) (n : Int) :
    (0 < n → ∃ t, WzString.remove s i n = Except.ok t
        ∧ Encodes t._utf8String (cs.take i ++ cs.drop (i + n.toNat)))
    ∧ (0 < n → cs.length ≤ i → WzString.remove s i n = Except.ok s)
    ∧ (0 < n → cs.length ≤ i + n.toNat → ∃ t, WzString.remove s i n = Except.ok t
        ∧ Encodes t._utf8String (cs.take i))
    ∧ (0 < n → i ≤ cs.length →
        (cs.take i ++ cs.drop (i + n.toNat)).length = cs.length - min n.toNat (cs.length - i))
    ∧ (n ≤ 0 → WzString.remove s i n = Except.ok s) := by
  obtain ⟨buf⟩ := s
  obtain ⟨hv, hbuf⟩ := hs
  simp only at hbuf
  subst hbuf
  have hvalid : ∀ m, ∀ y ∈ cs.take i ++ cs.drop m, validCodepoint y := by
    intro m y hy
    rcases List.mem_append.1 hy with h | h
    · exact valid_take cs hv i y h
    · exact valid_drop cs hv _ y h
  refine ⟨?_, ?_, ?_, ?_, ?_⟩
  · intro hn
    exact ⟨_, remove_encode cs hv i n hn, hvalid _, rfl⟩
  · intro hn hi
    rw [remove_encode cs hv i n hn, List.take_of_length_le hi,
      List.drop_eq_nil_of_le (by omega), List.append_nil]
  · intro hn hi
    refine ⟨_, remove_encode cs hv i n hn, valid_take cs hv i, ?_⟩
    rw [List.drop_eq_nil_of_le hi, List.append_nil]
  · intro hn hi
    simp only [List.length_append, List.length_take, List.length_drop]
    omega
  · intro hn
    unfold WzString.remove
    rw [if_pos hn]

/-- Witness of C8: removing 2 codepoints from position 1 of "aé€b". -/
theorem C8_remove_clamped_range_witness :
    ∃ t, WzString.remove ⟨[0x61, 0xC3, 0xA9, 0xE2, 0x82, 0xAC, 0x62]⟩ 1 2 = Except.ok t
      ∧ Encodes t._utf8String
          (([0x61, 0xE9, 0x20AC, 0x62] : List Nat).take 1
            ++ ([0x61, 0xE9, 0x20AC, 0x62] : List Nat).drop (1 + (2 : Int).toNat)) :=
  (C8_remove_clamped_range ⟨[0x61, 0xC3, 0xA9, 0xE2, 0x82, 0xAC, 0x62]⟩
    [0x61, 0xE9, 0x20AC, 0x62] ⟨by decide, by decide⟩ 1 2).1 (by decide)

/-- C9: `replace(pos, n, c)` overwrites a clamped span with repetitions of `c`. For every
well-formed Text `s` with codepoints `cs`, every `pos <= length(s)`, every `n >= 0` and every
valid codepoint `c`, with `m = min(n, length(s) - pos)` the result holds the codepoints (first
`pos` of `cs`) ++ (`m` copies of `c`) ++ (`cs` from index `pos + m` on), as many as before; when
`pos > length(s)` the Text is unchanged. -/
theorem C9_replace_pos_clamped_span (s : WzString) (cs : List Nat)
    (hs : Encodes s._utf8String cs) (pos n c : Nat) (hc : validCodepoint c) :
    (pos ≤ cs.length → ∃ t, WzString.replace_pos s pos n c = Except.ok t
        ∧ Encodes t._utf8String (cs.take pos ++ List.replicate (min n (cs.length - pos)) c
            ++ cs.drop (pos + min n (cs.length - pos)))
        ∧ (cs.take pos ++ List.replicate (min n (cs.length - pos)) c
            ++ cs.drop (pos + min n (cs.length - pos))).length = cs.length)
    ∧ (cs.length < pos → WzString.replace_pos s pos n c = Except.ok s) := by
  obtain ⟨buf⟩ := s
  obtain ⟨hv, hbuf⟩ := hs
  simp only at hbuf
  subst hbuf
  refine ⟨?_, fun hp => replace_pos_outside cs hv pos n c hp⟩
  intro hp
  refine ⟨_, replace_pos_encode cs hv pos n c hc hp, ⟨?_, rfl⟩, ?_⟩
  · intro y hy
    rcases List.mem_append.1 hy with h | h
    · rcases List.mem_append.1 h with h | h
      · exact valid_take cs hv pos y h
      · rw [List.eq_of_mem_replicate h]; exact hc
    · exact valid_drop cs hv _ y h
  · simp only [List.length_append, List.length_take, List.length_drop, List.length_replicate]
    omega

/-- Witness of C9: overwriting 5 codepoints from position 1 of "aé€" with "z". -/
theorem C9_replace_pos_clamped_span_witness :
    ∃ t, WzString.replace_pos ⟨[0x61, 0xC3, 0xA9, 0xE2, 0x82, 0xAC]⟩ 1 5 0x7A = Except.ok t
      ∧ Encodes t._utf8String
          (([0x61, 0xE9, 0x20AC] : List Nat).take 1
            ++ List.replicate (min 5 (([0x61, 0xE9, 0x20AC] : List Nat).length - 1)) 0x7A
            ++ ([0x61, 0xE9, 0x20AC] : List Nat).drop
                (1 + min 5 (([0x61, 0xE9, 0x20AC] : List Nat).length - 1)))
      ∧ (([0x61, 0xE9, 0x20AC] : List Nat).take 1
            ++ List.replicate (min 5 (([0x61, 0xE9, 0x20AC] : List Nat).length - 1)) 0x7A
            ++ ([0x61, 0xE9, 0x20AC] : List Nat).drop
                (1 + min 5 (([0x61, 0xE9, 0x20AC] : List Nat).length - 1))).length
          = ([0x61, 0xE9, 0x20AC] : List Nat).length :=
  (C9_replace_pos_clamped_span ⟨[0x61, 0xC3, 0xA9, 0xE2, 0x82, 0xAC]⟩ [0x61, 0xE9, 0x20AC]
    ⟨by decide, by decide⟩ 1 5 0x7A (by decide)).1 (by decide)

/-! ## The search of `std::string::find` -/

theorem find_aux_some (str : List Byte) (rem : List Byte) :
    ∀ p q : Nat, find_aux str rem p = some q →
      ∃ u v, rem = u ++ str ++ v ∧ q = p + u.length := by
  induction rem with
  | nil =>
    intro p q h
    unfold find_aux at h
    split_ifs at h with hp
    · have hs : str = [] := by
        rw [List.isPrefixOf_iff_prefix] at hp
        exact List.eq_nil_of_prefix_nil hp
      refine ⟨[], [], by simp [hs], ?_⟩
      simp only [Option.some.injEq] at h
      simp [h]
  | cons b rest ih =>
    intro p q h
    unfold find_aux at h
    split_ifs at h with hp
    · rw [List.isPrefixOf_iff_prefix] at hp
      obtain ⟨v, hv⟩ := hp
      refine ⟨[], v, by simpa using hv.symm, ?_⟩
      simp only [Option.some.injEq] at h
      simp [h]
    · obtain ⟨u, v, hrest, hq⟩ := ih (p + 1) q h
      refine ⟨b :: u, v, by simp [hrest], ?_⟩
      simp only [List.length_cons]
      omega

theorem find_aux_none (str : List Byte) (rem : List Byte) :
    ∀ p : Nat, find_aux str rem p = none → ¬ str <:+: rem := by
  induction rem with
  | nil =>
    intro p h
    unfold find_aux at h
    split_ifs at h with hp
    intro hin
    apply hp
    rw [List.isPrefixOf_iff_prefix]
    have : str = [] := List.eq_nil_of_infix_nil hin
    rw [this]
  | cons b rest ih =>
    intro p h
    unfold find_aux at h
    split_ifs at h with hp
    have hrest := ih (p + 1) h
    intro hin
    rw [List.infix_cons_iff] at hin
    rcases hin with hpre | hin
    · apply hp
      rw [List.isPrefixOf_iff_prefix]
      exact hpre
    · exact hrest hin

theorem std_find_some (s str : List Byte) (pos p : Nat) (h : std_find s str pos = some p) :
    pos ≤ p ∧ ∃ u v, s = u ++ str ++ v ∧ u.length = p := by
  unfold std_find at h
  split_ifs at h with hpos
  obtain ⟨u, v, hrem, hq⟩ := find_aux_some str _ pos p h
  refine ⟨by omega, s.take pos ++ u, v, ?_, ?_⟩
  · rw [List.append_assoc, List.append_assoc, ← List.append_assoc u, ← hrem,
      List.take_append_drop]
  · rw [List.length_append, List.length_take, Nat.min_eq_left (by omega)]
    omega

/-! ## Termination of `replace(before, after)` -/

theorem ScanReplace_count_le (before after s r : List Byte) (k : Nat)
    (h : ScanReplace before after s r k) : k * before.length ≤ s.length := by
  induction h with
  | done => simp
  | hit rest r1 k1 _ ih =>
    simp only [List.length_append]
    rw [Nat.add_mul]
    omega
  | skip b rest r1 k1 _ _ ih =>
    simp only [List.length_cons]
    omega

theorem replace_str_loop_div (before after : WzString) (hb : before._utf8String ≠ [])
    (fuel : Nat) :
    ∀ (done rem : List Byte) (k : Nat), rem.length / before._utf8String.length < fuel →
      ∃ r j, WzString.replace_str_loop (WzStringRef.object before) (WzStringRef.object after)
          fuel (done ++ rem) done.length k = some (done ++ r, k + j)
        ∧ ScanReplace before._utf8String after._utf8String rem r j := by
  induction fuel with
  | zero => intro done rem k h; exact absurd h (Nat.not_lt_zero _)
  | succ fuel ih =>
    intro done rem k hlen
    unfold WzString.replace_str_loop
    simp only [WzStringRef._utf8String]
    rw [std_find_append]
    rcases find_aux_spec before._utf8String after._utf8String hb rem done.length with ⟨hnone, hscan⟩
      | ⟨u, v, hsome, hrem, hscan⟩
    · rw [hnone]
      exact ⟨rem, 0, rfl, hscan⟩
    · rw [hsome]
      simp only []
      have hpos : 0 < before._utf8String.length := List.length_pos.2 hb
      have hvl : v.length / before._utf8String.length < fuel := by
        have h1 : v.length + before._utf8String.length ≤ rem.length := by
          rw [hrem]
          simp only [List.length_append]
          omega
        have h2 : (v.length + before._utf8String.length) / before._utf8String.length ≤ rem.length / before._utf8String.length :=
          Nat.div_le_div_right h1
        rw [Nat.add_div_right _ hpos] at h2
        omega
      have e1 : (done ++ rem).take (done.length + u.length) = done ++ u := by
        rw [hrem, ← List.append_assoc, ← List.append_assoc, List.append_assoc (done ++ u),
          ← List.length_append, List.take_left']
        rfl
      have e2 : (done ++ rem).drop (done.length + u.length + before._utf8String.length) = v := by
        rw [hrem, ← List.append_assoc, ← List.append_assoc, ← List.length_append,
          ← List.length_append, List.drop_left']
        rfl
      have e3 : done.length + u.length + after._utf8String.length
          = (done ++ u ++ after._utf8String).length := by
        simp only [List.length_append]
      rw [e1, e2, e3]
      obtain ⟨r, j, hr, hs⟩ := ih (done ++ u ++ after._utf8String) v (k + 1) hvl
      rw [hr]
      refine ⟨u ++ after._utf8String ++ r, j + 1, ?_, hscan r j hs⟩
      simp only [List.append_assoc]
      congr 2
      omega

/-- C12: `truncate(pos)` keeps a codepoint prefix. For every well-formed Text `s` with
codepoints `cs` and every integer `pos`, after `truncate(pos)` the codepoints are the first
`min(max(pos, 0), length(s))` of `cs`: `pos <= 0` gives the empty Text, `pos >= length(s)`
leaves `s` unchanged, and otherwise the result has exactly `pos` codepoints and is an initial
part of `s`. -/
theorem C12_truncate_keeps_initial_part (s : WzString) (cs : List Nat)
    (hs : Encodes s._utf8String cs) (pos : Int) :
    ∃ t, WzString.truncate s pos = Except.ok t
      ∧ Encodes t._utf8String (cs.take (min (max pos 0).toNat cs.length))
      ∧ (pos ≤ 0 → t = ⟨[]⟩)
      ∧ ((cs.length : Int) ≤ pos → t = s)
      ∧ (0 < pos → pos < (cs.length : Int) →
          (cs.take (min (max pos 0).toNat cs.length)).length = pos.toNat
          ∧ cs.take (min (max pos 0).toNat cs.length) <+: cs
          ∧ t._utf8String <+: s._utf8String) := by
  obtain ⟨buf⟩ := s
  obtain ⟨hv, hbuf⟩ := hs
  simp only at hbuf
  subst hbuf
  have htake : cs.take (min (max pos 0).toNat cs.length) = cs.take pos.toNat := by
    by_cases hp : pos.toNat ≤ cs.length
    · have : (max pos 0).toNat = pos.toNat := by omega
      rw [this, Nat.min_eq_left hp]
    · have : (max pos 0).toNat = pos.toNat := by omega
      rw [this, Nat.min_eq_right (by omega), List.take_length,
        List.take_of_length_le (by omega)]
  refine ⟨_, truncate_encode cs hv pos, ⟨valid_take cs hv _, by rw [htake]⟩, ?_, ?_, ?_⟩
  · intro hp
    have : pos.toNat = 0 := by omega
    rw [this, List.take_zero, utf8EncodeAll_nil]
  · intro hp
    rw [List.take_of_length_le (by omega)]
  · intro h0 hlt
    rw [htake]
    refine ⟨?_, List.take_prefix _ _, ?_⟩
    · rw [List.length_take]
      omega
    · refine ⟨utf8EncodeAll (cs.drop pos.toNat), ?_⟩
      exact utf8EncodeAll_take_drop cs pos.toNat

/-- Witness of C12: truncating "aé€b" to 2 codepoints. -/
theorem C12_truncate_keeps_initial_part_witness :
    ∃ t, WzString.truncate ⟨[0x61, 0xC3, 0xA9, 0xE2, 0x82, 0xAC, 0x62]⟩ 2 = Except.ok t
      ∧ Encodes t._utf8String
          (([0x61, 0xE9, 0x20AC, 0x62] : List Nat).take
            (min (max (2 : Int) 0).toNat ([0x61, 0xE9, 0x20AC, 0x62] : List Nat).length))
      ∧ ((2 : Int) ≤ 0 → t = ⟨[]⟩)
      ∧ ((([0x61, 0xE9, 0x20AC, 0x62] : List Nat).length : Int) ≤ 2 →
          t = ⟨[0x61, 0xC3, 0xA9, 0xE2, 0x82, 0xAC, 0x62]⟩)
      ∧ ((0 : Int) < 2 → (2 : Int) < (([0x61, 0xE9, 0x20AC, 0x62] : List Nat).length : Int) →
          (([0x61, 0xE9, 0x20AC, 0x62] : List Nat).take
            (min (max (2 : Int) 0).toNat ([0x61, 0xE9, 0x20AC, 0x62] : List Nat).length)).length
            = (2 : Int).toNat
          ∧ ([0x61, 0xE9, 0x20AC, 0x62] : List Nat).take
              (min (max (2 : Int) 0).toNat ([0x61, 0xE9, 0x20AC, 0x62] : List Nat).length)
              <+: [0x61, 0xE9, 0x20AC, 0x62]
          ∧ t._utf8String <+: [0x61, 0xC3, 0xA9, 0xE2, 0x82, 0xAC, 0x62]) :=
  C12_truncate_keeps_initial_part ⟨[0x61, 0xC3, 0xA9, 0xE2, 0x82, 0xAC, 0x62]⟩
    [0x61, 0xE9, 0x20AC, 0x62] ⟨by decide, by decide⟩ 2

theorem insert_str_at_zero (cs : List Nat) (hv : ∀ c ∈ cs, validCodepoint c) (x : WzString) :
    WzString.insert_str ⟨utf8EncodeAll cs⟩ 0 x
      = ⟨false, Except.ok ⟨x._utf8String ++ utf8EncodeAll cs⟩⟩ := by
  have h1 := insert_str_encode cs hv x 0
  have h2 := insert_str_asserted cs hv x 0
  have h3 : (WzString.insert_str ⟨utf8EncodeAll cs⟩ 0 x).asserted = false := by
    rw [← Bool.not_eq_true, h2]
    intro ⟨ha, hb⟩
    have : cs = [] := List.length_eq_zero.1 (by omega)
    rw [this, utf8EncodeAll_nil] at hb
    simp at hb
  rcases hr : WzString.insert_str ⟨utf8EncodeAll cs⟩ 0 x with ⟨a, r⟩
  rw [hr] at h1 h3
  simp only at h1 h3
  rw [h1, h3]
  simp [utf8EncodeAll_nil]

theorem leftPad_encode (cs : List Nat) (hv : ∀ c ∈ cs, validCodepoint c) (ch len : Nat)
    (hc : validCodepoint ch) (hlen : cs.length < 2147483648)
    (hL : len < 18446744073709551616) :
    WzString.leftPadToMinimumLength ⟨utf8EncodeAll cs⟩ ch len
      = ⟨false, Except.ok ⟨utf8EncodeAll (List.replicate (len - cs.length) ch ++ cs)⟩⟩ := by
  unfold WzString.leftPadToMinimumLength
  rw [length_encode cs hv hlen]
  simp only []
  rw [size_t_of_int_small cs.length (by omega)]
  by_cases h : cs.length ≥ len
  · rw [if_pos h]
    have : len - cs.length = 0 := by omega
    rw [this, List.replicate_zero, List.nil_append]
  · rw [if_neg h, fromCodepoint_valid ch hc]
    simp only []
    have hpad : (len + (18446744073709551616 - cs.length)) % 18446744073709551616
        = len - cs.length := by omega
    rw [hpad, repeat_bytes_encode, List.nil_append, insert_str_at_zero cs hv,
      utf8EncodeAll_append]

/-- C13: `leftPadToMinimumLength(ch, L)`. For every well-formed Text `s` with codepoints `cs`
(fewer than 2^31), every valid codepoint `ch` and every `L` (a `size_t`), the call fires no
`ASSERT` and leaves `L - length(s)` copies of `ch` followed by `cs`: the Text is unchanged when
`length(s) >= L`, and the number of codepoints is `max(L, length(s))`, which is what `length()`
then returns when it fits an `int`. -/
theorem C13_leftPad_to_minimum_length (s : WzString) (cs : List Nat)
    (hs : Encodes s._utf8String cs) (ch len : Nat) (hc : validCodepoint ch)
    (hlen : cs.length < 2147483648) (hL : len < 18446744073709551616) :
    ∃ t, WzString.leftPadToMinimumLength s ch len = ⟨false, Except.ok t⟩
      ∧ Encodes t._utf8String (List.replicate (len - cs.length) ch ++ cs)
      ∧ (List.replicate (len - cs.length) ch ++ cs).length = max len cs.length
      ∧ (len ≤ cs.length → t = s)
      ∧ (max len cs.length < 2147483648 →
          WzString.length t = Except.ok ((max len cs.length : Nat) : Int)) := by
  obtain ⟨buf⟩ := s
  obtain ⟨hv, hbuf⟩ := hs
  simp only at hbuf
  subst hbuf
  have hvalid : ∀ y ∈ List.replicate (len - cs.length) ch ++ cs, validCodepoint y := by
    intro y hy
    rcases List.mem_append.1 hy with h | h
    · rw [List.eq_of_mem_replicate h]; exact hc
    · exact hv y h
  have hlength : (List.replicate (len - cs.length) ch ++ cs).length = max len cs.length := by
    rw [List.length_append, List.length_replicate]
    omega
  refine ⟨_, leftPad_encode cs hv ch len hc hlen hL, ⟨hvalid, rfl⟩, hlength, ?_, ?_⟩
  · intro h
    have : len - cs.length = 0 := by omega
    rw [this, List.replicate_zero, List.nil_append]
  · intro h
    rw [← hlength]
    exact length_encode _ hvalid (by omega)

/-- Witness of C13: padding "é" with "0" to 3 codepoints. -/
theorem C13_leftPad_to_minimum_length_witness :
    ∃ t, WzString.leftPadToMinimumLength ⟨[0xC3, 0xA9]⟩ 0x30 3 = ⟨false, Except.ok t⟩
      ∧ Encodes t._utf8String
          (List.replicate (3 - ([0xE9] : List Nat).length) 0x30 ++ [0xE9])
      ∧ (List.replicate (3 - ([0xE9] : List Nat).length) 0x30 ++ [0xE9]).length
          = max 3 ([0xE9] : List Nat).length
      ∧ (3 ≤ ([0xE9] : List Nat).length → t = ⟨[0xC3, 0xA9]⟩)
      ∧ (max 3 ([0xE9] : List Nat).length < 2147483648 →
          WzString.length t = Except.ok ((max 3 ([0xE9] : List Nat).length : Nat) : Int)) :=
  C13_leftPad_to_minimum_length ⟨[0xC3, 0xA9]⟩ [0xE9] ⟨by decide, by decide⟩ 0x30 3
    (by decide) (by decide) (by decide)

/-! ## The order of `std::string` -/

theorem std_string_compare_range (a b : List Byte) :
    std_string_compare a b = -1 ∨ std_string_compare a b = 0 ∨ std_string_compare a b = 1 := by
  induction a generalizing b with
  | nil => cases b <;> simp [std_string_compare]
  | cons x xs ih =>
    cases b with
    | nil => simp [std_string_compare]
    | cons y ys =>
      unfold std_string_compare
      split_ifs
      · exact Or.inl rfl
      · exact Or.inr (Or.inr rfl)
      · exact ih ys

theorem std_string_compare_eq_zero (a b : List Byte) :
    std_string_compare a b = 0 ↔ a = b := by
  induction a generalizing b with
  | nil => cases b <;> simp [std_string_compare]
  | cons x xs ih =>
    cases b with
    | nil => simp [std_string_compare]
    | cons y ys =>
      unfold std_string_compare
      split_ifs with h1 h2
      · simp only [List.cons.injEq]
        constructor
        · intro h; exact h.elim
        · rintro ⟨hxy, _⟩
          have := congrArg Fin.val hxy
          omega
      · simp only [List.cons.injEq]
        constructor
        · intro h; omega
        · rintro ⟨hxy, _⟩
          have := congrArg Fin.val hxy
          omega
      · have hxy : x = y := Fin.ext (by omega)
        rw [ih ys]
        simp [hxy]

theorem std_string_compare_antisymm (a b : List Byte) :
    std_string_compare a b = - std_string_compare b a := by
  induction a generalizing b with
  | nil => cases b <;> simp [std_string_compare]
  | cons x xs ih =>
    cases b with
    | nil => simp [std_string_compare]
    | cons y ys =>
      simp only [std_string_compare]
      split_ifs <;> first | omega | exact ih ys

theorem std_string_compare_trans (a b c : List Byte) :
    std_string_compare a b ≤ 0 → std_string_compare b c ≤ 0 → std_string_compare a c ≤ 0 := by
  induction a generalizing b c with
  | nil => cases c <;> simp [std_string_compare]
  | cons x xs ih =>
    cases b with
    | nil => simp [std_string_compare]
    | cons y ys =>
      cases c with
      | nil => simp [std_string_compare]
      | cons z zs =>
        simp only [std_string_compare]
        split_ifs <;> first | omega | (intro h1 h2; omega) | exact ih ys zs

theorem compare_eq_std (a b : WzString) :
    WzString.compare a b = std_string_compare a._utf8String b._utf8String := by
  unfold WzString.compare std_string_lt std_string_eq
  have hr := std_string_compare_range a._utf8String b._utf8String
  have hz := std_string_compare_eq_zero a._utf8String b._utf8String
  by_cases h1 : std_string_compare a._utf8String b._utf8String < 0
  · simp only [h1, decide_True, if_true]
    omega
  · simp only [h1, decide_False, Bool.false_eq_true, if_false]
    by_cases h2 : a._utf8String = b._utf8String
    · rw [if_pos (decide_eq_true h2)]
      exact (hz.2 h2).symm
    · rw [if_neg (by simpa using h2)]
      have : std_string_compare a._utf8String b._utf8String ≠ 0 := fun h => h2 (hz.1 h)
      omega

/-- C14: `compare(const WzString&)` is a consistent total order. For all Texts `a`, `b`, `c`:
`compare(a, b)` is -1, 0 or 1; it is 0 exactly when `a == b` (and `a != b` is the negation);
`compare(a, b) == -compare(b, a)`; `compare(a, b) <= 0` and `compare(b, c) <= 0` give
`compare(a, c) <= 0`; and `a < b` exactly when `compare(a, b) == -1`. -/
theorem C14_compare_total_order (a b c : WzString) :
    (WzString.compare a b = -1 ∨ WzString.compare a b = 0 ∨ WzString.compare a b = 1)
    ∧ (WzString.compare a b = 0 ↔ WzString.op_eq a b = true)
    ∧ (WzString.op_ne a b = !WzString.op_eq a b)
    ∧ WzString.compare a b = - WzString.compare b a
    ∧ (WzString.compare a b ≤ 0 → WzString.compare b c ≤ 0 → WzString.compare a c ≤ 0)
    ∧ (WzString.op_lt a b = true ↔ WzString.compare a b = -1) := by
  rw [compare_eq_std a b, compare_eq_std b a, compare_eq_std b c, compare_eq_std a c]
  have hr := std_string_compare_range a._utf8String b._utf8String
  refine ⟨hr, ?_, rfl, std_string_compare_antisymm _ _, std_string_compare_trans _ _ _, ?_⟩
  · rw [std_string_compare_eq_zero]
    simp [WzString.op_eq, std_string_eq]
  · simp only [WzString.op_lt, std_string_lt, decide_eq_true_eq]
    omega

/-! ## The order of the encodings -/

theorem std_string_compare_append_left (p x y : List Byte) :
    std_string_compare (p ++ x) (p ++ y) = std_string_compare x y := by
  induction p with
  | nil => rfl
  | cons b p ih =>
    simp only [List.cons_append, std_string_compare, Nat.lt_irrefl, if_false]
    exact ih

theorem cmp_cons_lt (x y : Byte) (xs ys : List Byte) (h : x.val < y.val) :
    std_string_compare (x :: xs) (y :: ys) = -1 := by
  simp [std_string_compare, h]

theorem cmp_cons_eq (x y : Byte) (xs ys : List Byte) (h : x.val = y.val) :
    std_string_compare (x :: xs) (y :: ys) = std_string_compare xs ys := by
  simp [std_string_compare, h]

theorem cmp_toByte_lt (n m : Nat) (xs ys : List Byte) (hm : m < 256) (h : n < m) :
    std_string_compare (toByte n :: xs) (toByte m :: ys) = -1 := by
  apply cmp_cons_lt
  rw [toByte_val, toByte_val]
  omega

theorem cmp_toByte_eq (n m : Nat) (xs ys : List Byte) (h : n = m) :
    std_string_compare (toByte n :: xs) (toByte m :: ys) = std_string_compare xs ys := by
  apply cmp_cons_eq
  rw [h]

theorem utf8Encode_lt (c d : Nat) (hc : validCodepoint c) (hd : validCodepoint d) (h : c < d)
    (x y : List Byte) :
    std_string_compare (utf8Encode c ++ x) (utf8Encode d ++ y) = -1 := by
  obtain ⟨hc1, hc2⟩ := hc
  obtain ⟨hd1, hd2⟩ := hd
  unfold utf8Encode
  by_cases c1 : c < 0x80
  · rw [if_pos c1]
    split_ifs <;> exact cmp_toByte_lt _ _ _ _ (by omega) (by omega)
  · rw [if_neg c1, if_neg (show ¬ d < 0x80 by omega)]
    by_cases c2 : c < 0x800
    · rw [if_pos c2]
      by_cases d2 : d < 0x800
      · rw [if_pos d2]
        simp only [List.cons_append, List.nil_append]
        by_cases e0 : c / 64 < d / 64
        · exact cmp_toByte_lt _ _ _ _ (by omega) (by omega)
        · rw [cmp_toByte_eq (0xC0 + c / 64) (0xC0 + d / 64) _ _ (by omega)]
          exact cmp_toByte_lt _ _ _ _ (by omega) (by omega)
      · rw [if_neg d2]
        split_ifs <;> exact cmp_toByte_lt _ _ _ _ (by omega) (by omega)
    · rw [if_neg c2, if_neg (show ¬ d < 0x800 by omega)]
      by_cases c3 : c < 0x10000
      · rw [if_pos c3]
        by_cases d3 : d < 0x10000
        · rw [if_pos d3]
          simp only [List.cons_append, List.nil_append]
          by_cases e0 : c / 4096 < d / 4096
          · exact cmp_toByte_lt _ _ _ _ (by omega) (by omega)
          · rw [cmp_toByte_eq (0xE0 + c / 4096) (0xE0 + d / 4096) _ _ (by omega)]
            by_cases e1 : c / 64 % 64 < d / 64 % 64
            · exact cmp_toByte_lt _ _ _ _ (by omega) (by omega)
            · rw [cmp_toByte_eq (0x80 + c / 64 % 64) (0x80 + d / 64 % 64) _ _ (by omega)]
              exact cmp_toByte_lt _ _ _ _ (by omega) (by omega)
        · rw [if_neg d3]
          exact cmp_toByte_lt _ _ _ _ (by omega) (by omega)
      · rw [if_neg c3, if_neg (show ¬ d < 0x10000 by omega)]
        simp only [List.cons_append, List.nil_append]
        by_cases e0 : c / 262144 < d / 262144
        · exact cmp_toByte_lt _ _ _ _ (by omega) (by omega)
        · rw [cmp_toByte_eq (0xF0 + c / 262144) (0xF0 + d / 262144) _ _ (by omega)]
          by_cases e1 : c / 4096 % 64 < d / 4096 % 64
          · exact cmp_toByte_lt _ _ _ _ (by omega) (by omega)
          · rw [cmp_toByte_eq (0x80 + c / 4096 % 64) (0x80 + d / 4096 % 64) _ _ (by omega)]
            by_cases e2 : c / 64 % 64 < d / 64 % 64
            · exact cmp_toByte_lt _ _ _ _ (by omega) (by omega)
            · rw [cmp_toByte_eq (0x80 + c / 64 % 64) (0x80 + d / 64 % 64) _ _ (by omega)]
              exact cmp_toByte_lt _ _ _ _ (by omega) (by omega)

theorem compare_encodeAll (cs ds : List Nat) (hc : ∀ c ∈ cs, validCodepoint c)
    (hd : ∀ d ∈ ds, validCodepoint d) :
    std_string_compare (utf8EncodeAll cs) (utf8EncodeAll ds) = codepointsCompare cs ds := by
  induction cs generalizing ds with
  | nil =>
    cases ds with
    | nil => rfl
    | cons d ds =>
      obtain ⟨b0, t, hsh, _⟩ := utf8Encode_shape d (hd d (List.mem_cons_self d ds))
      rw [utf8EncodeAll_cons, hsh]
      rfl
  | cons c cs ih =>
    have hcv := hc c (List.mem_cons_self c cs)
    have hcs : ∀ x ∈ cs, validCodepoint x := fun x hx => hc x (List.mem_cons_of_mem c hx)
    cases ds with
    | nil =>
      obtain ⟨b0, t, hsh, _⟩ := utf8Encode_shape c hcv
      rw [utf8EncodeAll_cons, hsh]
      rfl
    | cons d ds =>
      have hdv := hd d (List.mem_cons_self d ds)
      have hds : ∀ x ∈ ds, validCodepoint x := fun x hx => hd x (List.mem_cons_of_mem d hx)
      rw [utf8EncodeAll_cons, utf8EncodeAll_cons]
      unfold codepointsCompare
      split_ifs with h1 h2
      · exact utf8Encode_lt c d hcv hdv h1 _ _
      · rw [std_string_compare_antisymm, utf8Encode_lt d c hdv hcv h2 _ _]
        rfl
      · have : c = d := by omega
        subst this
        rw [std_string_compare_append_left]
        exact ih ds hcs hds

theorem codepointsCompare_range (xs ys : List Nat) :
    codepointsCompare xs ys = -1 ∨ codepointsCompare xs ys = 0 ∨ codepointsCompare xs ys = 1 := by
  induction xs generalizing ys with
  | nil => cases ys <;> simp [codepointsCompare]
  | cons x xs ih =>
    cases ys with
    | nil => simp [codepointsCompare]
    | cons y ys =>
      unfold codepointsCompare
      split_ifs
      · exact Or.inl rfl
      · exact Or.inr (Or.inr rfl)
      · exact ih ys

theorem codepointsCompare_lt (xs ys : List Nat) : codepointsCompare xs ys = -1 ↔ xs < ys := by
  induction xs generalizing ys with
  | nil =>
    cases ys with
    | nil =>
      simp only [codepointsCompare]
      constructor
      · intro h; omega
      · intro h; cases h
    | cons y ys =>
      simp only [codepointsCompare, true_iff]
      exact List.Lex.nil
  | cons x xs ih =>
    cases ys with
    | nil =>
      simp only [codepointsCompare]
      constructor
      · intro h; omega
      · intro h; cases h
    | cons y ys =>
      unfold codepointsCompare
      split_ifs with h1 h2
      · simp only [true_iff]
        exact List.Lex.rel h1
      · constructor
        · intro h; exact absurd h (by decide)
        · intro h
          cases h with
          | cons h3 => omega
          | rel hlt => omega
      · have hxy : x = y := by omega
        subst hxy
        rw [ih ys]
        constructor
        · intro h
          exact List.Lex.cons h
        · intro h
          cases h with
          | cons h3 => exact h3
          | rel hlt => omega

theorem codepointsCompare_eq (xs ys : List Nat) : codepointsCompare xs ys = 0 ↔ xs = ys := by
  induction xs generalizing ys with
  | nil => cases ys <;> simp [codepointsCompare]
  | cons x xs ih =>
    cases ys with
    | nil => simp [codepointsCompare]
    | cons y ys =>
      unfold codepointsCompare
      split_ifs with h1 h2
      · simp only [List.cons.injEq]
        constructor
        · intro h; exact absurd h (by decide)
        · rintro ⟨hxy, _⟩; omega
      · simp only [List.cons.injEq]
        constructor
        · intro h; omega
        · rintro ⟨hxy, _⟩; omega
      · rw [ih ys]
        have : x = y := by omega
        simp [this]

theorem codepointsCompare_antisymm (xs ys : List Nat) :
    codepointsCompare xs ys = - codepointsCompare ys xs := by
  induction xs generalizing ys with
  | nil => cases ys <;> simp [codepointsCompare]
  | cons x xs ih =>
    cases ys with
    | nil => simp [codepointsCompare]
    | cons y ys =>
      simp only [codepointsCompare]
      split_ifs <;> first | omega | exact ih ys

/-- C15: octet-wise comparison agrees with codepoint order. For all well-formed Texts `a` and
`b` with codepoints `as` and `bs`, `compare(a, b)` is the sign of the lexicographic comparison
of `as` and `bs` by numeric value: -1 exactly when `as < bs`, 0 exactly when `as = bs`, 1
exactly when `bs < as`. -/
theorem C15_compare_is_codepoint_order (a b : WzString) (cs ds : List Nat)
    (ha : Encodes a._utf8String cs) (hb : Encodes b._utf8String ds) :
    WzString.compare a b = codepointsCompare cs ds
    ∧ (WzString.compare a b = -1 ↔ cs < ds)
    ∧ (WzString.compare a b = 0 ↔ cs = ds)
    ∧ (WzString.compare a b = 1 ↔ ds < cs) := by
  have h : WzString.compare a b = codepointsCompare cs ds := by
    rw [compare_eq_std, ha.2, hb.2]
    exact compare_encodeAll cs ds ha.1 hb.1
  refine ⟨h, ?_, ?_, ?_⟩
  · rw [h]; exact codepointsCompare_lt cs ds
  · rw [h]; exact codepointsCompare_eq cs ds
  · rw [h, ← codepointsCompare_lt ds cs, codepointsCompare_antisymm cs ds]
    omega

/-- Witness of C15: "é" is greater than "z" (U+00E9 above U+007A), and 0xC3 above 0x7A. -/
theorem C15_compare_is_codepoint_order_witness :
    WzString.compare ⟨[0xC3, 0xA9]⟩ ⟨[0x7A]⟩ = codepointsCompare [0xE9] [0x7A]
    ∧ (WzString.compare ⟨[0xC3, 0xA9]⟩ ⟨[0x7A]⟩ = -1 ↔ ([0xE9] : List Nat) < [0x7A])
    ∧ (WzString.compare ⟨[0xC3, 0xA9]⟩ ⟨[0x7A]⟩ = 0 ↔ ([0xE9] : List Nat) = [0x7A])
    ∧ (WzString.compare ⟨[0xC3, 0xA9]⟩ ⟨[0x7A]⟩ = 1 ↔ ([0x7A] : List Nat) < [0xE9]) :=
  C15_compare_is_codepoint_order ⟨[0xC3, 0xA9]⟩ ⟨[0x7A]⟩ [0xE9] [0x7A]
    ⟨by decide, by decide⟩ ⟨by decide, by decide⟩

/-! ## Codepoint boundaries -/

theorem utf8EncodeAll_injective (xs ys : List Nat) (hx : ∀ c ∈ xs, validCodepoint c)
    (hy : ∀ c ∈ ys, validCodepoint c) (h : utf8EncodeAll xs = utf8EncodeAll ys) : xs = ys := by
  induction xs generalizing ys with
  | nil =>
    rw [utf8EncodeAll_nil] at h
    exact ((utf8EncodeAll_eq_nil ys).1 h.symm).symm
  | cons c cs ih =>
    cases ys with
    | nil =>
      rw [utf8EncodeAll_nil] at h
      exact (utf8EncodeAll_eq_nil _).1 h
    | cons d ds =>
      rw [utf8EncodeAll_cons, utf8EncodeAll_cons] at h
      obtain ⟨rfl, h2⟩ := encode_append_inj c d (hx c (List.mem_cons_self c cs))
        (hy d (List.mem_cons_self d ds)) _ _ h
      rw [ih ds (fun x hxm => hx x (List.mem_cons_of_mem c hxm))
        (fun x hxm => hy x (List.mem_cons_of_mem c hxm)) h2]

/-- An encoding that starts a well-formed buffer is the encoding of its first codepoints. -/
theorem utf8EncodeAll_initial (ts ds : List Nat) (ht : ∀ c ∈ ts, validCodepoint c)
    (hd : ∀ c ∈ ds, validCodepoint c) (v : List Byte)
    (h : utf8EncodeAll ts ++ v = utf8EncodeAll ds) :
    ∃ vs, ds = ts ++ vs ∧ v = utf8EncodeAll vs := by
  induction ts generalizing ds with
  | nil =>
    rw [utf8EncodeAll_nil, List.nil_append] at h
    exact ⟨ds, rfl, h⟩
  | cons c cs ih =>
    cases ds with
    | nil =>
      rw [utf8EncodeAll_nil, utf8EncodeAll_cons] at h
      have := (List.append_eq_nil.1 h).1
      have := (List.append_eq_nil.1 this).1
      exact absurd this (utf8Encode_ne_nil c)
    | cons d ds =>
      rw [utf8EncodeAll_cons, utf8EncodeAll_cons, List.append_assoc] at h
      obtain ⟨rfl, h2⟩ := encode_append_inj c d (ht c (List.mem_cons_self c cs))
        (hd d (List.mem_cons_self d ds)) _ _ h
      obtain ⟨vs, hvs, hv⟩ := ih ds (fun x hxm => ht x (List.mem_cons_of_mem c hxm))
        (fun x hxm => hd x (List.mem_cons_of_mem c hxm)) h2
      exact ⟨vs, by rw [hvs]; rfl, hv⟩

/-- A cut of a well-formed buffer in front of an octet that is not a trail octet (or at the
end) is a cut between two codepoints. -/
theorem utf8EncodeAll_boundary (cs : List Nat) (hv : ∀ c ∈ cs, validCodepoint c) :
    ∀ (u w : List Byte), utf8EncodeAll cs = u ++ w →
      (∀ b w1, w = b :: w1 → ¬ (128 ≤ b.val ∧ b.val < 192)) →
      ∃ n, n ≤ cs.length ∧ u = utf8EncodeAll (cs.take n) ∧ w = utf8EncodeAll (cs.drop n) := by
  induction cs with
  | nil =>
    intro u w h _
    rw [utf8EncodeAll_nil] at h
    obtain ⟨rfl, rfl⟩ := List.append_eq_nil.1 h.symm
    exact ⟨0, Nat.le_refl _, rfl, rfl⟩
  | cons c cs ih =>
    intro u w h hw
    have hc := hv c (List.mem_cons_self c cs)
    have hcs : ∀ x ∈ cs, validCodepoint x := fun x hx => hv x (List.mem_cons_of_mem c hx)
    rw [utf8EncodeAll_cons] at h
    rcases List.append_eq_append_iff.1 h with ⟨a, hu, hrest⟩ | ⟨a, henc, hwa⟩
    · obtain ⟨n, hn, hun, hwn⟩ := ih hcs a w hrest hw
      refine ⟨n + 1, by simpa using hn, ?_, ?_⟩
      · rw [List.take_succ_cons, utf8EncodeAll_cons, hu, hun]
      · rw [List.drop_succ_cons]; exact hwn
    · cases u with
      | nil =>
        refine ⟨0, Nat.zero_le _, rfl, ?_⟩
        rw [List.nil_append] at henc
        rw [hwa, ← henc, List.drop_zero, utf8EncodeAll_cons]
      | cons x u1 =>
        cases a with
        | nil =>
          refine ⟨1, by simp, ?_, ?_⟩
          · rw [List.append_nil] at henc
            rw [List.take_succ_cons, List.take_zero, utf8EncodeAll_cons, utf8EncodeAll_nil,
              List.append_nil, henc]
          · rw [hwa, List.nil_append, List.drop_succ_cons, List.drop_zero]
        | cons y a1 =>
          exfalso
          obtain ⟨b0, tr, hsh, _, htr, _, _⟩ := utf8Encode_shape c hc
          rw [hsh] at henc
          simp only [List.cons_append, List.cons.injEq] at henc
          have hy : y ∈ tr := by
            rw [henc.2]
            exact List.mem_append_right _ (List.mem_cons_self y a1)
          exact hw y (a1 ++ utf8EncodeAll cs) (by rw [hwa]; rfl) (htr y hy)

theorem utf8EncodeAll_head (ts : List Nat) (ht : ∀ c ∈ ts, validCodepoint c) (v : List Byte) :
    ts ≠ [] → ∀ b w1, utf8EncodeAll ts ++ v = b :: w1 → ¬ (128 ≤ b.val ∧ b.val < 192) := by
  intro hne b w1 h
  cases ts with
  | nil => exact absurd rfl hne
  | cons c cs =>
    obtain ⟨b0, tr, hsh, hlead, _⟩ := utf8Encode_shape c (ht c (List.mem_cons_self c cs))
    rw [utf8EncodeAll_cons, hsh] at h
    simp only [List.cons_append, List.cons.injEq] at h
    rw [← h.1]
    exact hlead

/-- An occurrence of a non-empty well-formed text in a well-formed buffer starts and ends
between two codepoints. -/
theorem occurrence_boundary (cs ts : List Nat) (hc : ∀ c ∈ cs, validCodepoint c)
    (ht : ∀ c ∈ ts, validCodepoint c) (hne : ts ≠ []) (u v : List Byte)
    (h : utf8EncodeAll cs = u ++ utf8EncodeAll ts ++ v) :
    ∃ n, n + ts.length ≤ cs.length ∧ u = utf8EncodeAll (cs.take n)
      ∧ cs.drop n = ts ++ cs.drop (n + ts.length)
      ∧ v = utf8EncodeAll (cs.drop (n + ts.length)) := by
  rw [List.append_assoc] at h
  obtain ⟨n, hn, hu, hw⟩ := utf8EncodeAll_boundary cs hc u _ h
    (utf8EncodeAll_head ts ht v hne)
  obtain ⟨vs, hvs, hv⟩ := utf8EncodeAll_initial ts (cs.drop n) ht (valid_drop cs hc n) v hw
  have hd : cs.drop (n + ts.length) = vs := by
    rw [← List.drop_drop, hvs, List.drop_left']
    rfl
  have hl : (cs.drop n).length = ts.length + vs.length := by
    rw [hvs, List.length_append]
  rw [List.length_drop] at hl
  exact ⟨n, by omega, hu, by rw [hd]; exact hvs, by rw [hd]; exact hv⟩

theorem infix_encodeAll (cs ts : List Nat) (hc : ∀ c ∈ cs, validCodepoint c)
    (ht : ∀ c ∈ ts, validCodepoint c) :
    utf8EncodeAll ts <:+: utf8EncodeAll cs ↔ ts <:+: cs := by
  constructor
  · rintro ⟨u, v, h⟩
    by_cases hne : ts = []
    · rw [hne]; exact ⟨[], cs, rfl⟩
    · obtain ⟨n, _, _, hd, _⟩ := occurrence_boundary cs ts hc ht hne u v h.symm
      refine ⟨cs.take n, cs.drop (n + ts.length), ?_⟩
      rw [List.append_assoc, ← hd, List.take_append_drop]
  · rintro ⟨us, vs, h⟩
    refine ⟨utf8EncodeAll us, utf8EncodeAll vs, ?_⟩
    rw [← h, utf8EncodeAll_append, utf8EncodeAll_append]

theorem initial_encodeAll (cs ts : List Nat) (hc : ∀ c ∈ cs, validCodepoint c)
    (ht : ∀ c ∈ ts, validCodepoint c) :
    utf8EncodeAll ts <+: utf8EncodeAll cs ↔ ts <+: cs := by
  constructor
  · rintro ⟨v, h⟩
    obtain ⟨vs, hvs, _⟩ := utf8EncodeAll_initial ts cs ht hc v h
    exact ⟨vs, hvs.symm⟩
  · rintro ⟨vs, h⟩
    exact ⟨utf8EncodeAll vs, by rw [← h, utf8EncodeAll_append]⟩

theorem final_encodeAll (cs ts : List Nat) (hc : ∀ c ∈ cs, validCodepoint c)
    (ht : ∀ c ∈ ts, validCodepoint c) :
    utf8EncodeAll ts <:+ utf8EncodeAll cs ↔ ts <:+ cs := by
  constructor
  · rintro ⟨u, h⟩
    by_cases hne : ts = []
    · rw [hne]; exact ⟨cs, by simp⟩
    · have h2 : utf8EncodeAll cs = u ++ utf8EncodeAll ts ++ [] := by
        rw [List.append_nil]; exact h.symm
      obtain ⟨n, _, _, hd, hv⟩ := occurrence_boundary cs ts hc ht hne u [] h2
      have : cs.drop (n + ts.length) = [] := (utf8EncodeAll_eq_nil _).1 hv.symm
      rw [this, List.append_nil] at hd
      exact ⟨cs.take n, by rw [← hd, List.take_append_drop]⟩
  · rintro ⟨us, h⟩
    exact ⟨utf8EncodeAll us, by rw [← h, utf8EncodeAll_append]⟩

/-! ## The octet-wise tests -/

theorem contains_str_iff (s other : WzString) :
    WzString.contains_str s other = true ↔ other._utf8String <:+: s._utf8String := by
  unfold WzString.contains_str std_find
  rw [if_neg (by omega), List.drop_zero]
  rcases h : find_aux other._utf8String s._utf8String 0 with _ | q
  · simp only [Option.isSome_none, Bool.false_eq_true, false_iff]
    exact find_aux_none _ _ 0 h
  · simp only [Option.isSome_some, true_iff]
    obtain ⟨u, v, hs, _⟩ := find_aux_some _ _ 0 q h
    exact ⟨u, v, hs.symm⟩

theorem startsWith_iff (s other : WzString) :
    WzString.startsWith s other = true ↔ other._utf8String <+: s._utf8String := by
  unfold WzString.startsWith std_string_compare_sub
  rw [List.drop_zero, beq_iff_eq, std_string_compare_eq_zero, List.prefix_iff_eq_take]
  exact eq_comm

theorem endsWith_iff (s other : WzString) :
    WzString.endsWith s other = true ↔ other._utf8String <:+ s._utf8String := by
  unfold WzString.endsWith std_string_compare_sub
  by_cases h : s._utf8String.length ≥ other._utf8String.length
  · rw [if_pos h, beq_iff_eq, std_string_compare_eq_zero, List.suffix_iff_eq_drop]
    have : (s._utf8String.drop (s._utf8String.length - other._utf8String.length)).take
        other._utf8String.length
        = s._utf8String.drop (s._utf8String.length - other._utf8String.length) := by
      apply List.take_of_length_le
      rw [List.length_drop]
      omega
    rw [this]
    exact eq_comm
  · rw [if_neg h]
    simp only [Bool.false_eq_true, false_iff]
    intro hs
    exact h hs.length_le

/-- C16: octet-wise search is codepoint-correct. For all well-formed Texts `s` and `t` with
codepoints `cs` and `ts`: `s.contains(t)` holds exactly when `ts` is a contiguous part of `cs`;
an occurrence of a non-empty `t` among the octets of `s` starts and ends between two
codepoints of `s`; `s.contains(c)` for a valid codepoint `c` holds exactly when `c` is one of
`cs`; and `s.startsWith(t)` and `s.endsWith(t)` hold exactly when `ts` is an initial part and
a final part of `cs`. -/
theorem C16_search_is_codepoint_correct (s t : WzString) (cs ts : List Nat)
    (hs : Encodes s._utf8String cs) (ht : Encodes t._utf8String ts) (c : Nat)
    (hc : validCodepoint c) :
    (WzString.contains_str s t = true ↔ ts <:+: cs)
    ∧ (ts ≠ [] → ∀ u v : List Byte, s._utf8String = u ++ t._utf8String ++ v →
        ∃ n, n + ts.length ≤ cs.length ∧ u = utf8EncodeAll (cs.take n)
          ∧ v = utf8EncodeAll (cs.drop (n + ts.length)))
    ∧ (∃ r, WzString.contains_c s c = Except.ok r ∧ (r = true ↔ c ∈ cs))
    ∧ (WzString.startsWith s t = true ↔ ts <+: cs)
    ∧ (WzString.endsWith s t = true ↔ ts <:+ cs) := by
  obtain ⟨hsv, hsb⟩ := hs
  obtain ⟨htv, htb⟩ := ht
  refine ⟨?_, ?_, ?_, ?_, ?_⟩
  · rw [contains_str_iff, hsb, htb]
    exact infix_encodeAll cs ts hsv htv
  · intro hne u v h
    rw [hsb, htb] at h
    obtain ⟨n, hn, hu, _, hv⟩ := occurrence_boundary cs ts hsv htv hne u v h
    exact ⟨n, hn, hu, hv⟩
  · refine ⟨WzString.contains_str s ⟨utf8Encode c⟩, ?_, ?_⟩
    · unfold WzString.contains_c
      rw [fromCodepoint_valid c hc]
    · rw [contains_str_iff, hsb]
      have hone : utf8Encode c = utf8EncodeAll [c] := by
        rw [utf8EncodeAll_cons, utf8EncodeAll_nil, List.append_nil]
      show utf8Encode c <:+: utf8EncodeAll cs ↔ c ∈ cs
      rw [hone, infix_encodeAll cs [c] hsv (by simpa using hc)]
      constructor
      · rintro ⟨us, vs, h⟩
        rw [← h]
        simp
      · intro hmem
        obtain ⟨us, vs, h⟩ := List.append_of_mem hmem
        exact ⟨us, vs, by rw [h]; simp⟩
  · rw [startsWith_iff, hsb, htb]
    exact initial_encodeAll cs ts hsv htv
  · rw [endsWith_iff, hsb, htb]
    exact final_encodeAll cs ts hsv htv

/-- Witness of C16: "é" in "aé€". -/
theorem C16_search_is_codepoint_correct_witness :
    (WzString.contains_str ⟨[0x61, 0xC3, 0xA9, 0xE2, 0x82, 0xAC]⟩ ⟨[0xC3, 0xA9]⟩ = true
      ↔ ([0xE9] : List Nat) <:+: [0x61, 0xE9, 0x20AC]) :=
  (C16_search_is_codepoint_correct ⟨[0x61, 0xC3, 0xA9, 0xE2, 0x82, 0xAC]⟩ ⟨[0xC3, 0xA9]⟩
    [0x61, 0xE9, 0x20AC] [0xE9] ⟨by decide, by decide⟩ ⟨by decide, by decide⟩ 0x41
    (by decide)).1

/-! ## UTF-16 -/

theorem utf16EncodeAll_cons (c : Nat) (cs : List Nat) :
    utf16EncodeAll (c :: cs) = utf16Encode c ++ utf16EncodeAll cs := by
  simp [utf16EncodeAll]

theorem and_3ff (x : Nat) : x &&& 0x3ff = x % 1024 := Nat.and_pow_two_sub_one_eq_mod x 10

theorem mask16_eq (u : Nat) : mask16 u = u % 65536 := by
  unfold mask16
  rw [Nat.land_comm]
  exact Nat.and_pow_two_sub_one_eq_mod u 16

theorem utf8to16_loop_encode (cs : List Nat) (hv : ∀ c ∈ cs, validCodepoint c) (fuel : Nat)
    (result : List Nat) (hf : (utf8EncodeAll cs).length ≤ fuel) :
    utf8.utf8to16_loop fuel (utf8EncodeAll cs) result
      = Except.ok (result ++ utf16EncodeAll cs) := by
  induction cs generalizing fuel result with
  | nil =>
    cases fuel with
    | zero => simp [utf8.utf8to16_loop, utf16EncodeAll]
    | succ fuel => simp [utf8.utf8to16_loop, utf8EncodeAll_nil, utf16EncodeAll]
  | cons c cs ih =>
    have hc := hv c (List.mem_cons_self c cs)
    have hcs : ∀ x ∈ cs, validCodepoint x := fun x hx => hv x (List.mem_cons_of_mem c hx)
    have hpos := utf8Encode_length_pos c
    rw [utf8EncodeAll_cons, List.length_append] at hf
    cases fuel with
    | zero => omega
    | succ fuel =>
      unfold utf8.utf8to16_loop
      rw [utf8EncodeAll_cons, next_encode c hc]
      have hne : utf8Encode c ++ utf8EncodeAll cs ≠ [] :=
        List.append_ne_nil_of_left_ne_nil (utf8Encode_ne_nil _) _
      simp only [hne, if_false]
      obtain ⟨hc1, hc2⟩ := hc
      by_cases hbig : c > 0xffff
      · rw [if_pos hbig, ih hcs fuel _ (by omega), utf16EncodeAll_cons, List.append_assoc]
        have e1 : toU16 ((c >>> 10) + 0xd7c0) = 0xD800 + (c - 0x10000) / 1024 := by
          unfold toU16
          rw [Nat.shiftRight_eq_div_pow]
          omega
        have e2 : toU16 ((c &&& 0x3ff) + 0xdc00) = 0xDC00 + (c - 0x10000) % 1024 := by
          unfold toU16
          rw [and_3ff]
          omega
        rw [e1, e2]
        unfold utf16Encode
        rw [if_neg (by omega)]
      · rw [if_neg hbig, ih hcs fuel _ (by omega), utf16EncodeAll_cons, List.append_assoc]
        have e1 : toU16 c = c := by
          unfold toU16
          omega
        rw [e1]
        unfold utf16Encode
        rw [if_pos (by omega)]

theorem toUtf16_encode (cs : List Nat) (hv : ∀ c ∈ cs, validCodepoint c) :
    WzString.toUtf16 ⟨utf8EncodeAll cs⟩ = Except.ok (utf16EncodeAll cs) := by
  unfold WzString.toUtf16 utf8.utf8to16
  rw [utf8to16_loop_encode cs hv _ [] (Nat.le_refl _), List.nil_append]

theorem utf16to8_unit (c : Nat) (hc1 : c ≤ 1114111) (hc2 : ¬(55296 ≤ c ∧ c ≤ 57343))
    (hsmall : c < 0x10000) (rest : List Nat) (result : List Byte) :
    utf8.utf16to8 (c :: rest) result = utf8.utf16to8 rest (result ++ utf8Encode c) := by
  rw [utf8.utf16to8.eq_def]
  simp only []
  have hm : mask16 c = c := by rw [mask16_eq]; omega
  have h1 : is_lead_surrogate c = false := by
    simp only [is_lead_surrogate, Bool.and_eq_false_imp, decide_eq_true_eq,
      decide_eq_false_iff_not]
    omega
  have h2 : is_trail_surrogate c = false := by
    simp only [is_trail_surrogate, Bool.and_eq_false_imp, decide_eq_true_eq,
      decide_eq_false_iff_not]
    omega
  rw [hm, h1, h2, append_eq c ⟨hc1, hc2⟩]
  rw [if_neg Bool.false_ne_true, if_neg Bool.false_ne_true]
  rfl


theorem utf16to8_pair (c : Nat) (hc1 : c ≤ 1114111) (hc2 : ¬(55296 ≤ c ∧ c ≤ 57343))
    (hsmall : ¬ c < 0x10000) (rest : List Nat) (result : List Byte) :
    utf8.utf16to8 ((0xD800 + (c - 0x10000) / 1024) :: (0xDC00 + (c - 0x10000) % 1024) :: rest)
    result
  = utf8.utf16to8 rest (result ++ utf8Encode c) := by
  rw [utf8.utf16to8.eq_def]
  have hm1 : mask16 (0xD800 + (c - 0x10000) / 1024) = 0xD800 + (c - 0x10000) / 1024 := by
    rw [mask16_eq]; omega
  have hm2 : mask16 (0xDC00 + (c - 0x10000) % 1024) = 0xDC00 + (c - 0x10000) % 1024 := by
    rw [mask16_eq]; omega
  have h1 : is_lead_surrogate (0xD800 + (c - 0x10000) / 1024) = true := by
    simp only [is_lead_surrogate, Bool.and_eq_true, decide_eq_true_eq]
    omega
  have h2 : is_trail_surrogate (0xDC00 + (c - 0x10000) % 1024) = true := by
    simp only [is_trail_surrogate, Bool.and_eq_true, decide_eq_true_eq]
    omega
  have hcp : (((0xD800 + (c - 0x10000) / 1024) <<< 10)
      + (0xDC00 + (c - 0x10000) % 1024) + 0xfca02400) % 4294967296 = c := by
    rw [Nat.shiftLeft_eq]
    omega
  show (if is_lead_surrogate (mask16 (0xD800 + (c - 0x10000) / 1024)) = true then
      (if is_trail_surrogate (mask16 (0xDC00 + (c - 0x10000) % 1024)) = true then
        (utf8.append (((mask16 (0xD800 + (c - 0x10000) / 1024) <<< 10)
          + mask16 (0xDC00 + (c - 0x10000) % 1024) + 0xfca02400) % 4294967296) result).bind
          (fun result1 => utf8.utf16to8 rest result1)
      else _)
    else _) = _
  rw [hm1, hm2, h1, h2, hcp, append_eq c ⟨hc1, hc2⟩, if_pos rfl, if_pos rfl]
  rfl

theorem utf16to8_encode (cs : List Nat) (hv : ∀ c ∈ cs, validCodepoint c)
    (result : List Byte) :
    utf8.utf16to8 (utf16EncodeAll cs) result = Except.ok (result ++ utf8EncodeAll cs) := by
  induction cs generalizing result with
  | nil =>
    rw [utf8EncodeAll_nil, List.append_nil]
    rfl
  | cons c cs ih =>
    have hc := hv c (List.mem_cons_self c cs)
    have hcs : ∀ x ∈ cs, validCodepoint x := fun x hx => hv x (List.mem_cons_of_mem c hx)
    rw [utf16EncodeAll_cons, utf8EncodeAll_cons, ← List.append_assoc]
    obtain ⟨hc1, hc2⟩ := hc
    unfold utf16Encode
    by_cases hsmall : c < 0x10000
    · rw [if_pos hsmall, List.singleton_append, utf16to8_unit c hc1 hc2 hsmall]
      exact ih hcs _
    · rw [if_neg hsmall, List.cons_append, List.singleton_append,
        utf16to8_pair c hc1 hc2 hsmall]
      exact ih hcs _

/-- C17: UTF-16 round trip. For every sequence `cs` of valid codepoints, with `s` the Text
holding `cs`: `s.toUtf16()` is the UTF-16 encoding of `cs` (a codepoint above 0xFFFF travels as
a surrogate pair), and `WzString::fromUtf16` of it gives `s` back, with no `ASSERT`. -/
theorem C17_utf16_round_trip (s : WzString) (cs : List Nat) (hs : Encodes s._utf8String cs) :
    ∃ u, WzString.toUtf16 s = Except.ok u
      ∧ u = utf16EncodeAll cs
      ∧ WzString.fromUtf16 u = ⟨false, Except.ok s⟩ := by
  obtain ⟨buf⟩ := s
  obtain ⟨hv, hbuf⟩ := hs
  simp only at hbuf
  subst hbuf
  refine ⟨_, toUtf16_encode cs hv, rfl, ?_⟩
  unfold WzString.fromUtf16
  rw [utf16to8_encode cs hv [], List.nil_append]

/-- Witness of C17: "a", U+1F600 and "é" go through UTF-16 and come back. -/
theorem C17_utf16_round_trip_witness :
    ∃ u, WzString.toUtf16 ⟨[0x61, 0xF0, 0x9F, 0x98, 0x80, 0xC3, 0xA9]⟩ = Except.ok u
      ∧ u = utf16EncodeAll [0x61, 0x1F600, 0xE9]
      ∧ WzString.fromUtf16 u = ⟨false, Except.ok ⟨[0x61, 0xF0, 0x9F, 0x98, 0x80, 0xC3, 0xA9]⟩⟩ :=
  C17_utf16_round_trip ⟨[0x61, 0xF0, 0x9F, 0x98, 0x80, 0xC3, 0xA9]⟩ [0x61, 0x1F600, 0xE9]
    ⟨by decide, by decide⟩

theorem utf8to16_loop_fuel (fuel : Nat) :
    ∀ (start : List Byte) (result : List Nat), start.length ≤ fuel →
      utf8.utf8to16_loop (fuel + 1) start result = utf8.utf8to16_loop fuel start result := by
  induction fuel with
  | zero =>
    intro start result h
    have : start = [] := List.length_eq_zero.1 (by omega)
    subst this
    simp [utf8.utf8to16_loop]
  | succ fuel ih =>
    intro start result hlen
    unfold utf8.utf8to16_loop
    by_cases hs : start = []
    · simp only [hs, if_true]
    · simp only [hs, if_false]
      rcases hn : utf8.next start with e | ⟨cp, start1⟩
      · rfl
      · simp only []
        have hvn : validate_next start = (utf_error.UTF8_OK, cp, start1) := by
          unfold utf8.next at hn
          rcases hv : validate_next start with ⟨e, c, r⟩
          rw [hv] at hn
          cases e <;> simp at hn
          rw [hn.1, hn.2]
        have := validate_next_ok_length start cp start1 hvn
        split_ifs
        · exact ih _ _ (by omega)
        · exact ih _ _ (by omega)

/-- The loop of `utf8::utf8to16` does not end for lack of fuel. -/
theorem utf8to16_fuel (start : List Byte) (result : List Nat) (extra : Nat) :
    utf8.utf8to16_loop (start.length + extra) start result = utf8.utf8to16 start result := by
  unfold utf8.utf8to16
  induction extra with
  | zero => rfl
  | succ extra ih =>
    rw [← ih, ← Nat.add_assoc]
    exact utf8to16_loop_fuel _ start result (by omega)

/-! ## The codepoint reference -/

theorem peek_next_encode (c : Nat) (hv : validCodepoint c) (rest : List Byte) :
    utf8.peek_next (utf8Encode c ++ rest) = Except.ok c := by
  unfold utf8.peek_next
  rw [next_encode c hv rest]

theorem peek_next_nil : utf8.peek_next [] = Except.error utf_exception.not_enough_room := by
  decide

theorem op_index_encode_lt (cs : List Nat) (hv : ∀ c ∈ cs, validCodepoint c) (n : Nat)
    (h : n < cs.length) :
    WzString.op_index ⟨utf8EncodeAll cs⟩ n
      = ⟨false, Except.ok ⟨cs.get ⟨n, h⟩, ⟨utf8EncodeAll cs⟩, n⟩⟩ := by
  unfold WzString.op_index
  simp only [_utf8_advance_encode cs hv n]
  have hd : cs.drop n = cs.get ⟨n, h⟩ :: cs.drop (n + 1) := by
    rw [List.get_eq_getElem]; exact List.drop_eq_getElem_cons h
  rw [hd, utf8EncodeAll_cons]
  rw [peek_next_encode _ (hv _ (List.get_mem cs n h))]
  have hne : utf8Encode (cs.get ⟨n, h⟩) ++ utf8EncodeAll (cs.drop (n + 1)) ≠ [] :=
    List.append_ne_nil_of_left_ne_nil (utf8Encode_ne_nil _) _
  simp only [hne, ne_eq, not_false_eq_true, decide_True, Bool.not_true]

theorem op_index_encode_ge (cs : List Nat) (hv : ∀ c ∈ cs, validCodepoint c) (n : Nat)
    (h : cs.length ≤ n) :
    WzString.op_index ⟨utf8EncodeAll cs⟩ n
      = ⟨true, Except.error utf_exception.not_enough_room⟩ := by
  unfold WzString.op_index
  simp only [_utf8_advance_encode cs hv n]
  have hd : cs.drop n = [] := List.drop_eq_nil_of_le h
  rw [hd, utf8EncodeAll_nil, peek_next_nil]
  simp

theorem assign_encode (cs : List Nat) (hv : ∀ c ∈ cs, validCodepoint c) (i c cp0 : Nat)
    (hc : validCodepoint c) (hi : i < cs.length) :
    WzUniCodepointRef.assign ⟨cp0, ⟨utf8EncodeAll cs⟩, i⟩ c
      = Except.ok ⟨utf8EncodeAll (cs.set i c)⟩ := by
  unfold WzUniCodepointRef.assign
  simp only []
  rw [replace_pos_encode cs hv i 1 c hc (by omega)]
  have hm : min 1 (cs.length - i) = 1 := by omega
  rw [hm, List.set_eq_take_append_cons_drop, if_pos hi]
  simp

theorem valid_set (cs : List Nat) (hv : ∀ c ∈ cs, validCodepoint c) (i c : Nat)
    (hc : validCodepoint c) : ∀ y ∈ cs.set i c, validCodepoint y := by
  intro y hy
  rcases List.mem_or_eq_of_mem_set hy with h | h
  · exact hv y h
  · rw [h]; exact hc

/-- C18: assignment through a codepoint reference changes exactly one codepoint. For every
well-formed Text `s` with codepoints `cs`, every `i < length(s)` and every valid codepoint `c`
(of any encoded width): `s[i]` fires no `ASSERT` and gives a reference that reads `cs[i]`, the
value `at(i)` has at that time; after `s[i] = c` the codepoints are `cs` with `c` at index `i`,
so `at(i)` is `c`, `at(j)` is unchanged for every `j != i`, and `length()` is unchanged. -/
theorem C18_assignment_through_reference (s : WzString) (cs : List Nat)
    (hs : Encodes s._utf8String cs) (i c : Nat) (hi : i < cs.length)
    (hc : validCodepoint c) :
    ∃ ref t,
      WzString.op_index s i = ⟨false, Except.ok ref⟩
      ∧ ref._parentString = s ∧ ref._position = i
      ∧ WzString.at s i = ⟨false, Except.ok ref._codepoint⟩
      ∧ ref._codepoint = cs.get ⟨i, hi⟩
      ∧ WzUniCodepointRef.assign ref c = Except.ok t
      ∧ Encodes t._utf8String (cs.set i c)
      ∧ WzString.at t i = ⟨false, Except.ok c⟩
      ∧ (∀ j, j ≠ i → WzString.at t j = WzString.at s j)
      ∧ WzString.length t = WzString.length s := by
  obtain ⟨buf⟩ := s
  obtain ⟨hv, hbuf⟩ := hs
  simp only at hbuf
  subst hbuf
  have hvs := valid_set cs hv i c hc
  have hlen : (cs.set i c).length = cs.length := List.length_set cs i c
  refine ⟨_, _, op_index_encode_lt cs hv i hi, rfl, rfl, at_encode_lt cs hv i hi, rfl,
    assign_encode cs hv i c _ hc hi, ⟨hvs, rfl⟩, ?_, ?_, ?_⟩
  · rw [at_encode_lt (cs.set i c) hvs i (by omega)]
    simp
  · intro j hj
    by_cases hjl : j < cs.length
    · rw [at_encode_lt (cs.set i c) hvs j (by omega), at_encode_lt cs hv j hjl]
      simp only [List.get_eq_getElem]
      rw [List.getElem_set_ne (Ne.symm hj)]
    · rw [at_encode_ge (cs.set i c) hvs j (by omega), at_encode_ge cs hv j (by omega)]
  · unfold WzString.length
    rw [distance_encode _ hvs, distance_encode _ hv, hlen]

/-- Witness of C18: writing U+20AC (3 octets) over the "é" (2 octets) of "aéb". -/
theorem C18_assignment_through_reference_witness :
    ∃ ref t,
      WzString.op_index ⟨[0x61, 0xC3, 0xA9, 0x62]⟩ 1 = ⟨false, Except.ok ref⟩
      ∧ ref._parentString = ⟨[0x61, 0xC3, 0xA9, 0x62]⟩ ∧ ref._position = 1
      ∧ WzString.at ⟨[0x61, 0xC3, 0xA9, 0x62]⟩ 1 = ⟨false, Except.ok ref._codepoint⟩
      ∧ ref._codepoint = ([0x61, 0xE9, 0x62] : List Nat).get ⟨1, by decide⟩
      ∧ WzUniCodepointRef.assign ref 0x20AC = Except.ok t
      ∧ Encodes t._utf8String (([0x61, 0xE9, 0x62] : List Nat).set 1 0x20AC)
      ∧ WzString.at t 1 = ⟨false, Except.ok 0x20AC⟩
      ∧ (∀ j, j ≠ 1 → WzString.at t j = WzString.at ⟨[0x61, 0xC3, 0xA9, 0x62]⟩ j)
      ∧ WzString.length t = WzString.length ⟨[0x61, 0xC3, 0xA9, 0x62]⟩ :=
  C18_assignment_through_reference ⟨[0x61, 0xC3, 0xA9, 0x62]⟩ [0x61, 0xE9, 0x62]
    ⟨by decide, by decide⟩ 1 0x20AC (by decide) (by decide)

/-- C19 (what the code does): reading past the end reports the `ASSERT` and then runs into the
codec: `at(2)` and `s[2]` on the two-codepoint Text "ab", `at(0)` and `s[0]` on the empty Text
and `at(7)` on "é" end in the exception `not_enough_room` of `utf8::next` and
`utf8::peek_next`, which leaves the call; no codepoint is returned. `fromASCII`, in the same
file, does return the codepoint zero after its `ASSERT`. -/
theorem C19_read_past_end_throws :
    WzString.at ⟨[0x61, 0x62]⟩ 2 = ⟨true, Except.error utf_exception.not_enough_room⟩
    ∧ WzString.op_index ⟨[0x61, 0x62]⟩ 2 = ⟨true, Except.error utf_exception.not_enough_room⟩
    ∧ WzString.at ⟨[]⟩ 0 = ⟨true, Except.error utf_exception.not_enough_room⟩
    ∧ WzString.op_index ⟨[]⟩ 0 = ⟨true, Except.error utf_exception.not_enough_room⟩
    ∧ WzString.at ⟨[0xC3, 0xA9]⟩ 7 = ⟨true, Except.error utf_exception.not_enough_room⟩
    ∧ WzUniCodepoint.fromASCII 0x80 = ⟨true, Except.ok 0⟩ := by
  decide

/-! ## The two `compare` overloads -/

theorem strlen_append_nul (t mem : List Byte) (hnul : ∀ b ∈ t, b.val ≠ 0) :
    strlen (t ++ 0 :: mem) = t.length := by
  unfold strlen
  induction t with
  | nil => simp
  | cons b t ih =>
    have hb : b ≠ 0 := by
      intro h
      exact hnul b (List.mem_cons_self b t) (by rw [h]; rfl)
    have := ih (fun x hx => hnul x (List.mem_cons_of_mem b hx))
    simp [List.takeWhile_cons, hb, this]

theorem fromUtf8_cstr_encode (strict : Bool) (cs : List Nat) (hv : ∀ c ∈ cs, validCodepoint c)
    (mem : List Byte) (hnul : ∀ b ∈ utf8EncodeAll cs, b.val ≠ 0)
    (hlen : (utf8EncodeAll cs).length < 2147483648) :
    WzString.fromUtf8 strict (some (utf8EncodeAll cs ++ 0 :: mem)) (-1)
      = ⟨false, Except.ok ⟨utf8EncodeAll cs⟩⟩ := by
  unfold WzString.fromUtf8 WzString.WzString_str_size
  simp only []
  rw [if_pos (by omega), strlen_append_nul _ mem hnul, int_of_nat_small _ hlen, Int.toNat_ofNat,
    List.take_left']
  · unfold utf8.replace_invalid
    rw [replace_invalid_loop_encode strict _ cs hv _ _ (Nat.le_refl _), is_valid_encode cs hv]
    simp
  · rfl

theorem compare_cstr_loop_eq (char_signed : Bool) (s : List Byte) :
    ∀ (t mem : List Byte), (∀ b ∈ t, b.val ≠ 0) →
      (∀ b, b ∈ s ∨ b ∈ t → char_value char_signed b = (b.val : Int)) →
      WzString.compare_cstr_loop char_signed s (t ++ 0 :: mem) = std_string_compare s t := by
  induction s with
  | nil =>
    intro t mem hnul _
    cases t with
    | nil => simp [WzString.compare_cstr_loop, deref, std_string_compare]
    | cons y ys =>
      have hy := hnul y (List.mem_cons_self y ys)
      simp [WzString.compare_cstr_loop, deref, std_string_compare, hy]
  | cons x xs ih =>
    intro t mem hnul hval
    cases t with
    | nil => simp [WzString.compare_cstr_loop, deref, std_string_compare]
    | cons y ys =>
      have hy := hnul y (List.mem_cons_self y ys)
      have hx1 := hval x (Or.inl (List.mem_cons_self x xs))
      have hy1 := hval y (Or.inr (List.mem_cons_self y ys))
      have hrec := ih ys mem (fun b hb => hnul b (List.mem_cons_of_mem y hb))
        (fun b hb => hval b (hb.elim (fun h => Or.inl (List.mem_cons_of_mem x h))
          (fun h => Or.inr (List.mem_cons_of_mem y h))))
      unfold WzString.compare_cstr_loop std_string_compare
      simp only [List.cons_append, deref, List.headD_cons, List.tail_cons, hx1, hy1, hy,
        false_or, Bool.false_or, decide_False, decide_eq_true_eq, Nat.cast_lt]
      by_cases h1 : y.val < x.val
      · have h2 : ¬ x.val < y.val := by omega
        simp [h1, h2]
      · by_cases h2 : x.val < y.val
        · simp [h1, h2]
        · simp only [h1, h2, if_false]
          exact hrec

/-- The two `compare` overloads agree on well-formed, NUL-free input where the comparison of
`char` values is the comparison of the octets. For every Text `s` and every NUL-free octet string `t` that is
well-formed UTF-8 (shorter than 2^31 octets, followed in memory by a NUL), `s.compare(t)` with
`t` as `const char*` equals `s.compare(WzString::fromUtf8(t))`, when plain `char` is unsigned,
or when all octets of `s` and `t` are below 0x80. -/
theorem compare_overloads_agree (char_signed strict : Bool) (s : WzString)
    (t mem : List Byte) (hnul0 : (0 : Byte) ∉ t) (hwf : WellFormed t)
    (hlen : t.length < 2147483648)
    (hchar : char_signed = false
      ∨ ((∀ b ∈ s._utf8String, b.val < 128) ∧ ∀ b ∈ t, b.val < 128)) :
    ∃ w, WzString.fromUtf8 strict (some (t ++ 0 :: mem)) (-1) = ⟨false, Except.ok w⟩
      ∧ w._utf8String = t
      ∧ WzString.compare_cstr char_signed s (t ++ 0 :: mem) = WzString.compare s w := by
  have hnul : ∀ b ∈ t, b.val ≠ 0 := by
    intro b hb h0
    have : b = 0 := Fin.ext h0
    rw [this] at hb
    exact hnul0 hb
  obtain ⟨cs, hv, rfl⟩ := hwf
  refine ⟨⟨utf8EncodeAll cs⟩, fromUtf8_cstr_encode strict cs hv mem hnul hlen, rfl, ?_⟩
  rw [compare_eq_std]
  unfold WzString.compare_cstr
  apply compare_cstr_loop_eq char_signed _ _ mem hnul
  intro b hb
  unfold char_value
  rcases hchar with h | ⟨h1, h2⟩
  · rw [h]
    simp
  · have : b.val < 128 := hb.elim (h1 b) (h2 b)
    have hd : decide (128 ≤ b.val) = false := decide_eq_false (by omega)
    rw [hd, Bool.and_false]
    simp

/-- The agreement of the two overloads on "é" against the C string "a", with an unsigned
`char`. -/
theorem compare_overloads_agree_unsigned_char :
    ∃ w, WzString.fromUtf8 true (some ([0x61] ++ 0 :: [])) (-1) = ⟨false, Except.ok w⟩
      ∧ w._utf8String = [0x61]
      ∧ WzString.compare_cstr false ⟨[0xC3, 0xA9]⟩ ([0x61] ++ 0 :: []) =
          WzString.compare ⟨[0xC3, 0xA9]⟩ w :=
  compare_overloads_agree false true ⟨[0xC3, 0xA9]⟩ [0x61] [] (by decide)
    ⟨[0x61], by decide, by decide⟩ (by decide) (Or.inl rfl)

/-- A C string that is not well-formed UTF-8 is repaired by `WzString::fromUtf8` before it is
compared: for the Text "?" and the octet string 0xFF, `compare(fromUtf8(t))` is 0, while
`compare(const char*)` compares the octets themselves and gives 1 with a signed `char` and -1
with an unsigned one. -/
theorem compare_overloads_differ_malformed :
    WzString.fromUtf8 true (some [0xFF, 0]) (-1) = ⟨true, Except.ok ⟨[0x3F]⟩⟩
    ∧ WzString.fromUtf8 false (some [0xFF, 0]) (-1) = ⟨true, Except.ok ⟨[0x3F]⟩⟩
    ∧ WzString.compare ⟨[0x3F]⟩ ⟨[0x3F]⟩ = 0
    ∧ WzString.compare_cstr true ⟨[0x3F]⟩ [0xFF, 0] = 1
    ∧ WzString.compare_cstr false ⟨[0x3F]⟩ [0xFF, 0] = -1
    ∧ WzString.compare_cstr true ⟨[0x3F]⟩ [0xFF, 0] ≠ WzString.compare ⟨[0x3F]⟩ ⟨[0x3F]⟩
    ∧ WzString.compare_cstr false ⟨[0x3F]⟩ [0xFF, 0] ≠ WzString.compare ⟨[0x3F]⟩ ⟨[0x3F]⟩ := by
  decide

/-- C20 fails on the code where plain `char` is signed. For the Text "é" (octets 0xC3 0xA9)
and the NUL-free, well-formed C string "a", `compare(const char*)` returns -1: its loop
compares `char` values with `<`, and the octet 0xC3 is the negative `char` -61 there, below
the 0x61 of "a". `WzString::fromUtf8("a")` is the Text "a", with no `ASSERT`, for both
generations of the codec, and `compare(const WzString&)` compares the octets as unsigned values
and returns 1, as `operator<` does (false for "é" < "a", true for "a" < "é"). Where plain
`char` is unsigned the loop returns 1 as well. -/
theorem C20_compare_cstr_signed_char :
    WzString.fromUtf8 true (some [0x61, 0]) (-1) = ⟨false, Except.ok ⟨[0x61]⟩⟩
    ∧ WzString.fromUtf8 false (some [0x61, 0]) (-1) = ⟨false, Except.ok ⟨[0x61]⟩⟩
    ∧ WzString.compare_cstr true ⟨[0xC3, 0xA9]⟩ [0x61, 0] = -1
    ∧ WzString.compare ⟨[0xC3, 0xA9]⟩ ⟨[0x61]⟩ = 1
    ∧ WzString.compare_cstr true ⟨[0xC3, 0xA9]⟩ [0x61, 0]
        ≠ WzString.compare ⟨[0xC3, 0xA9]⟩ ⟨[0x61]⟩
    ∧ WzString.op_lt ⟨[0xC3, 0xA9]⟩ ⟨[0x61]⟩ = false
    ∧ WzString.op_lt ⟨[0x61]⟩ ⟨[0xC3, 0xA9]⟩ = true
    ∧ char_value true 0xC3 = -61
    ∧ char_value true 0x61 = 97
    ∧ WzString.compare_cstr false ⟨[0xC3, 0xA9]⟩ [0x61, 0] = 1 := by
  decide

/-! ## `replace(before, after)` with the Text itself as an argument -/

theorem find_aux_pos_nil (str : List Byte) (hne : str ≠ []) (p : Nat) :
    find_aux str [] p = none := by
  cases str with
  | nil => exact absurd rfl hne
  | cons b bs => simp [find_aux, List.isPrefixOf]

/-- A non-empty string is not found from the end of the buffer on. -/
theorem std_find_at_end (s str : List Byte) (hne : str ≠ []) (pos : Nat)
    (hpos : s.length ≤ pos) : std_find s str pos = none := by
  unfold std_find
  split_ifs with h
  · rfl
  · rw [List.drop_of_length_le hpos]
    exact find_aux_pos_nil str hne pos

/-- A buffer is found in itself at index 0. -/
theorem std_find_self (buf : List Byte) : std_find buf buf 0 = some 0 := by
  unfold std_find
  rw [if_neg (by omega), List.drop_zero]
  cases buf with
  | nil => simp [find_aux, List.isPrefixOf]
  | cons b bs =>
    have : (b :: bs).isPrefixOf (b :: bs) = true := by
      rw [List.isPrefixOf_iff_prefix]
    simp [find_aux, this]

/-- `s.replace(before, s)`: when `before` is another object and occurs in `s`, the loop makes
one substitution, at the first occurrence, and ends, because `after._utf8String.length()` is
then the length of the whole new buffer. -/
theorem replace_str_loop_after_self (before : WzString) (hb : before._utf8String ≠ [])
    (s : List Byte) (p : Nat) (hp : std_find s before._utf8String 0 = some p)
    (fuel k : Nat) :
    WzString.replace_str_loop (WzStringRef.object before) WzStringRef.self (fuel + 2) s 0 k
      = some (s.take p ++ s ++ s.drop (p + before._utf8String.length), k + 1) := by
  unfold WzString.replace_str_loop
  simp only [WzStringRef._utf8String]
  rw [hp]
  simp only []
  unfold WzString.replace_str_loop
  simp only [WzStringRef._utf8String]
  rw [std_find_at_end _ _ hb _ (by omega)]

/-- `s.replace(s, s)` makes one substitution, of the whole buffer by itself. -/
theorem replace_str_loop_self_self (s : List Byte) (hs : s ≠ []) (fuel k : Nat) :
    WzString.replace_str_loop WzStringRef.self WzStringRef.self (fuel + 2) s 0 k
      = some (s, k + 1) := by
  unfold WzString.replace_str_loop
  simp only [WzStringRef._utf8String]
  rw [std_find_self]
  simp only [List.take_zero, List.nil_append, Nat.zero_add, List.drop_length, List.append_nil]
  unfold WzString.replace_str_loop
  simp only [WzStringRef._utf8String]
  rw [std_find_at_end _ _ hs _ (Nat.le_refl _)]

/-- `s.replace(s, after)` with a non-empty `after` that is another object: the buffer becomes
`after`, and `before`, which is the buffer, with it; it is not found from the end on. -/
theorem replace_str_loop_self_object (after : WzString) (ha : after._utf8String ≠ [])
    (s : List Byte) (fuel k : Nat) :
    WzString.replace_str_loop WzStringRef.self (WzStringRef.object after) (fuel + 2) s 0 k
      = some (after._utf8String, k + 1) := by
  unfold WzString.replace_str_loop
  simp only [WzStringRef._utf8String]
  rw [std_find_self]
  simp only [List.take_zero, List.nil_append, Nat.zero_add, List.drop_length, List.append_nil]
  unfold WzString.replace_str_loop
  simp only [WzStringRef._utf8String]
  rw [std_find_at_end _ _ ha _ (Nat.le_refl _)]

/-- One turn of `s.replace(s, WzString())` on the empty buffer with the cursor at 0: the empty
`before` is found at 0, the buffer stays empty and the cursor stays at 0. -/
theorem replace_str_loop_empty_turn (fuel k : Nat) :
    WzString.replace_str_loop WzStringRef.self (WzStringRef.object ⟨[]⟩) (fuel + 1) [] 0 k
      = WzString.replace_str_loop WzStringRef.self (WzStringRef.object ⟨[]⟩) fuel [] 0 (k + 1) := by
  rw [WzString.replace_str_loop]
  simp only [WzStringRef._utf8String]
  rw [std_find_self]
  rfl

theorem replace_str_loop_empty_none (fuel : Nat) :
    ∀ k, WzString.replace_str_loop WzStringRef.self (WzStringRef.object ⟨[]⟩) fuel [] 0 k
      = none := by
  induction fuel with
  | zero => intro k; rfl
  | succ fuel ih =>
    intro k
    rw [replace_str_loop_empty_turn]
    exact ih (k + 1)

/-- The first turn of `s.replace(s, WzString())`: the buffer is found in itself at 0 and is
replaced by the empty `after`, so the buffer and with it `before` are empty, and the cursor
is 0. -/
theorem replace_str_loop_self_empty_turn (s : List Byte) (fuel k : Nat) :
    WzString.replace_str_loop WzStringRef.self (WzStringRef.object ⟨[]⟩) (fuel + 1) s 0 k
      = WzString.replace_str_loop WzStringRef.self (WzStringRef.object ⟨[]⟩) fuel [] 0 (k + 1) := by
  rw [WzString.replace_str_loop]
  simp only [WzStringRef._utf8String]
  rw [std_find_self]
  simp only [List.take_zero, List.nil_append, Nat.zero_add, List.drop_length, List.append_nil,
    List.length_nil, Nat.add_zero]

theorem replace_str_loop_self_empty_none (s : List Byte) (fuel k : Nat) :
    WzString.replace_str_loop WzStringRef.self (WzStringRef.object ⟨[]⟩) fuel s 0 k = none := by
  cases fuel with
  | zero => rfl
  | succ fuel =>
    rw [replace_str_loop_self_empty_turn]
    exact replace_str_loop_empty_none fuel (k + 1)

/-- An occurrence of a non-empty well-formed text in a well-formed buffer has well-formed
octets in front of it and behind it. -/
theorem wellFormed_around_occurrence (u x v : List Byte) (hx : WellFormed x) (hne : x ≠ [])
    (h : WellFormed (u ++ x ++ v)) : WellFormed u ∧ WellFormed v := by
  obtain ⟨cs, hc, hcs⟩ := h
  obtain ⟨ts, ht, rfl⟩ := hx
  have hts : ts ≠ [] := by
    intro h0
    rw [h0] at hne
    exact hne utf8EncodeAll_nil
  obtain ⟨n, _, hu, _, hv⟩ := occurrence_boundary cs ts hc ht hts u v hcs.symm
  exact ⟨⟨cs.take n, valid_take cs hc n, hu⟩, ⟨cs.drop (n + ts.length), valid_drop cs hc _, hv⟩⟩

/-- `replace(before, after)` with any binding of its two references, the Text itself
included: the call returns and leaves a well-formed buffer, except for
`s.replace(s, WzString())` on a non-empty `s`, which does not return. -/
theorem replace_str_ref_wellFormed (s : WzString) (before after : WzStringRef)
    (hs : WellFormed s._utf8String)
    (hbw : WellFormed (before._utf8String s._utf8String))
    (haw : WellFormed (after._utf8String s._utf8String))
    (hne : ¬ (before = WzStringRef.self ∧ s._utf8String ≠ []
      ∧ after._utf8String s._utf8String = [])) :
    ∃ t, WzString.replace_str s before after = some t ∧ WellFormed t._utf8String := by
  cases before with
  | object b =>
    cases after with
    | object a => exact replace_str_wellFormed s b a hs hbw haw
    | self =>
      by_cases hb : b._utf8String = []
      · refine ⟨s, ?_, hs⟩
        simp [WzString.replace_str, WzString.replace_str_count, WzStringRef._utf8String, hb]
      · cases hf : std_find s._utf8String b._utf8String 0 with
        | none =>
          refine ⟨s, ?_, hs⟩
          unfold WzString.replace_str WzString.replace_str_count
          simp only [WzStringRef._utf8String]
          rw [if_neg hb]
          unfold WzString.replace_str_loop
          simp only [WzStringRef._utf8String]
          rw [hf]
          rfl
        | some p =>
          obtain ⟨_, u, v, huv, hu⟩ := std_find_some _ _ _ _ hf
          have hlen : 1 ≤ s._utf8String.length := by
            have : 0 < b._utf8String.length := List.length_pos.2 hb
            rw [huv]
            simp only [List.length_append]
            omega
          obtain ⟨m, hm⟩ : ∃ m, s._utf8String.length + 1 = m + 2 :=
            ⟨s._utf8String.length - 1, by omega⟩
          have hw := wellFormed_around_occurrence u b._utf8String v hbw hb (huv ▸ hs)
          refine ⟨⟨s._utf8String.take p ++ s._utf8String
            ++ s._utf8String.drop (p + b._utf8String.length)⟩, ?_, ?_⟩
          · unfold WzString.replace_str WzString.replace_str_count
            simp only [WzStringRef._utf8String]
            rw [if_neg hb, hm, replace_str_loop_after_self b hb _ p hf]
            rfl
          · have e1 : s._utf8String.take p = u := by
              rw [huv, ← hu, List.append_assoc, List.take_left']
              rfl
            have e2 : s._utf8String.drop (p + b._utf8String.length) = v := by
              rw [huv, ← hu, ← List.length_append, List.drop_left']
              rfl
            show WellFormed (s._utf8String.take p ++ s._utf8String
              ++ s._utf8String.drop (p + b._utf8String.length))
            rw [e1, e2]
            exact wellFormed_append _ _ (wellFormed_append _ _ hw.1 hs) hw.2
  | self =>
    by_cases h0 : s._utf8String = []
    · refine ⟨s, ?_, hs⟩
      simp [WzString.replace_str, WzString.replace_str_count, WzStringRef._utf8String, h0]
    · obtain ⟨m, hm⟩ : ∃ m, s._utf8String.length + 1 = m + 2 :=
        ⟨s._utf8String.length - 1, by
          have : 0 < s._utf8String.length := List.length_pos.2 h0
          omega⟩
      cases after with
      | self =>
        refine ⟨s, ?_, hs⟩
        unfold WzString.replace_str WzString.replace_str_count
        simp only [WzStringRef._utf8String]
        rw [if_neg h0, hm, replace_str_loop_self_self _ h0]
        rfl
      | object a =>
        have ha : a._utf8String ≠ [] := fun h => hne ⟨rfl, h0, h⟩
        refine ⟨a, ?_, haw⟩
        unfold WzString.replace_str WzString.replace_str_count
        simp only [WzStringRef._utf8String]
        rw [if_neg h0, hm, replace_str_loop_self_object a ha]
        rfl

/-- `replace(before, after)` with `before` and `after` bound to objects other than the Text is
the global left-to-right non-overlapping replacement computed on the original text. For every
Text `s`, every non-empty `before` and every `after`, the loop ends, and its result is the one
text that the scan of the ORIGINAL `s` gives (`ScanReplace`: each leftmost non-overlapping
occurrence of `before` replaced by `after`, every other octet copied; inserted text is never
matched again). With `k` the number of these occurrences, the loop makes exactly `k`
substitutions and the octet length becomes `|s| + k * (|after| - |before|)`; replacing "a" by
"aa" in "aaa" gives "aaaaaa"; and with an empty `before` the Text is unchanged. -/
theorem replace_str_scan (s before after : WzString) (hb : before._utf8String ≠ []) :
    (∃ r k,
        WzString.replace_str_count (s._utf8String.length + 1) s (WzStringRef.object before)
          (WzStringRef.object after) = some (⟨r⟩, k)
        ∧ WzString.replace_str s (WzStringRef.object before) (WzStringRef.object after)
            = some ⟨r⟩
        ∧ ScanReplace before._utf8String after._utf8String s._utf8String r k
        ∧ (∀ r2 k2, ScanReplace before._utf8String after._utf8String s._utf8String r2 k2 →
            r2 = r ∧ k2 = k)
        ∧ r.length + k * before._utf8String.length
            = s._utf8String.length + k * after._utf8String.length)
    ∧ WzString.replace_str ⟨[0x61, 0x61, 0x61]⟩ (WzStringRef.object ⟨[0x61]⟩)
        (WzStringRef.object ⟨[0x61, 0x61]⟩) = some ⟨[0x61, 0x61, 0x61, 0x61, 0x61, 0x61]⟩
    ∧ (∀ (s2 : WzString) (after2 : WzStringRef),
        WzString.replace_str s2 (WzStringRef.object ⟨[]⟩) after2 = some s2) := by
  refine ⟨?_, by decide, ?_⟩
  · obtain ⟨r, k, hr, hsc⟩ := replace_str_count_spec s before after hb
    refine ⟨r, k, hr, ?_, hsc, ?_, ScanReplace_length _ _ _ _ _ hsc⟩
    · unfold WzString.replace_str
      rw [hr]
      rfl
    · intro r2 k2 h2
      exact ScanReplace_unique _ _ hb _ _ _ _ _ _ (Nat.le_refl _) h2 hsc
  · intro s2 after2
    simp [WzString.replace_str, WzString.replace_str_count, WzStringRef._utf8String]

/-- C10 fails on the code when `after` is the Text itself. For `s = "aXa"` the call
`s.replace(WzString::fromUtf8("a"), s)` makes one substitution and leaves "aXaXa", however many
turns the loop is allowed: after the first substitution `after._utf8String.length()` is read
again through the reference and is the length of the whole new buffer, so the cursor is moved
to the end and the second "a" of the original text is never searched. The scan of the original
"aXa" that the claim describes has two occurrences and gives "aXaXaXa", and nothing else; that
is what the same call returns when `after` is a copy of the Text. -/
theorem C10_replace_str_after_is_the_text :
    WzString.replace_str ⟨[0x61, 0x58, 0x61]⟩ (WzStringRef.object ⟨[0x61]⟩) WzStringRef.self
        = some ⟨[0x61, 0x58, 0x61, 0x58, 0x61]⟩
    ∧ (∀ fuel, WzString.replace_str_count (fuel + 2) ⟨[0x61, 0x58, 0x61]⟩
        (WzStringRef.object ⟨[0x61]⟩) WzStringRef.self
          = some (⟨[0x61, 0x58, 0x61, 0x58, 0x61]⟩, 1))
    ∧ ScanReplace [0x61] [0x61, 0x58, 0x61] [0x61, 0x58, 0x61]
        [0x61, 0x58, 0x61, 0x58, 0x61, 0x58, 0x61] 2
    ∧ (∀ r k, ScanReplace [0x61] [0x61, 0x58, 0x61] [0x61, 0x58, 0x61] r k →
        r = [0x61, 0x58, 0x61, 0x58, 0x61, 0x58, 0x61] ∧ k = 2)
    ∧ WzString.replace_str_count 4 ⟨[0x61, 0x58, 0x61]⟩ (WzStringRef.object ⟨[0x61]⟩)
        (WzStringRef.object ⟨[0x61, 0x58, 0x61]⟩)
          = some (⟨[0x61, 0x58, 0x61, 0x58, 0x61, 0x58, 0x61]⟩, 2) := by
  have hscan : ScanReplace [0x61] [0x61, 0x58, 0x61] [0x61, 0x58, 0x61]
      [0x61, 0x58, 0x61, 0x58, 0x61, 0x58, 0x61] 2 :=
    ScanReplace.hit [0x58, 0x61] [0x58, 0x61, 0x58, 0x61] 1
      (ScanReplace.skip 0x58 [0x61] [0x61, 0x58, 0x61] 1 (by decide)
        (ScanReplace.hit [] [] 0 ScanReplace.done))
  refine ⟨by decide, ?_, hscan, ?_, by decide⟩
  · intro fuel
    unfold WzString.replace_str_count
    rw [if_neg (by decide)]
    rw [replace_str_loop_after_self ⟨[0x61]⟩ (by decide) [0x61, 0x58, 0x61] 0 (by decide)]
    rfl
  · intro r k h
    exact ScanReplace_unique [0x61] [0x61, 0x58, 0x61] (by decide) _ _ _ _ _ _ (Nat.le_refl _)
      h hscan

/-- `replace(before, after)` with `before` and `after` bound to objects other than the Text
ends. For a non-empty `before` the search-and-substitute loop of every Text `s` ends within
`|s| / |before|` substitutions (one more turn finds nothing), whatever `after` is (empty, or
holding `before`); more turns give the same result, which is the result of `replace`. On every
turn that finds an occurrence, the number of octets after the search cursor decreases by at
least `|before|`. With an empty `before` the loop is not entered at all. -/
theorem replace_str_terminates (s before after : WzString)
    (hb : before._utf8String ≠ []) :
    (∃ r k,
        WzString.replace_str_loop (WzStringRef.object before) (WzStringRef.object after)
          (s._utf8String.length / before._utf8String.length + 1) s._utf8String 0 0 = some (r, k)
        ∧ k ≤ s._utf8String.length / before._utf8String.length
        ∧ (∀ extra, WzString.replace_str_loop (WzStringRef.object before)
            (WzStringRef.object after)
            (s._utf8String.length / before._utf8String.length + 1 + extra) s._utf8String 0 0
              = some (r, k))
        ∧ WzString.replace_str s (WzStringRef.object before) (WzStringRef.object after)
            = some ⟨r⟩)
    ∧ (∀ (buf : List Byte) (pos p : Nat),
        std_find buf before._utf8String pos = some p →
          pos ≤ p ∧ p + before._utf8String.length ≤ buf.length
          ∧ (buf.take p ++ after._utf8String ++ buf.drop (p + before._utf8String.length)).length
              - (p + after._utf8String.length) + before._utf8String.length
            ≤ buf.length - pos)
    ∧ (∀ (s2 : WzString) (after2 : WzStringRef) (fuel : Nat),
        WzString.replace_str_count fuel s2 (WzStringRef.object ⟨[]⟩) after2 = some (s2, 0)) := by
  have hpos : 0 < before._utf8String.length := List.length_pos.2 hb
  refine ⟨?_, ?_, ?_⟩
  · obtain ⟨r, j, hr, hsc⟩ := replace_str_loop_div before after hb
      (s._utf8String.length / before._utf8String.length + 1) [] s._utf8String 0
      (Nat.lt_succ_self _)
    simp only [List.nil_append, List.length_nil, Nat.zero_add] at hr
    refine ⟨r, j, hr, ?_, ?_, ?_⟩
    · have := ScanReplace_count_le _ _ _ _ _ hsc
      exact (Nat.le_div_iff_mul_le hpos).2 this
    · intro extra
      obtain ⟨r3, j3, hr3, hsc3⟩ := replace_str_loop_div before after hb
        (s._utf8String.length / before._utf8String.length + 1 + extra)
        [] s._utf8String 0 (by omega)
      simp only [List.nil_append, List.length_nil, Nat.zero_add] at hr3
      obtain ⟨e1, e2⟩ := ScanReplace_unique _ _ hb _ _ _ _ _ _ (Nat.le_refl _) hsc3 hsc
      rw [hr3, e1, e2]
    · obtain ⟨r3, k3, hr3, hsc3⟩ := replace_str_count_spec s before after hb
      obtain ⟨e1, e2⟩ := ScanReplace_unique _ _ hb _ _ _ _ _ _ (Nat.le_refl _) hsc3 hsc
      unfold WzString.replace_str
      rw [hr3, e1]
      rfl
  · intro buf pos p h
    obtain ⟨hle, u, v, hbuf, hu⟩ := std_find_some buf _ pos p h
    subst hu
    have e1 : buf.take u.length = u := by
      rw [hbuf, List.append_assoc, List.take_left']
      rfl
    have e2 : buf.drop (u.length + before._utf8String.length) = v := by
      rw [hbuf, ← List.length_append, List.drop_left']
      rfl
    rw [e1, e2]
    have hl : buf.length = u.length + before._utf8String.length + v.length := by
      rw [hbuf]
      simp only [List.length_append]
    simp only [List.length_append]
    omega
  · intro s2 after2 fuel
    simp [WzString.replace_str_count, WzStringRef._utf8String]

/-- C11 fails on the code when `before` is the Text itself and `after` is empty. For every
non-empty Text `s` the call `s.replace(s, WzString())` does not end, however many turns the
loop is allowed: the emptiness test of `before` passes, the first turn replaces the whole
buffer by the empty `after`, which empties `before` with it, and from then on every turn finds
the empty `before` at index 0 of the empty buffer and leaves the buffer empty and the cursor
at 0. With a copy of the Text as `before` the same call returns the empty Text. -/
theorem C11_replace_str_before_is_the_text (s : WzString) (hs : s._utf8String ≠ []) :
    WzString.replace_str s WzStringRef.self (WzStringRef.object ⟨[]⟩) = none
    ∧ (∀ fuel,
        WzString.replace_str_count fuel s WzStringRef.self (WzStringRef.object ⟨[]⟩) = none)
    ∧ (∀ fuel k,
        WzString.replace_str_loop WzStringRef.self (WzStringRef.object ⟨[]⟩) (fuel + 1)
            s._utf8String 0 k
          = WzString.replace_str_loop WzStringRef.self (WzStringRef.object ⟨[]⟩) fuel [] 0
              (k + 1))
    ∧ (∀ fuel k,
        WzString.replace_str_loop WzStringRef.self (WzStringRef.object ⟨[]⟩) (fuel + 1) [] 0 k
          = WzString.replace_str_loop WzStringRef.self (WzStringRef.object ⟨[]⟩) fuel [] 0
              (k + 1))
    ∧ WzString.replace_str s (WzStringRef.object s) (WzStringRef.object ⟨[]⟩) = some ⟨[]⟩ := by
  have hcount : ∀ fuel,
      WzString.replace_str_count fuel s WzStringRef.self (WzStringRef.object ⟨[]⟩) = none := by
    intro fuel
    unfold WzString.replace_str_count
    simp only [WzStringRef._utf8String]
    rw [if_neg hs, replace_str_loop_self_empty_none]
  refine ⟨?_, hcount, ?_, ?_, ?_⟩
  · unfold WzString.replace_str
    rw [hcount]
    rfl
  · exact fun fuel k => replace_str_loop_self_empty_turn _ fuel k
  · exact fun fuel k => replace_str_loop_empty_turn fuel k
  · obtain ⟨r, k, hr, hsc⟩ := replace_str_count_spec s s ⟨[]⟩ hs
    have h1 : ScanReplace s._utf8String [] s._utf8String [] 1 := by
      have := @ScanReplace.hit s._utf8String [] [] [] 0 ScanReplace.done
      simpa using this
    obtain ⟨e1, _⟩ := ScanReplace_unique _ _ hs _ _ _ _ _ _ (Nat.le_refl _) hsc h1
    unfold WzString.replace_str
    rw [hr, e1]
    rfl

/-- Witness of C11 on the code: `s.replace(s, WzString())` for `s = "ab"`. -/
theorem C11_replace_str_before_is_the_text_witness :
    WzString.replace_str ⟨[0x61, 0x62]⟩ WzStringRef.self (WzStringRef.object ⟨[]⟩) = none
    ∧ (∀ fuel, WzString.replace_str_count fuel ⟨[0x61, 0x62]⟩ WzStringRef.self
        (WzStringRef.object ⟨[]⟩) = none)
    ∧ (∀ fuel k,
        WzString.replace_str_loop WzStringRef.self (WzStringRef.object ⟨[]⟩) (fuel + 1)
            [0x61, 0x62] 0 k
          = WzString.replace_str_loop WzStringRef.self (WzStringRef.object ⟨[]⟩) fuel [] 0
              (k + 1))
    ∧ (∀ fuel k,
        WzString.replace_str_loop WzStringRef.self (WzStringRef.object ⟨[]⟩) (fuel + 1) [] 0 k
          = WzString.replace_str_loop WzStringRef.self (WzStringRef.object ⟨[]⟩) fuel [] 0
              (k + 1))
    ∧ WzString.replace_str ⟨[0x61, 0x62]⟩ (WzStringRef.object ⟨[0x61, 0x62]⟩)
        (WzStringRef.object ⟨[]⟩) = some ⟨[]⟩ :=
  C11_replace_str_before_is_the_text ⟨[0x61, 0x62]⟩ (by decide)

/-! ## The invariant -/

/-- C1: well-formedness is an invariant of the Text. Every constructor (from any octets, from
UTF-16 code units, from a valid codepoint, from a repeat count and a valid codepoint, from
`number`) yields a well-formed UTF-8 buffer, and every mutation (append, insert, remove,
replace(pos, n, codepoint), replace(before, after), truncate, leftPadToMinimumLength, clear,
assignment of a codepoint, assignment through a codepoint reference) of well-formed Texts with
valid codepoint arguments returns and leaves a well-formed UTF-8 buffer. For
`replace(before, after)` this holds with the two references bound to other objects and with
either of them bound to the Text itself; the one call that does not return,
`s.replace(s, WzString())` on a non-empty `s`, is left out. For `number(double)` the text
written by the classic-locale stream is taken to be ASCII. -/
theorem C1_wellFormed_invariant (s x before after : WzString) (c : Nat)
    (hs : WellFormed s._utf8String) (hx : WellFormed x._utf8String)
    (hb : WellFormed before._utf8String) (ha : WellFormed after._utf8String)
    (hc : validCodepoint c) :
    ((∀ strict str size, ∃ t, (WzString.WzString_str_size strict str size).result = Except.ok t
        ∧ WellFormed t._utf8String)
      ∧ (∀ strict str size, ∃ t, (WzString.fromUtf8 strict str size).result = Except.ok t
        ∧ WellFormed t._utf8String)
      ∧ (∀ strict str, ∃ t, (WzString.fromUtf8_string strict str).result = Except.ok t
        ∧ WellFormed t._utf8String)
      ∧ (∀ utf16, ∃ t, (WzString.fromUtf16 utf16).result = Except.ok t
        ∧ WellFormed t._utf8String)
      ∧ (∃ t, WzString.fromCodepoint c = Except.ok t ∧ WellFormed t._utf8String)
      ∧ (∀ size, ∃ t, (WzString.WzString_size_ch size c).result = Except.ok t
        ∧ WellFormed t._utf8String)
      ∧ (∀ n, WellFormed (WzString.number n)._utf8String)
      ∧ (∀ ss_str : List Byte, (∀ b ∈ ss_str, b.val < 0x80) →
          WellFormed (WzString.number_double ss_str)._utf8String))
    ∧ (WellFormed (WzString.append_str s x)._utf8String
      ∧ (∃ t, WzString.append_c s c = Except.ok t ∧ WellFormed t._utf8String)
      ∧ (∀ strict str, ∃ t, (WzString.append_cstr strict s str).result = Except.ok t
        ∧ WellFormed t._utf8String)
      ∧ (∀ pos, ∃ t, (WzString.insert_str s pos x).result = Except.ok t
        ∧ WellFormed t._utf8String)
      ∧ (∀ pos, ∃ t, (WzString.insert_c s pos c).result = Except.ok t
        ∧ WellFormed t._utf8String)
      ∧ (∀ i len, ∃ t, WzString.remove s i len = Except.ok t ∧ WellFormed t._utf8String)
      ∧ (∀ pos n, ∃ t, WzString.replace_pos s pos n c = Except.ok t
        ∧ WellFormed t._utf8String)
      ∧ (∃ t, WzString.replace_str s (WzStringRef.object before) (WzStringRef.object after)
          = some t ∧ WellFormed t._utf8String)
      ∧ (∀ rb ra : WzStringRef, WellFormed (rb._utf8String s._utf8String) →
          WellFormed (ra._utf8String s._utf8String) →
          ¬ (rb = WzStringRef.self ∧ s._utf8String ≠ []
            ∧ ra._utf8String s._utf8String = []) →
          ∃ t, WzString.replace_str s rb ra = some t ∧ WellFormed t._utf8String)
      ∧ (∀ pos, ∃ t, WzString.truncate s pos = Except.ok t ∧ WellFormed t._utf8String)
      ∧ (∀ len, ∃ t, (WzString.leftPadToMinimumLength s c len).result = Except.ok t
        ∧ WellFormed t._utf8String)
      ∧ WellFormed (WzString.clear s)._utf8String
      ∧ (∃ t, WzString.assign_c s c = Except.ok t ∧ WellFormed t._utf8String)
      ∧ (∀ cp0 pos, ∃ t, WzUniCodepointRef.assign ⟨cp0, s, pos⟩ c = Except.ok t
        ∧ WellFormed t._utf8String)) := by
  obtain ⟨buf⟩ := s
  obtain ⟨cs, hv, hbuf⟩ := hs
  simp only at hbuf
  subst hbuf
  have hs : WellFormed (utf8EncodeAll cs) := wellFormed_encodeAll cs hv
  have hreplace : ∀ pos n, ∃ t, WzString.replace_pos ⟨utf8EncodeAll cs⟩ pos n c = Except.ok t
      ∧ WellFormed t._utf8String := by
    intro pos n
    by_cases hp : pos ≤ cs.length
    · refine ⟨_, replace_pos_encode cs hv pos n c hc hp, wellFormed_encodeAll _ ?_⟩
      intro y hy
      rcases List.mem_append.1 hy with h | h
      · rcases List.mem_append.1 h with h | h
        · exact valid_take cs hv pos y h
        · rw [List.eq_of_mem_replicate h]; exact hc
      · exact valid_drop cs hv _ y h
    · exact ⟨_, replace_pos_outside cs hv pos n c (by omega), hs⟩
  refine ⟨⟨?_, ?_, ?_, ?_, ?_, ?_, ?_, ?_⟩,
    ?_, ?_, ?_, ?_, ?_, ?_, ?_, ?_, ?_, ?_, ?_, ?_, ?_, ?_⟩
  · exact fun strict str size => WzString_str_size_wellFormed strict str size
  · exact fun strict str size => WzString_str_size_wellFormed strict str size
  · exact fun strict str => WzString_str_size_wellFormed strict _ _
  · exact fromUtf16_wellFormed
  · exact ⟨_, fromCodepoint_valid c hc, wellFormed_encode c hc⟩
  · exact fun size => WzString_size_ch_wellFormed size c
  · exact fun n => ascii_wellFormed _ (to_string_int_ascii n)
  · exact fun ss_str h => ascii_wellFormed _ h
  · exact wellFormed_append _ _ hs hx
  · refine ⟨⟨utf8EncodeAll cs ++ utf8Encode c⟩, ?_,
      wellFormed_append _ _ hs (wellFormed_encode c hc)⟩
    unfold WzString.append_c
    rw [append_eq c hc]
  · exact fun strict str => append_cstr_wellFormed strict _ str hs
  · exact fun pos => insert_str_wellFormed _ x pos hs hx
  · intro pos
    refine ⟨_, insert_c_encode cs hv c hc pos, ?_⟩
    exact wellFormed_append _ _
      (wellFormed_append _ _ (wellFormed_encodeAll _ (valid_take cs hv pos))
        (wellFormed_encode c hc))
      (wellFormed_encodeAll _ (valid_drop cs hv pos))
  · intro i len
    by_cases hl : 0 < len
    · refine ⟨_, remove_encode cs hv i len hl, wellFormed_encodeAll _ ?_⟩
      intro y hy
      rcases List.mem_append.1 hy with h | h
      · exact valid_take cs hv i y h
      · exact valid_drop cs hv _ y h
    · refine ⟨⟨utf8EncodeAll cs⟩, ?_, hs⟩
      unfold WzString.remove
      rw [if_pos (by omega)]
  · exact hreplace
  · exact replace_str_wellFormed _ before after hs hb ha
  · exact fun rb ra hrb hra hne => replace_str_ref_wellFormed _ rb ra hs hrb hra hne
  · exact fun pos => ⟨_, truncate_encode cs hv pos, wellFormed_encodeAll _ (valid_take cs hv _)⟩
  · exact fun len => leftPad_wellFormed _ c len hs hc
  · exact wellFormed_nil
  · refine ⟨⟨utf8Encode c⟩, ?_, wellFormed_encode c hc⟩
    unfold WzString.assign_c WzString.append_c
    rw [append_eq c hc]
    rfl
  · exact fun cp0 pos => hreplace pos 1

/-- Witness of C1: the Text "éa" with the arguments "X", "a", "é" and the codepoint U+20AC. -/
theorem C1_wellFormed_invariant_witness :
    ∃ t, (WzString.insert_str ⟨[0xC3, 0xA9, 0x61]⟩ 1 ⟨[0x58]⟩).result = Except.ok t
      ∧ WellFormed t._utf8String :=
  (C1_wellFormed_invariant ⟨[0xC3, 0xA9, 0x61]⟩ ⟨[0x58]⟩ ⟨[0x61]⟩ ⟨[0xC3, 0xA9]⟩ 0x20AC
    ⟨[0xE9, 0x61], by decide, by decide⟩ ⟨[0x58], by decide, by decide⟩
    ⟨[0x61], by decide, by decide⟩ ⟨[0xE9], by decide, by decide⟩ (by decide)).2.2.2.2.1 1
